import Mathlib

/-!
Verification of the `rs_bom` core library (corpus parser and citation
reference engine) against its natural-language specification.

The Rust code is shallowly embedded: strings are modelled as `List Char`
(the texts of interest are ASCII, so `char`-level and byte-level indexing
agree and Unicode case conversion restricts to ASCII case conversion),
machine integers (`usize`) are modelled as `Nat` (no input in scope
approaches overflow), and fallible functions return `Except`/`Option`.
Every definition mirrors the corresponding Rust item in
`src/rs_bom/src/reference.rs`, `src/rs_bom/src/parsers.rs` and
`src/rs_bom/src/lib.rs`; source names are kept wherever Lean allows.
-/

set_option maxRecDepth 10000

namespace RsBom

/-- Strings are modelled as lists of characters. -/
abbrev Str := List Char

/-- Convert a Lean string literal to the character-list model. -/
def str (s : String) : Str := s.data

/-- Rust `char::is_whitespace`, restricted to the ASCII fragment
(the only characters the corpus and citations use). -/
def isWsChar (c : Char) : Bool :=
  c = ' ' || c = '\t' || c = '\n' || c = '\x0b' || c = '\x0c' || c = '\r'

/-- Regex `\d` / `char::is_ascii_digit` on ASCII text. -/
def isDigitChar (c : Char) : Bool := c.isDigit

/-- Regex `[A-Za-z]`. -/
def isAlphaChar (c : Char) : Bool := c.isAlpha

/-- Rust `str::split` on a character predicate: every separator occurrence
splits, empty pieces are kept, and the result is always non-empty. -/
def splitOnP (p : Char → Bool) : Str → List Str
  | [] => [[]]
  | c :: rest =>
    if p c then [] :: splitOnP p rest
    else
      match splitOnP p rest with
      | [] => [[c]]
      | s :: ss => (c :: s) :: ss

/-- Rust `str::split(c)` for a single separator character. -/
def splitOnChar (c : Char) : Str → List Str := splitOnP (fun d => d = c)

/-- Length of the leading run of characters satisfying `p`. -/
def countLeading (p : Char → Bool) (s : Str) : Nat := (s.takeWhile p).length

/-- Rust `str::trim_start` (ASCII fragment). -/
def trimLeft (s : Str) : Str := s.dropWhile (fun c => isWsChar c)

/-- Rust `str::trim_end` (ASCII fragment). -/
def trimRight (s : Str) : Str := (trimLeft s.reverse).reverse

/-- Rust `str::trim` (ASCII fragment). -/
def trim (s : Str) : Str := trimRight (trimLeft s)

/-- Rust `str::trim_matches('\n')`: strip a run of newlines from both ends. -/
def trimNewlines (s : Str) : Str :=
  ((s.dropWhile (fun c => c = '\n')).reverse.dropWhile (fun c => c = '\n')).reverse

/-- Numeric value of a list of ASCII digit characters. -/
def digitsToNat (s : Str) : Nat := s.foldl (fun a c => a * 10 + (c.toNat - 48)) 0

/-- Rust `str::parse::<usize>()`: an optional `+` sign followed by at least
one ASCII digit, with nothing else.  (Overflow is not modelled: `usize` is
embedded as `Nat`.) -/
def parseNatRust (s : Str) : Option Nat :=
  let t := match s with
    | '+' :: r => r
    | _ => s
  if t ≠ [] && t.all (fun c => isDigitChar c) then some (digitsToNat t) else none

/-- Digit character for a value below ten. -/
def digitChar (n : Nat) : Char := Char.ofNat (48 + n)

/-- Decimal digits, least significant first, by fuel (the fuel argument
only needs to be at least the number itself; structural recursion keeps
every later evaluation kernel-reducible). -/
def natDigitsRevAux : Nat → Nat → List Nat
  | 0, _ => []
  | _ + 1, 0 => []
  | fuel + 1, n + 1 => ((n + 1) % 10) :: natDigitsRevAux fuel ((n + 1) / 10)

/-- Decimal digits of a positive number, least significant first. -/
def natDigitsRev (n : Nat) : List Nat := natDigitsRevAux n n

/-- Rust's `Display` for `usize`: canonical decimal notation. -/
def natToChars (n : Nat) : Str :=
  if n = 0 then ['0'] else ((natDigitsRev n).reverse.map digitChar)

/-- First index at which `pat` occurs in `s` (Rust `str::find` for a
string pattern). -/
def findSubstrIdx : Str → Str → Option Nat
  | s, pat =>
    if pat.isPrefixOf s then some 0
    else
      match s with
      | [] => none
      | _ :: rest => (findSubstrIdx rest pat).map (· + 1)

/-- Occurrence-splitting on a multi-character separator
(Rust `str::split("\n\n")`), by fuel over the string length. -/
def splitSubAux (sep : Str) : Nat → Str → List Str
  | 0, s => [s]
  | fuel + 1, s =>
    match findSubstrIdx s sep with
    | none => [s]
    | some i => s.take i :: splitSubAux sep fuel (s.drop (i + sep.length))

/-- Rust `str::split(sep)` for a non-empty string separator. -/
def splitSub (sep s : Str) : List Str := splitSubAux sep s.length s

/- ## Reference data model (`src/rs_bom/src/reference.rs`) -/

/-- Citation delimiters from `reference.rs`. -/
def CITATION_DELIM : Char := ';'

/-- Verse chunk delimiter. -/
def VERSE_CHUNK_DELIM : Char := ','

/-- Chapter/verse delimiter. -/
def CHAPTER_VERSE_DELIM : Char := ':'

/-- Canonical range dash (en-dash). -/
def RANGE_DELIM_CANONICAL : Char := '–'

/-- Accepted non-canonical range dash (regular dash). -/
def RANGE_DELIM_NON_CANONICAL1 : Char := '-'

/-- Accepted non-canonical range dash (em-dash). -/
def RANGE_DELIM_NON_CANONICAL2 : Char := '—'

/-- The `Work` enum: which volume of scripture a reference lives in. -/
inductive Work where
  | oldTestament
  | newTestament
  | bookOfMormon
deriving DecidableEq, Repr

/-- Everything needed to uniquely identify a single verse
(struct `VerseReference`; `book_index` 0-based, `chapter_index` and
`verse_index` 1-based). -/
structure VerseReference where
  work : Work
  book_index : Nat
  chapter_index : Nat
  verse_index : Nat
deriving DecidableEq, Repr

/-- Enum `RangeType`.  `endv` models the Rust field `end` (a reserved word
in Lean). -/
inductive RangeType where
  | startEndVerse (chapter : Nat) (start : Nat) (endv : Nat)
  | startEndChapter (start : Nat) (endv : Nat)
deriving DecidableEq, Repr

/-- Method `RangeType::chapter_range`: chapter span covered by the range
(a verse range degenerates to its single chapter). -/
def RangeType.chapter_range : RangeType → Nat × Nat
  | .startEndChapter s e => (s, e)
  | .startEndVerse c _ _ => (c, c)

/-- Method `RangeType::verse_range`: the verse span when this is a verse
range. -/
def RangeType.verse_range : RangeType → Option (Nat × Nat)
  | .startEndChapter _ _ => none
  | .startEndVerse _ s e => some (s, e)

/-- The `Ord` implementation on `RangeType` (`impl Ord for RangeType`). -/
def RangeType.cmp : RangeType → RangeType → Ordering
  | .startEndVerse c s e, .startEndVerse oc os oe =>
    match compare c oc with
    | .eq => match compare s os with
             | .eq => compare e oe
             | comp => comp
    | comp => comp
  | .startEndVerse c _ _, .startEndChapter os oe =>
    match compare c os with
    | .eq => compare c oe
    | comp => comp
  | .startEndChapter os oe, .startEndVerse c _ _ =>
    match compare os c with
    | .eq => compare oe c
    | comp => comp
  | .startEndChapter s e, .startEndChapter os oe =>
    match compare s os with
    | .eq => compare e oe
    | comp => comp

/-- One citation clause (struct `VerseRangeReference`). -/
structure VerseRangeReference where
  range_type : RangeType
  book_index : Nat
  work : Work
deriving DecidableEq, Repr

/-- The `Ord` implementation on `VerseRangeReference`: book index first,
then the range-type comparison. -/
def VerseRangeReference.cmp (a b : VerseRangeReference) : Ordering :=
  match compare a.book_index b.book_index with
  | .eq => RangeType.cmp a.range_type b.range_type
  | comp => comp

/- ## Corpus data model (`src/rs_bom/src/lib.rs`) -/

/-- A verse holds raw text only (struct `Verse`). -/
structure Verse where
  text : Str
deriving DecidableEq, Repr

/-- A chapter is an ordered list of verses (struct `Chapter`). -/
structure Chapter where
  verses : List Verse
deriving DecidableEq, Repr

/-- A book (struct `Book`). -/
structure Book where
  title : Str
  short_title : Option Str
  description : Option Str
  chapters : List Chapter
deriving DecidableEq, Repr

/-- Front-matter testimony (struct `WitnessTestimony`). -/
structure WitnessTestimony where
  title : Str
  text : Str
  signatures : Str
deriving DecidableEq, Repr

/-- The parsed corpus (struct `BOM`). -/
structure BOM where
  title : Str
  subtitle : Str
  translator : Str
  last_updated : Str
  language : Str
  title_page_text : Str
  witness_testimonies : List WitnessTestimony
  books : List Book
deriving DecidableEq, Repr

/- ## Book-name table (`BOOK_DATA` in `reference.rs`) -/

/-- Static data about one book (struct `BookData`). -/
structure BookData where
  work : Work
  long_name : Str
  short_name : Str
  url_name : Str
  book_index : Nat
deriving DecidableEq, Repr

/-- Constructor shorthand matching `BookData::new`. -/
def bdNew (w : Work) (l s u : String) (i : Nat) : BookData :=
  ⟨w, l.data, s.data, u.data, i⟩

/-- The full static book table (`BOOK_DATA`). -/
def BOOK_DATA : List BookData := [
  bdNew .oldTestament "Genesis" "Gen." "gen" 0,
  bdNew .oldTestament "Exodus" "Ex." "ex" 1,
  bdNew .oldTestament "Leviticus" "Lev." "lev" 2,
  bdNew .oldTestament "Numbers" "Num." "num" 3,
  bdNew .oldTestament "Deuteronomy" "Deut." "deut" 4,
  bdNew .oldTestament "Joshua" "Josh." "josh" 5,
  bdNew .oldTestament "Judges" "Judg." "judg" 6,
  bdNew .oldTestament "Ruth" "Ruth" "ruth" 7,
  bdNew .oldTestament "1 Samuel" "1 Sam." "1-sam" 8,
  bdNew .oldTestament "2 Samuel" "2 Sam." "2-sam" 9,
  bdNew .oldTestament "1 Kings" "1 Kgs." "1-kgs" 10,
  bdNew .oldTestament "2 Kings" "2 Kgs." "2-kgs" 11,
  bdNew .oldTestament "1 Chronicles" "1 Chron." "1-chron" 12,
  bdNew .oldTestament "2 Chronicles" "2 Chron." "2-chron" 13,
  bdNew .oldTestament "Ezra" "Ezra" "ezra" 14,
  bdNew .oldTestament "Nehemiah" "Neh." "neh" 15,
  bdNew .oldTestament "Esther" "Esth." "esth" 16,
  bdNew .oldTestament "Job" "Job" "job" 17,
  bdNew .oldTestament "Psalms" "Ps." "ps" 18,
  bdNew .oldTestament "Proverbs" "Prov." "prov" 19,
  bdNew .oldTestament "Ecclesiastes" "Eccl." "eccl" 20,
  bdNew .oldTestament "Song of Solomon" "Song." "song" 21,
  bdNew .oldTestament "Isaiah" "Isa." "isa" 22,
  bdNew .oldTestament "Jeremiah" "Jer." "jer" 23,
  bdNew .oldTestament "Lamentations" "Lam." "lam" 24,
  bdNew .oldTestament "Ezekiel" "Ezek." "ezek" 25,
  bdNew .oldTestament "Daniel" "Dan." "dan" 26,
  bdNew .oldTestament "Hosea" "Hosea" "hosea" 27,
  bdNew .oldTestament "Joel" "Joel" "joel" 28,
  bdNew .oldTestament "Amos" "Amos" "amos" 29,
  bdNew .oldTestament "Obadiah" "Obad." "obad" 30,
  bdNew .oldTestament "Jonah" "Jonah" "jonah" 31,
  bdNew .oldTestament "Micah" "Micah" "micah" 32,
  bdNew .oldTestament "Nahum" "Nahum" "nahum" 33,
  bdNew .oldTestament "Habakkuk" "Hab." "hab" 34,
  bdNew .oldTestament "Zephaniah" "Zeph." "zeph" 35,
  bdNew .oldTestament "Haggai" "Hag." "hag" 36,
  bdNew .oldTestament "Zechariah" "Zech." "zech" 37,
  bdNew .oldTestament "Malachi" "Mal." "mal" 38,
  bdNew .newTestament "Matthew" "Matt." "matt" 0,
  bdNew .newTestament "Mark" "Mark" "mark" 1,
  bdNew .newTestament "Luke" "Luke" "luke" 2,
  bdNew .newTestament "John" "John" "john" 3,
  bdNew .newTestament "Acts" "Acts" "acts" 4,
  bdNew .newTestament "Romans" "Rom." "rom" 5,
  bdNew .newTestament "1 Corinthians" "1 Cor." "1-cor" 6,
  bdNew .newTestament "2 Corinthians" "2 Cor." "2-cor" 7,
  bdNew .newTestament "Galatians" "Gal." "gal" 8,
  bdNew .newTestament "Ephesians" "Eph." "eph" 9,
  bdNew .newTestament "Philippians" "Philip." "philip" 10,
  bdNew .newTestament "Colossians" "Col." "col" 11,
  bdNew .newTestament "1 Thessalonians" "1 Thes." "1-thes" 12,
  bdNew .newTestament "2 Thessalonians" "2 Thes." "2-thes" 13,
  bdNew .newTestament "1 Timothy" "1 Tim." "1-tim" 14,
  bdNew .newTestament "2 Timothy" "2 Tim." "2-tim" 15,
  bdNew .newTestament "Titus" "Titus" "titus" 16,
  bdNew .newTestament "Philemon" "Philem." "philem" 17,
  bdNew .newTestament "Hebrews" "Heb." "heb" 18,
  bdNew .newTestament "James" "James" "james" 19,
  bdNew .newTestament "1 Peter" "1 Pet." "1-pet" 20,
  bdNew .newTestament "2 Peter" "2 Pet." "2-pet" 21,
  bdNew .newTestament "1 John" "1 Jn." "1-jn" 22,
  bdNew .newTestament "2 John" "2 Jn." "2-jn" 23,
  bdNew .newTestament "3 John" "3 Jn." "3-jn" 24,
  bdNew .newTestament "Jude" "Jude" "jude" 25,
  bdNew .newTestament "Revelation" "Rev." "rev" 26,
  bdNew .bookOfMormon "1 Nephi" "1 Ne." "1-ne" 0,
  bdNew .bookOfMormon "2 Nephi" "2 Ne." "2-ne" 1,
  bdNew .bookOfMormon "Jacob" "Jacob" "jacob" 2,
  bdNew .bookOfMormon "Enos" "Enos" "enos" 3,
  bdNew .bookOfMormon "Jarom" "Jarom" "jarom" 4,
  bdNew .bookOfMormon "Omni" "Omni" "omni" 5,
  bdNew .bookOfMormon "Words of Mormon" "W of M" "w-of-m" 6,
  bdNew .bookOfMormon "Mosiah" "Mosiah" "mosiah" 7,
  bdNew .bookOfMormon "Alma" "Alma" "alma" 8,
  bdNew .bookOfMormon "Helaman" "Hel." "hel" 9,
  bdNew .bookOfMormon "3 Nephi" "3 Ne." "3-ne" 10,
  bdNew .bookOfMormon "4 Nephi" "4 Ne." "4-ne" 11,
  bdNew .bookOfMormon "Mormon" "Morm." "morm" 12,
  bdNew .bookOfMormon "Ether" "Ether" "ether" 13,
  bdNew .bookOfMormon "Moroni" "Moro." "moro" 14]

/-- Function `book_data_from_candidate_title`: first table entry whose long
or short name equals the candidate. -/
def book_data_from_candidate_title (candidate : Str) : Option BookData :=
  BOOK_DATA.find? (fun d => d.long_name == candidate || d.short_name == candidate)

/- ## Citation parsing (`impl str::FromStr for RangeCollection`) -/

/-- Errors from the reference engine (`BOMError::ReferenceError`; the
text-parsing variant wraps a corpus parse error and is defined later). -/
inductive BOMError where
  | referenceError (msg : Str)
deriving DecidableEq, Repr

/-- Function `extract_number`: trim, then `parse::<usize>()`. -/
def extract_number (s : Str) : Except BOMError Nat :=
  let t := trim s
  match parseNatRust t with
  | some n => .ok n
  | none => .error (.referenceError (str "Unable to parse number from " ++ t))

/-- Function `extract_range`: split on the three accepted dash characters;
one piece gives a degenerate range, two pieces give `lower < upper`. -/
def extract_range (s : Str) : Except BOMError (Nat × Nat) :=
  let split := splitOnP
    (fun c => c = RANGE_DELIM_CANONICAL || c = RANGE_DELIM_NON_CANONICAL1
      || c = RANGE_DELIM_NON_CANONICAL2) s
  match split with
  | [x] => do
    let num ← extract_number x
    .ok (num, num)
  | [x, y] => do
    let lower ← extract_number x
    let upper ← extract_number y
    if lower ≥ upper then
      .error (.referenceError (str "Range is invalid: " ++ s))
    else
      .ok (lower, upper)
  | _ => .error (.referenceError (str "Too many dashes (-) found in " ++ s))

/-- Largest index `k < n` such that `s[k] = ' '`. -/
def lastSpaceBefore (s : Str) (n : Nat) : Option Nat :=
  ((List.range n).filter (fun k => s.getD k ' ' = ' ' ∧ k < s.length)).getLast?

/-- Core of the leftmost-greedy match of the anchored regex
`^(?P<name>(\\d\\s)?[A-Za-z ]+\\.?)\\s+` after the optional `(\\d\\s)` group has
been consumed into `pre`: the greedy class run `[A-Za-z ]+` backtracks only
to leave a whitespace character for the trailing `\\s+`, preferring to keep
an immediately following `.` first. -/
def regexBookNameCore (pre rest : Str) : Option Str :=
  let n := countLeading (fun c => isAlphaChar c || c = ' ') rest
  if n = 0 then none
  else
    match rest.drop n with
    | '.' :: w :: _ =>
      if isWsChar w then some (pre ++ rest.take n ++ ['.'])
      else
        match lastSpaceBefore rest n with
        | some k => some (pre ++ rest.take k)
        | none => none
    | c :: _ =>
      if isWsChar c then some (pre ++ rest.take n)
      else
        match lastSpaceBefore rest n with
        | some k => some (pre ++ rest.take k)
        | none => none
    | [] =>
      match lastSpaceBefore rest n with
      | some k => some (pre ++ rest.take k)
      | none => none

/-- Leftmost-greedy match of the anchored regex
`^(?P<name>(\\d\\s)?[A-Za-z ]+\\.?)\\s+` (the `POSSIBLE_BOOK_NAME` pattern),
returning the `name` capture.  The optional `(\\d\\s)` group is forced by the
first character (a digit can begin no other alternative). -/
def regexPossibleBookName (s : Str) : Option Str :=
  match s with
  | a :: b :: t =>
    if isDigitChar a && isWsChar b then regexBookNameCore [a, b] t
    else regexBookNameCore [] s
  | _ => regexBookNameCore [] s

/-- Function `extract_book_name`: regex-match a candidate name at the start
of the trimmed clause, look it up in the book table, and return the index
just past the name in the original string together with the book's index
and work.  (The `s.find(trimmed).unwrap()` in the source cannot fail once
the lookup has succeeded; the impossible branch reuses the error value.) -/
def extract_book_name (s : Str) : Except BOMError (Nat × Nat × Work) :=
  let s_trimmed := trim s
  let failure : Except BOMError (Nat × Nat × Work) :=
    .error (.referenceError (str "Book name not found as expected in " ++ s))
  match regexPossibleBookName s_trimmed with
  | some cap =>
    let trimmed := trim cap
    match book_data_from_candidate_title trimmed with
    | some book_data =>
      match findSubstrIdx s trimmed with
      | some index => .ok (index + trimmed.length, book_data.book_index, book_data.work)
      | none => failure
    | none => failure
  | none => failure

/-- Chapter-chunk loop of the zero-colon branch of `from_str`: each chunk is
a chapter range pushed onto the reference list. -/
def parseChapterChunks (book_index : Nat) (work : Work) :
    List VerseRangeReference → List Str → Except BOMError (List VerseRangeReference)
  | refs, [] => .ok refs
  | refs, chunk :: rest => do
    let (start, endv) ← extract_range chunk
    parseChapterChunks book_index work
      (refs ++ [⟨.startEndChapter start endv, book_index, work⟩]) rest

/-- Verse-chunk loop of the one-colon branch of `from_str`: each chunk is a
verse range in the clause's chapter. -/
def parseVerseChunks (book_index : Nat) (work : Work) (chapter : Nat) :
    List VerseRangeReference → List Str → Except BOMError (List VerseRangeReference)
  | refs, [] => .ok refs
  | refs, chunk :: rest => do
    let (start, endv) ← extract_range chunk
    parseVerseChunks book_index work chapter
      (refs ++ [⟨.startEndVerse chapter start endv, book_index, work⟩]) rest

/-- Processing of a single `;`-separated citation clause inside `from_str`:
split on `:`; with no colon everything is chapters (the clause must name its
book), with one colon the left side is book+chapter (the book may fall back
to the previous reference) and the right side is verse chunks. -/
def processCitation (references : List VerseRangeReference) (citation : Str) :
    Except BOMError (List VerseRangeReference) :=
  let chapter_verse_split := splitOnChar CHAPTER_VERSE_DELIM citation
  match chapter_verse_split with
  | [_only] =>
    let chapter_chunk_split := splitOnChar VERSE_CHUNK_DELIM citation
    let first_chunk := chapter_chunk_split.headD []
    match extract_book_name first_chunk with
    | .error e => .error e
    | .ok (end_of_name_index, book_index, work) =>
      parseChapterChunks book_index work references
        ((first_chunk.drop end_of_name_index) :: chapter_chunk_split.tail)
  | [book_chapter_chunk, verse_part] => do
    let (end_of_name_index, book_index, work) ←
      match extract_book_name book_chapter_chunk with
      | .ok v => Except.ok v
      | .error e =>
        match references.getLast? with
        | some prev => Except.ok (0, prev.book_index, prev.work)
        | none => Except.error e
    let chapter ← extract_number (book_chapter_chunk.drop end_of_name_index)
    parseVerseChunks book_index work chapter references
      (splitOnChar VERSE_CHUNK_DELIM verse_part)
  | _ => .error (.referenceError (str "More than 1 ':' in a single citation"))

/-- Clause loop of `from_str`. -/
def processCitations : List VerseRangeReference → List Str →
    Except BOMError (List VerseRangeReference)
  | refs, [] => .ok refs
  | refs, citation :: rest => do
    let refs' ← processCitation refs citation
    processCitations refs' rest

/-- The citation parser (`impl str::FromStr for RangeCollection`), returning
the reference list of the `RangeCollection`. -/
def from_str (s : Str) : Except BOMError (List VerseRangeReference) := do
  let references ← processCitations [] (splitOnChar CITATION_DELIM s)
  if references.isEmpty then
    .error (.referenceError (str "Unable to parse any references from string: " ++ s))
  else
    .ok references

/- ## Formatting (`impl fmt::Display for RangeCollection`) -/

/-- Short name of the table entry for a `(work, book_index)` pair (the
`BOOK_DATA.iter().find(..)` in `Display::fmt`); `none` models the
`unwrap` panic for a pair absent from the table. -/
def bookDataFor (work : Work) (book_index : Nat) : Option BookData :=
  BOOK_DATA.find? (fun d => d.work == work && d.book_index == book_index)

/-- Rendering of a range endpoint pair: a single number when degenerate,
otherwise `start–end` with the canonical en-dash. -/
def fmtRangePair (start endv : Nat) : Str :=
  if start = endv then natToChars start
  else natToChars start ++ [RANGE_DELIM_CANONICAL] ++ natToChars endv

/-- The clause loop of `Display::fmt`, carrying the index and the
`previous_book` / `previous_chapter` / `previous_work` state.  A book name
is written (with its `; ` separator when not first) whenever the book or
work changes; chapter ranges continue a book with `, `; verse ranges repeat
the previous chapter with `, ` and otherwise start `chapter:` (preceded by
`; ` when the book title was not just written). -/
def displayGo : List VerseRangeReference → Nat → Nat → Nat → Option Work → Str →
    Option Str
  | [], _, _, _, _, acc => some acc
  | r :: rest, i, previous_book, previous_chapter, previous_work, acc =>
    let new_book := previous_book != r.book_index
    let new_work := previous_work.isNone || previous_work != some r.work
    let new_book_title := new_book || new_work
    let afterTitle : Option (Str × Nat × Option Work) :=
      if new_book_title then
        match bookDataFor r.work r.book_index with
        | none => none
        | some book_data =>
          some (acc ++ (if i ≠ 0 then [CITATION_DELIM, ' '] else [])
            ++ book_data.short_name ++ [' '], r.book_index, some r.work)
      else some (acc, previous_book, previous_work)
    match afterTitle with
    | none => none
    | some (acc, previous_book, previous_work) =>
      match r.range_type with
      | .startEndChapter start endv =>
        let acc := acc ++ (if !new_book_title then [VERSE_CHUNK_DELIM, ' '] else [])
          ++ fmtRangePair start endv
        displayGo rest (i + 1) previous_book previous_chapter previous_work acc
      | .startEndVerse chapter start endv =>
        if !new_book_title && chapter == previous_chapter then
          let acc := acc ++ [VERSE_CHUNK_DELIM, ' '] ++ fmtRangePair start endv
          displayGo rest (i + 1) previous_book previous_chapter previous_work acc
        else
          let acc := acc
            ++ (if !new_book_title && i != 0 then [CITATION_DELIM, ' '] else [])
            ++ natToChars chapter ++ [CHAPTER_VERSE_DELIM] ++ fmtRangePair start endv
          displayGo rest (i + 1) previous_book chapter previous_work acc

/-- The canonical textual form of a reference list
(`impl fmt::Display for RangeCollection`).  The initial `previous_book`
and `previous_chapter` are the sentinel `1000`, guaranteed not to match a
first clause's book index; `none` models the panic on a book/work pair
missing from the table. -/
def display (refs : List VerseRangeReference) : Option Str :=
  if refs.isEmpty then some [] else displayGo refs 0 1000 1000 none []

/- ## Canonicalization (`RangeCollection::canonicalize`) -/

/-- Stable insertion of a clause into a sorted prefix: the new element goes
after all existing elements that do not compare strictly greater. -/
def insertRef (x : VerseRangeReference) : List VerseRangeReference →
    List VerseRangeReference
  | [] => [x]
  | y :: ys =>
    if VerseRangeReference.cmp x y = .lt then x :: y :: ys
    else y :: insertRef x ys

/-- Model of `Vec::sort` (a stable sort by `Ord::cmp`) as a stable insertion
sort; on inputs where the comparator is consistent (in particular on every
input this development evaluates it on) any two stable sorts agree. -/
def sortRefs (refs : List VerseRangeReference) : List VerseRangeReference :=
  refs.foldl (fun acc x => insertRef x acc) []

/-- The single merge pass of `canonicalize`, carrying the
`current_chap_range` / `current_verse_range` / `current_book` /
`current_work` running state and the accumulated `new_refs`. -/
def canonGo : List VerseRangeReference → Nat × Nat → Option (Nat × Nat) →
    Nat → Work → List VerseRangeReference → List VerseRangeReference
  | [], _, _, _, _, new_refs => new_refs
  | r :: rest, current_chap_range, current_verse_range, current_book,
      current_work, new_refs =>
    let chap_range := r.range_type.chapter_range
    let verse_range := r.range_type.verse_range
    let in_same_work := r.work = current_work
    let in_same_book := r.book_index = current_book
    let overlapping_chapter_ranges :=
      chap_range.1 ≥ current_chap_range.1 ∧ chap_range.1 ≤ current_chap_range.2 + 1
    let is_collapsible := in_same_work ∧ in_same_book ∧ overlapping_chapter_ranges
    let push : List VerseRangeReference :=
      canonGo rest chap_range verse_range r.book_index r.work (new_refs ++ [r])
    if is_collapsible then
      match verse_range, current_verse_range with
      | none, none =>
        -- both chapter-only ranges: union of the covered area
        let min_chap := min current_chap_range.1 chap_range.1
        let max_chap := max current_chap_range.2 chap_range.2
        let combined_ref : VerseRangeReference :=
          ⟨.startEndChapter min_chap max_chap, current_book, current_work⟩
        canonGo rest combined_ref.range_type.chapter_range
          combined_ref.range_type.verse_range current_book current_work
          (new_refs.dropLast ++ [combined_ref])
      | some vr, some cvr =>
        if vr.1 ≥ cvr.1 ∧ vr.1 ≤ cvr.2 + 1 then
          -- overlapping verse ranges
          let min_verse := min cvr.1 vr.1
          let max_verse := max cvr.2 vr.2
          let combined_ref : VerseRangeReference :=
            ⟨.startEndVerse current_chap_range.1 min_verse max_verse,
              current_book, current_work⟩
          canonGo rest combined_ref.range_type.chapter_range
            combined_ref.range_type.verse_range current_book current_work
            (new_refs.dropLast ++ [combined_ref])
        else push
      | none, some _ =>
        -- overlapping mixed kinds with the new clause a whole chapter:
        -- the chapter range wins outright
        let combined_ref : VerseRangeReference :=
          ⟨.startEndChapter chap_range.1 chap_range.2, current_book, current_work⟩
        canonGo rest combined_ref.range_type.chapter_range
          combined_ref.range_type.verse_range current_book current_work
          (new_refs.dropLast ++ [combined_ref])
      | some _, none =>
        -- the running clause is already a whole chapter: drop the verse clause
        canonGo rest current_chap_range current_verse_range current_book
          current_work new_refs
    else push

/-- Method `RangeCollection::canonicalize`: stable-sort the clauses, then
run the single merge pass.  (`self.refs[0]` panics on an empty collection
in the source; a successful parse never yields one, and the empty case
here returns the empty list.) -/
def canonicalize (refs : List VerseRangeReference) : List VerseRangeReference :=
  let sorted := sortRefs refs
  match sorted with
  | [] => []
  | current_ref :: rest =>
    canonGo rest current_ref.range_type.chapter_range
      current_ref.range_type.verse_range current_ref.book_index current_ref.work
      [current_ref]

/- ## Validity (`VerseRangeReference::is_valid`,
`RangeCollection::is_valid`) -/

/-- Method `VerseRangeReference::is_valid`: both endpoints must index real
chapters (for a chapter range) or real verses of the named chapter (for a
verse range); index `0` is always invalid. -/
def VerseRangeReference.is_valid (r : VerseRangeReference) (bom : BOM) : Bool :=
  let book := bom.books.get? r.book_index
  match r.range_type with
  | .startEndChapter start endv =>
    if start = 0 || endv = 0 then false
    else
      (book.bind (fun b => b.chapters.get? (start - 1))).isSome &&
      (book.bind (fun b => b.chapters.get? (endv - 1))).isSome
  | .startEndVerse chapter start endv =>
    if chapter = 0 || start = 0 || endv = 0 then false
    else
      ((book.bind (fun b => b.chapters.get? (chapter - 1))).bind
        (fun c => c.verses.get? (start - 1))).isSome &&
      ((book.bind (fun b => b.chapters.get? (chapter - 1))).bind
        (fun c => c.verses.get? (endv - 1))).isSome

/-- Method `RangeCollection::is_valid`: every clause must be valid. -/
def rangeCollectionIsValid (refs : List VerseRangeReference) (bom : BOM) : Bool :=
  refs.all (fun r => r.is_valid bom)

/- ## Expansion (`impl Iterator for VerseRangeReferenceIter`) -/

/-- Iterator state of `VerseRangeReferenceIter`
(`current_chap_index` / `current_verse_index`). -/
structure IterState where
  current_chap_index : Nat
  current_verse_index : Nat
deriving DecidableEq, Repr

/-- One `next()` call of `VerseRangeReferenceIter`.  The direct slice
indexing in the source cannot fail once `is_valid` has returned `true` and
the bound checks have passed; `getD` supplies the (unreachable) defaults. -/
def iterNext (bom : BOM) (range_reference : VerseRangeReference)
    (st : IterState) : Option (VerseReference × IterState) :=
  if ¬range_reference.is_valid bom then none
  else
    let book := bom.books.getD range_reference.book_index ⟨[], none, none, []⟩
    match range_reference.range_type with
    | .startEndChapter start endv =>
      if st.current_chap_index + start ≤ endv then
        let chapter := book.chapters.getD (st.current_chap_index + start - 1) ⟨[]⟩
        let res : VerseReference :=
          ⟨.bookOfMormon, range_reference.book_index,
            st.current_chap_index + start, st.current_verse_index + 1⟩
        let cvi := st.current_verse_index + 1
        if cvi > chapter.verses.length then
          some (res, ⟨st.current_chap_index + 1, 0⟩)
        else
          some (res, ⟨st.current_chap_index, cvi⟩)
      else none
    | .startEndVerse chapter start endv =>
      if st.current_verse_index + start ≤ endv then
        let res : VerseReference :=
          ⟨.bookOfMormon, range_reference.book_index, chapter,
            start + st.current_verse_index⟩
        some (res, ⟨st.current_chap_index, st.current_verse_index + 1⟩)
      else none

/-- Pull at most `fuel` elements from the iterator, starting at `st`. -/
def iterCollect (bom : BOM) (r : VerseRangeReference) :
    Nat → IterState → List VerseReference
  | 0, _ => []
  | fuel + 1, st =>
    match iterNext bom r st with
    | none => []
    | some (v, st') => v :: iterCollect bom r fuel st'

/-- Method `VerseRangeReference::verse_refs`: the full expansion of one
clause (the iterator starts at `(0, 0)`). -/
def verse_refs (bom : BOM) (r : VerseRangeReference) (fuel : Nat) :
    List VerseReference :=
  iterCollect bom r fuel ⟨0, 0⟩

/-- Method `RangeCollection::verse_refs`: clause expansions concatenated in
clause order (the `flat_map` in the source). -/
def rangeCollectionVerseRefs (bom : BOM) (refs : List VerseRangeReference)
    (fuel : Nat) : List VerseReference :=
  refs.flatMap (fun r => verse_refs bom r fuel)

/- ## Corpus parsing (`src/rs_bom/src/parsers.rs`, module `gutenberg`) -/

/-- Errors from the Gutenberg parser (`ParseError::CorpusInvalid`; the
I/O variant `CorpusNotFound` concerns file access and is outside the
embedding). -/
inductive ParseError where
  | corpusInvalid (msg : Str)
deriving DecidableEq, Repr

/-- Classification of one paragraph block (enum `ChunkType`). -/
inductive ChunkType where
  | bookTitle
  | bookDescription
  | chapterStart
  | verse (short_title : Str) (verse : Str) (verse_num : Nat)
  | unrecognized
deriving DecidableEq, Repr

/-- Rust `str::lines`: split at `\n`, the final line ending optional.
(Only the line count is consumed by the classifier.) -/
def linesList (s : Str) : List Str :=
  if s.isEmpty then []
  else
    let parts := splitOnChar '\n' s
    if s.getLast? = some '\n' then parts.dropLast else parts

/-- Rust `str::to_uppercase`, restricted to ASCII case mapping. -/
def listToUpper (s : Str) : Str := s.map Char.toUpper

/-- Consume a non-empty leading run of characters satisfying `p`
(a greedy `+` whose follower is outside the class). -/
def eat1Plus (p : Char → Bool) (t : Str) : Option Str :=
  let n := countLeading p t
  if n = 0 then none else some (t.drop n)

/-- Consume an exact literal. -/
def eatLit : Str → Str → Option Str
  | [], t => some t
  | c :: cs, d :: ds => if c = d then eatLit cs ds else none
  | _ :: _, [] => none

/-- Recognizer for the anchored `CHAPTER_START` regex
`^(\d+\s+)?[A-Za-z]+\s+\d+\nChapter\s+(?P<num>\d+)$` (only `is_match` is
consumed).  Adjacent subpatterns have disjoint character classes, so the
greedy runs need no backtracking; the optional leading group is forced
exactly when the block starts with a digit. -/
def chapterStartMatch (s : Str) : Bool :=
  let afterOpt : Option Str :=
    match s with
    | c :: _ =>
      if isDigitChar c then (eat1Plus (fun d => isDigitChar d) s).bind
        (fun t => eat1Plus (fun d => isWsChar d) t)
      else some s
    | [] => some s
  let res : Option Str := do
    let t ← afterOpt
    let t ← eat1Plus (fun c => isAlphaChar c) t
    let t ← eat1Plus (fun c => isWsChar c) t
    let t ← eat1Plus (fun c => isDigitChar c) t
    let t ← eatLit (str "\nChapter") t
    let t ← eat1Plus (fun c => isWsChar c) t
    let t ← eat1Plus (fun c => isDigitChar c) t
    pure t
  res = some []

/-- Greedy `\d{1,2}`, returning the digits and the remainder.  (When two
digits are available but the pattern's follower then fails, the one-digit
alternative leaves a digit as follower and fails as well, so unconditional
greediness is faithful.) -/
def eatD12 : Str → Option (Str × Str)
  | a :: b :: r =>
    if isDigitChar a && isDigitChar b then some ([a, b], r)
    else if isDigitChar a then some ([a], b :: r)
    else none
  | [a] => if isDigitChar a then some ([a], []) else none
  | [] => none

/-- Matcher for the anchored dot-all `VERSE` regex
`(?s)^(?P<short_title>\d?[\sA-Za-z]{4,})\s+\d{1,2}:\d{1,2}\n\s+(?P<num>\d{1,2})\s+(?P<text>.{17,})$`,
returning the three captures (title, verse-number digits, verse text).
The greedy title class run gives back exactly one trailing whitespace
character to the following `\s+` (everything between a shorter candidate
and the run's end would contain a letter, which `\s+` cannot consume), and
the final `\s+` yields to `.{17,}` just enough characters to reach
seventeen. -/
def verseMatch (s : Str) : Option (Str × Str × Str) :=
  let pr : Str × Str :=
    match s with
    | c :: t => if isDigitChar c then ([c], t) else ([], s)
    | [] => ([], [])
  let pre := pr.1
  let rest := pr.2
  let n := countLeading (fun c => isWsChar c || isAlphaChar c) rest
  if n < 5 then none
  else if ¬isWsChar (rest.getD (n - 1) 'x') then none
  else
    let short_title := pre ++ rest.take (n - 1)
    let a := rest.drop n
    match eatD12 a with
    | none => none
    | some (_, a1) =>
      match a1 with
      | ':' :: a2 =>
        match eatD12 a2 with
        | none => none
        | some (_, a3) =>
          match a3 with
          | '\n' :: a4 =>
            let w1 := countLeading (fun c => isWsChar c) a4
            if w1 = 0 then none
            else
              let a5 := a4.drop w1
              match eatD12 a5 with
              | none => none
              | some (numDigits, a6) =>
                let mw := countLeading (fun c => isWsChar c) a6
                if mw = 0 then none
                else if a6.length < 18 then none
                else some (short_title, numDigits, a6.drop (min mw (a6.length - 17)))
          | _ => none
      | _ => none

/-- Function `ChunkType::new`: title check first, then chapter start, then
verse, else description; a verse-shaped block whose number fails to parse
is `Unrecognized`. -/
def chunkTypeNew (s : Str) : ChunkType :=
  if (linesList s).length = 1 ∧ listToUpper s = s then .bookTitle
  else if chapterStartMatch s then .chapterStart
  else
    match verseMatch s with
    | some (short_title, numDigits, text) =>
      match parseNatRust numDigits with
      | some num => .verse short_title text num
      | none => .unrecognized
    | none => .bookDescription

/-- Append a book (`bom.books.push`). -/
def pushBook (bom : BOM) (b : Book) : BOM :=
  { bom with books := bom.books ++ [b] }

/-- Mutate the last book if one exists
(`if let Some(book) = bom.books.last_mut()`). -/
def modifyLastBook (bom : BOM) (f : Book → Book) : BOM :=
  match bom.books.getLast? with
  | none => bom
  | some b => { bom with books := bom.books.dropLast ++ [f b] }

/-- The verse-number-mismatch message of `update_book_with_chunk`. -/
def verseMismatchMsg (expected actual : Nat) (s : Str) : Str :=
  str "Parser thought this verse was " ++ natToChars expected
    ++ str " but text says it's verse " ++ natToChars actual ++ str ": " ++ s

/-- Function `update_book_with_chunk`: classify the block, check it is
permitted after the previous block, and apply its effect to the corpus
being built. -/
def update_book_with_chunk (s : Str) (previous_chunk : ChunkType) (bom : BOM) :
    Except ParseError (ChunkType × BOM) :=
  let chunk := chunkTypeNew s
  match chunk with
  | .bookTitle =>
    match previous_chunk with
    | .verse _ _ _ => .ok (chunk, pushBook bom ⟨s, none, none, []⟩)
    | _ => .error (.corpusInvalid (str "Book title in incorrect location: " ++ s))
  | .bookDescription =>
    match previous_chunk with
    | .bookTitle =>
      .ok (chunk, modifyLastBook bom (fun b => { b with description := some s }))
    | _ =>
      .error (.corpusInvalid (str "Book description in incorrect location: " ++ s))
  | .chapterStart =>
    match previous_chunk with
    | .bookTitle | .bookDescription | .verse _ _ _ =>
      .ok (chunk, modifyLastBook bom (fun b => { b with chapters := b.chapters ++ [⟨[]⟩] }))
    | _ => .error (.corpusInvalid (str "Chapter start in incorrect location: " ++ s))
  | .verse short_title verse verse_num =>
    match previous_chunk with
    | .bookTitle | .bookDescription | .chapterStart | .verse _ _ _ =>
      -- books with only one chapter have no chapter start, so insert it here
      let bom1 :=
        if previous_chunk = .bookTitle ∨ previous_chunk = .bookDescription then
          modifyLastBook bom (fun b => { b with chapters := b.chapters ++ [⟨[]⟩] })
        else bom
      match bom1.books.getLast? with
      | none => .ok (chunk, bom1)
      | some book =>
        let book1 := { book with short_title := some short_title }
        let bom2 := { bom1 with books := bom1.books.dropLast ++ [book1] }
        match book1.chapters.getLast? with
        | none => .ok (chunk, bom2)
        | some chapter =>
          let expected_verse_number := chapter.verses.length + 1
          if expected_verse_number ≠ verse_num then
            .error (.corpusInvalid (verseMismatchMsg expected_verse_number verse_num s))
          else
            let v : Verse := ⟨verse.map (fun c => if c = '\n' then ' ' else c)⟩
            .ok (chunk, { bom1 with books := bom1.books.dropLast ++
              [{ book1 with chapters :=
                  book1.chapters.dropLast ++ [⟨chapter.verses ++ [v]⟩] }] })
    | _ => .error (.corpusInvalid (str "Verse in incorrect location: " ++ s))
  | .unrecognized => .error (.corpusInvalid (str "Unrecognized line: " ++ s))

/-- Paragraph chunks of the source text: split on blank lines, drop empty
pieces, and strip surrounding newlines (the `split("\n\n").filter_map(..)`
in `Parser::parse`). -/
def chunksOf (text : Str) : List Str :=
  (splitSub (str "\n\n") text).filterMap
    (fun l => if l.isEmpty then none else some (trimNewlines l))

/-- The initial `previous_chunk` of `Parser::parse` (an empty verse, so
that a book title is expected next). -/
def initPrev : ChunkType := .verse [] [] 0

/-- Constant `TITLE_PAGE_TEXT` from `parsers.rs`. -/
def TITLE_PAGE_TEXT : Str := str "THE BOOK OF MORMON\n\nAn Account Written\n\nBY THE HAND OF MORMON\n\nUPON PLATES\n\nTAKEN FROM THE PLATES OF NEPHI\n\n\nWherefore, it is an abridgment of the record of the people of\nNephi, and also of the Lamanites--Written to the Lamanites, who\nare a remnant of the house of Israel; and also to Jew and\nGentile--Written by way of commandment, and also by the spirit of\nprophecy and of revelation--Written and sealed up, and hid up\nunto the Lord, that they might not be destroyed--To come forth by\nthe gift and power of God unto the interpretation thereof--Sealed\nby the hand of Moroni, and hid up unto the Lord, to come forth in\ndue time by way of the Gentile--The interpretation thereof by the\ngift of God.\n\nAn abridgment taken from the Book of Ether also, which is a\nrecord of the people of Jared, who were scattered at the time the\nLord confounded the language of the people, when they were\nbuilding a tower to get to heaven--Which is to show unto the\nremnant of the House of Israel what great things the Lord hath\ndone for their fathers; and that they may know the covenants of\nthe Lord, that they are not cast off forever--And also to the\nconvincing of the Jew and Gentile that JESUS is the CHRIST, the\nETERNAL GOD, manifesting himself unto all nations--And now, if\nthere are faults they are the mistakes of men; wherefore, condemn\nnot the things of God, that ye may be found spotless at the\njudgment-seat of Christ.\n\nTRANSLATED BY JOSEPH SMITH, JUN."

/-- Constant `THREE_WITNESS_TEXT` from `parsers.rs`. -/
def THREE_WITNESS_TEXT : Str := str "Be it known unto all nations, kindreds, tongues, and people, unto\nwhom this work shall come: That we, through the grace of God the\nFather, and our Lord Jesus Christ, have seen the plates which\ncontain this record, which is a record of the people of Nephi,\nand also of the Lamanites, their brethren, and also of the people\nof Jared, who came from the tower of which hath been spoken. And\nwe also know that they have been translated by the gift and power\nof God, for his voice hath declared it unto us; wherefore we know\nof a surety that the work is true. And we also testify that we\nhave seen the engravings which are upon the plates; and they have\nbeen shown unto us by the power of God, and not of man. And we\ndeclare with words of soberness, that an angel of God came down\nfrom heaven, and he brought and laid before our eyes, that we\nbeheld and saw the plates, and the engravings thereon; and we\nknow that it is by the grace of God the Father, and our Lord\nJesus Christ, that we beheld and bear record that these things\nare true. And it is marvelous in our eyes. Nevertheless, the\nvoice of the Lord commanded us that we should bear record of it;\nwherefore, to be obedient unto the commandments of God, we bear\ntestimony of these things. And we know that if we are faithful\nin Christ, we shall rid our garments of the blood of all men, and\nbe found spotless before the judgment-seat of Christ, and shall\ndwell with him eternally in the heavens. And the honor be to the\nFather, and to the Son, and to the Holy Ghost, which is one God.\nAmen."

/-- Constant `EIGHT_WITNESS_TEXT` from `parsers.rs`. -/
def EIGHT_WITNESS_TEXT : Str := str "Be it known unto all nations, kindreds, tongues, and people, unto\nwhom this work shall come: That Joseph Smith, Jun., the\ntranslator of this work, has shown unto us the plates of which\nhath been spoken, which have the appearance of gold; and as many\nof the leaves as the said Smith has translated we did handle with\nour hands; and we also saw the engravings thereon, all of which\nhas the appearance of ancient work, and of curious workmanship.\nAnd this we bear record with words of soberness, that the said\nSmith has shown unto us, for we have seen and hefted, and know of\na surety that the said Smith has got the plates of which we have\nspoken. And we give our names unto the world, to witness unto\nthe world that which we have seen. And we lie not, God bearing\nwitness of it."

/-- The corpus skeleton built at the start of `Parser::parse`, with the
front-matter constants of `parsers.rs`. -/
def initialBOM : BOM where
  title := str "The Book of Mormon"
  subtitle := str "Another Testament of Jesus Christ"
  translator := str "Joseph Smith, Jr."
  last_updated := str "February 1, 2013"
  language := str "en"
  title_page_text := TITLE_PAGE_TEXT
  witness_testimonies := [
    ⟨str "THE TESTIMONY OF THREE WITNESSES", THREE_WITNESS_TEXT,
      str "OLIVER COWDERY\nDAVID WHITMER\nMARTIN HARRIS"⟩,
    ⟨str "THE TESTIMONY OF EIGHT WITNESSES", EIGHT_WITNESS_TEXT,
      str "CHRISTIAN WHITMER\nJACOB WHITMER\nPETER WHITMER, JUN.\nJOHN WHITMER\nHIRAM PAGE\nJOSEPH SMITH, SEN.\nHYRUM SMITH\nSAMUEL H. SMITH"⟩]
  books := []

/-- Chunk loop of `Parser::parse`, threading the `previous_chunk` state. -/
def runChunks : ChunkType → BOM → List Str → Except ParseError (ChunkType × BOM)
  | previous_chunk, bom, [] => .ok (previous_chunk, bom)
  | previous_chunk, bom, s :: rest =>
    match update_book_with_chunk s previous_chunk bom with
    | .error e => .error e
    | .ok (c, bom') => runChunks c bom' rest

/-- The corpus parser (`<Parser as BOMParser>::parse`) on a given source
text: run every chunk through the state machine, then fail if no books
were produced. -/
def gutenbergParse (text : Str) : Except ParseError BOM :=
  match runChunks initPrev initialBOM (chunksOf text) with
  | .error e => .error e
  | .ok (_, bom) =>
    if bom.books.isEmpty then .error (.corpusInvalid (str "No books found"))
    else .ok bom

/- ## Auxiliary definitions used by the verification -/

/-- Method `VerseReference::is_valid` from `reference.rs`. -/
def VerseReference.is_valid (r : VerseReference) (bom : BOM) : Bool :=
  if r.chapter_index = 0 || r.verse_index = 0 then false
  else
    (((bom.books.get? r.book_index).bind
      (fun b => b.chapters.get? (r.chapter_index - 1))).bind
      (fun c => c.verses.get? (r.verse_index - 1))).isSome

/-- Test corpus with a single book whose single chapter has two verses. -/
def twoVerseBOM : BOM :=
  { initialBOM with
    books := [⟨str "FIRST BOOK", some (str "1 Nephi"), none,
      [⟨[⟨str "v one"⟩, ⟨str "v two"⟩]⟩]⟩] }

/-- Modelled from the spec: the shipped Gutenberg corpus data file
(`rs_bom/data/gutenberg.txt`, pulled in by `include_str!`) is not among the
sources, so the "real corpus" is modelled from what the spec states about
it: Alma is the book at index 8 of the Book of Mormon, `Alma 63:17` is the
last verse of its last chapter (so Alma has 63 chapters and chapter 63 has
17 verses), and `Alma 1000` is out of range.  Books 0–7 and the non-final
chapters are populated minimally. -/
def specGutenbergCorpus : BOM :=
  { initialBOM with
    books :=
      List.replicate 8 ⟨str "BOOK", none, none, [⟨[⟨str "v"⟩]⟩]⟩ ++
      [⟨str "THE BOOK OF ALMA", some (str "Alma"), none,
        List.replicate 62 (⟨[⟨str "v"⟩]⟩ : Chapter) ++
          [⟨List.replicate 17 ⟨str "v"⟩⟩]⟩] }

/-- Source text whose first paragraph block is a verse block. -/
def verseFirstText : Str :=
  str "1 Nephi 1:1\n  1 And it came to pass that I did go forth\n\nFIRST BOOK\n\n1 Nephi 1:1\n  1 And it came to pass that I did go forth"

/-- A clause whose range is a verse range. -/
def isVerseKind (r : VerseRangeReference) : Prop :=
  ∃ c s e, r.range_type = .startEndVerse c s e

/-- A clause whose range is a chapter range. -/
def isChapterKind (r : VerseRangeReference) : Prop :=
  ∃ s e, r.range_type = .startEndChapter s e


/- ## C1 development: clause-level intermediate representation -/

/-- Rendering of one numeric chunk. -/
def chunkStr (p : Nat × Nat) : Str := fmtRangePair p.1 p.2

/-- Chunks joined by `, `. -/
def chunksStr : List (Nat × Nat) → Str
  | [] => []
  | [p] => chunkStr p
  | p :: q :: rest => chunkStr p ++ [VERSE_CHUNK_DELIM, ' '] ++ chunksStr (q :: rest)

/-- Body of one `;`-clause of the canonical form: either a list of chapter
chunks or a chapter number with verse chunks. -/
inductive ClauseBody where
  | chapters (chunks : List (Nat × Nat))
  | verses (chapter : Nat) (chunks : List (Nat × Nat))
deriving DecidableEq, Repr

/-- One `;`-clause of the canonical form. -/
structure Clause where
  name : Option Str
  book : Nat
  work : Work
  body : ClauseBody
deriving DecidableEq, Repr

/-- The chunk list of a body. -/
def ClauseBody.chunks : ClauseBody → List (Nat × Nat)
  | .chapters l => l
  | .verses _ l => l

/-- Rendering of a clause body. -/
def bodyStr : ClauseBody → Str
  | .chapters l => chunksStr l
  | .verses c l => natToChars c ++ [CHAPTER_VERSE_DELIM] ++ chunksStr l

/-- Rendering of one clause. -/
def clauseStr (cl : Clause) : Str :=
  (match cl.name with
   | some nm => nm ++ [' ']
   | none => []) ++ bodyStr cl.body

/-- Rendering of a clause list, joined by `; `. -/
def renderClauses : List Clause → Str
  | [] => []
  | [cl] => clauseStr cl
  | cl :: cl2 :: rest => clauseStr cl ++ [CITATION_DELIM, ' '] ++ renderClauses (cl2 :: rest)

/-- Append one chunk to a clause. -/
def appendChunk (cl : Clause) (p : Nat × Nat) : Clause :=
  { cl with body := match cl.body with
    | .chapters l => .chapters (l ++ [p])
    | .verses c l => .verses c (l ++ [p]) }

/-- The clause grouping performed by `Display::fmt`, mirrored on the level
of the intermediate representation: the same state machine as `displayGo`
with a clause under construction. -/
def clausesGo : List VerseRangeReference → Nat → Nat → Option Work → Clause →
    Option (List Clause)
  | [], _, _, _, cur => some [cur]
  | r :: rest, pb, pc, pw, cur =>
    let new_book := pb != r.book_index
    let new_work := pw.isNone || pw != some r.work
    let new_book_title := new_book || new_work
    match r.range_type with
    | .startEndChapter s e =>
      if new_book_title then
        match bookDataFor r.work r.book_index with
        | none => none
        | some bd =>
          (clausesGo rest r.book_index pc (some r.work)
            ⟨some bd.short_name, r.book_index, r.work, .chapters [(s, e)]⟩).map
            (cur :: ·)
      else
        clausesGo rest pb pc pw (appendChunk cur (s, e))
    | .startEndVerse c s e =>
      if !new_book_title && c == pc then
        clausesGo rest pb pc pw (appendChunk cur (s, e))
      else
        if new_book_title then
          match bookDataFor r.work r.book_index with
          | none => none
          | some bd =>
            (clausesGo rest r.book_index c (some r.work)
              ⟨some bd.short_name, r.book_index, r.work, .verses c [(s, e)]⟩).map
              (cur :: ·)
        else
          (clausesGo rest pb c pw
            ⟨none, r.book_index, r.work, .verses c [(s, e)]⟩).map (cur :: ·)

/-- Clause decomposition of a reference list, with the initial sentinels of
`Display::fmt`. -/
def clausesOf (refs : List VerseRangeReference) : Option (List Clause) :=
  match refs with
  | [] => some []
  | r :: rest =>
    match bookDataFor r.work r.book_index with
    | none => none
    | some bd =>
      match r.range_type with
      | .startEndChapter s e =>
        clausesGo rest r.book_index 1000 (some r.work)
          ⟨some bd.short_name, r.book_index, r.work, .chapters [(s, e)]⟩
      | .startEndVerse c s e =>
        clausesGo rest r.book_index c (some r.work)
          ⟨some bd.short_name, r.book_index, r.work, .verses c [(s, e)]⟩

/-- References denoted by one clause body. -/
def refsOfBody (b : Nat) (w : Work) : ClauseBody → List VerseRangeReference
  | .chapters l => l.map (fun p => ⟨.startEndChapter p.1 p.2, b, w⟩)
  | .verses c l => l.map (fun p => ⟨.startEndVerse c p.1 p.2, b, w⟩)

/-- References obtained by re-parsing a rendered clause list. -/
def refsOfClauses (cs : List Clause) : List VerseRangeReference :=
  cs.flatMap (fun cl => refsOfBody cl.book cl.work cl.body)

/-- Characters allowed by the name class `[A-Za-z ]`. -/
def isNameChar (c : Char) : Bool := isAlphaChar c || c = ' '

/-- Whether a string starts with a letter. -/
def headIsAlpha : Str → Bool
  | c :: _ => isAlphaChar c
  | [] => false

/-- Whether a string ends with a letter. -/
def lastIsAlpha (l : Str) : Bool :=
  match l.getLast? with
  | some c => isAlphaChar c
  | none => false

/-- Shape of an undotted book name: letters and single spaces, starting and
ending with a letter. -/
def shapeA (sn : Str) : Bool := headIsAlpha sn && sn.all isNameChar && lastIsAlpha sn

/-- Shape of a dotted book name: an undotted name followed by `.`. -/
def shapeB (sn : Str) : Bool :=
  match sn.getLast? with
  | some '.' => shapeA sn.dropLast
  | _ => false

/-- Shape of a digit-prefixed book name: digit, space, dotted name. -/
def shapeC : Str → Bool
  | d :: w :: rest => isDigitChar d && (w == ' ') && shapeB rest
  | _ => false

/-- Book-name shapes for which the `POSSIBLE_BOOK_NAME` regex scan is
characterized. -/
def goodShort (sn : Str) : Bool := shapeA sn || shapeB sn || shapeC sn

/- ## C1 development: well-formed clause lists -/

/-- All chunks of a list appended to a clause. -/
def appendChunks (cur : Clause) (l : List (Nat × Nat)) : Clause :=
  l.foldl appendChunk cur

/-- Evolution of the `previous_chapter` state across one finished clause. -/
def pcNext (pc : Nat) (cl : Clause) : Nat :=
  match cl.body with
  | .verses c _ => c
  | .chapters _ => pc

/-- A body with the same kind (and chapter) but replaced chunk list. -/
def bodyShell : ClauseBody → List (Nat × Nat) → ClauseBody
  | .chapters _, l1 => .chapters l1
  | .verses c0 _, l1 => .verses c0 l1

/-- Well-formedness of the clauses following a finished clause of book `B`
and work `W` with `previous_chapter` state `pc`: each clause has chunks, a
named clause carries the table's short name for its book and starts at a
book or work change, an unnamed clause continues the same book and work
with a verse body on a fresh chapter. -/
def WFafter : Nat → Nat → Work → List Clause → Prop
  | _, _, _, [] => True
  | pc, B, W, cl :: rest =>
    cl.body.chunks ≠ [] ∧
    (match cl.name with
     | some nm => (∃ bd, bookDataFor cl.work cl.book = some bd ∧ nm = bd.short_name)
        ∧ (cl.book ≠ B ∨ cl.work ≠ W)
     | none => cl.book = B ∧ cl.work = W ∧
        ∃ c' l', cl.body = .verses c' l' ∧ c' ≠ pc) ∧
    WFafter (pcNext pc cl) cl.book cl.work rest

/-- Well-formedness of a whole clause list: the head clause is named from
the table and the rest is well-formed after it (the initial
`previous_chapter` sentinel is `1000`). -/
def WFclauses : List Clause → Prop
  | [] => True
  | cl :: rest =>
    cl.body.chunks ≠ [] ∧
    (∃ bd, bookDataFor cl.work cl.book = some bd ∧ cl.name = some bd.short_name) ∧
    WFafter (pcNext 1000 cl) cl.book cl.work rest

/-- The range endpoints of a reference. -/
def refPair (r : VerseRangeReference) : Nat × Nat :=
  match r.range_type with
  | .startEndVerse _ s e => (s, e)
  | .startEndChapter s e => (s, e)

/-- Invariant of references produced by the citation parser: the book/work
pair is in the table and the range endpoints are ordered. -/
def refOK (r : VerseRangeReference) : Prop :=
  (bookDataFor r.work r.book_index).isSome = true ∧ (refPair r).1 ≤ (refPair r).2

/- ## Helper lemmas -/

theorem natCompare_swap (a b : Nat) : compare b a = (compare a b).swap := by
  rcases Nat.lt_trichotomy a b with h | h | h
  · rw [Nat.compare_eq_lt.mpr h, Nat.compare_eq_gt.mpr h]; rfl
  · subst h; rw [Nat.compare_eq_eq.mpr rfl]; rfl
  · rw [Nat.compare_eq_gt.mpr h, Nat.compare_eq_lt.mpr h]; rfl

theorem ordThen_ne_gt (o p : Ordering) :
    o.then p ≠ .gt ↔ (o = .lt ∨ (o = .eq ∧ p ≠ .gt)) := by
  cases o <;> simp [Ordering.then]

theorem ordThen_eq_eq (o p : Ordering) :
    o.then p = .eq ↔ (o = .eq ∧ p = .eq) := by
  cases o <;> simp [Ordering.then]

theorem ordThen_swap (o p : Ordering) : (o.then p).swap = o.swap.then p.swap := by
  cases o <;> rfl

/-- The comparator on two verse ranges is the lexicographic chain
book index, chapter, start, end. -/
theorem cmp_vv (bi bj : Nat) (w w' : Work) (c s e oc os oe : Nat) :
    VerseRangeReference.cmp ⟨.startEndVerse c s e, bi, w⟩
      ⟨.startEndVerse oc os oe, bj, w'⟩ =
      (compare bi bj).then ((compare c oc).then ((compare s os).then (compare e oe))) := by
  simp only [VerseRangeReference.cmp, RangeType.cmp]
  cases compare bi bj <;> cases compare c oc <;> cases compare s os <;>
    simp [Ordering.then]

/-- The comparator on two chapter ranges is the lexicographic chain
book index, start, end. -/
theorem cmp_cc (bi bj : Nat) (w w' : Work) (s e os oe : Nat) :
    VerseRangeReference.cmp ⟨.startEndChapter s e, bi, w⟩
      ⟨.startEndChapter os oe, bj, w'⟩ =
      (compare bi bj).then ((compare s os).then (compare e oe)) := by
  simp only [VerseRangeReference.cmp, RangeType.cmp]
  cases compare bi bj <;> cases compare s os <;> simp [Ordering.then]

/-- A chapter range compares to a verse range by matching its two endpoints
against the verse range's chapter number. -/
theorem cmp_cv (bi bj : Nat) (w w' : Work) (s e c vs ve : Nat) :
    VerseRangeReference.cmp ⟨.startEndChapter s e, bi, w⟩
      ⟨.startEndVerse c vs ve, bj, w'⟩ =
      (compare bi bj).then ((compare s c).then (compare e c)) := by
  simp only [VerseRangeReference.cmp, RangeType.cmp]
  cases compare bi bj <;> cases compare s c <;> simp [Ordering.then]

/-- A verse range compares to a chapter range by matching its chapter
number against the chapter range's two endpoints. -/
theorem cmp_vc (bi bj : Nat) (w w' : Work) (c vs ve s e : Nat) :
    VerseRangeReference.cmp ⟨.startEndVerse c vs ve, bi, w⟩
      ⟨.startEndChapter s e, bj, w'⟩ =
      (compare bi bj).then ((compare c s).then (compare c e)) := by
  simp only [VerseRangeReference.cmp, RangeType.cmp]
  cases compare bi bj <;> cases compare c s <;> simp [Ordering.then]

theorem natCompare_ne_gt (a b : Nat) : compare a b ≠ .gt ↔ a ≤ b := by
  rw [← Nat.not_lt]
  exact not_congr Nat.compare_eq_gt

/-- Lexicographic four-key comparison is at-most-equal exactly when the key
tuples are lexicographically ordered. -/
theorem chain4_ne_gt (a1 b1 a2 b2 a3 b3 a4 b4 : Nat) :
    (compare a1 b1).then ((compare a2 b2).then ((compare a3 b3).then
      (compare a4 b4))) ≠ .gt ↔
    (a1 < b1 ∨ (a1 = b1 ∧ (a2 < b2 ∨ (a2 = b2 ∧ (a3 < b3 ∨ (a3 = b3 ∧ a4 ≤ b4)))))) := by
  rw [ordThen_ne_gt, ordThen_ne_gt, ordThen_ne_gt, natCompare_ne_gt,
    Nat.compare_eq_lt, Nat.compare_eq_lt, Nat.compare_eq_lt,
    Nat.compare_eq_eq, Nat.compare_eq_eq, Nat.compare_eq_eq]

/-- Lexicographic three-key variant of `chain4_ne_gt`. -/
theorem chain3_ne_gt (a1 b1 a2 b2 a3 b3 : Nat) :
    (compare a1 b1).then ((compare a2 b2).then (compare a3 b3)) ≠ .gt ↔
    (a1 < b1 ∨ (a1 = b1 ∧ (a2 < b2 ∨ (a2 = b2 ∧ a3 ≤ b3)))) := by
  rw [ordThen_ne_gt, ordThen_ne_gt, natCompare_ne_gt,
    Nat.compare_eq_lt, Nat.compare_eq_lt, Nat.compare_eq_eq, Nat.compare_eq_eq]

/-- Lexicographic four-key comparison is `eq` exactly on equal key tuples. -/
theorem chain4_eq (a1 b1 a2 b2 a3 b3 a4 b4 : Nat) :
    (compare a1 b1).then ((compare a2 b2).then ((compare a3 b3).then
      (compare a4 b4))) = .eq ↔
    (a1 = b1 ∧ a2 = b2 ∧ a3 = b3 ∧ a4 = b4) := by
  rw [ordThen_eq_eq, ordThen_eq_eq, ordThen_eq_eq,
    Nat.compare_eq_eq, Nat.compare_eq_eq, Nat.compare_eq_eq, Nat.compare_eq_eq]

/-- Lexicographic three-key variant of `chain4_eq`. -/
theorem chain3_eq (a1 b1 a2 b2 a3 b3 : Nat) :
    (compare a1 b1).then ((compare a2 b2).then (compare a3 b3)) = .eq ↔
    (a1 = b1 ∧ a2 = b2 ∧ a3 = b3) := by
  rw [ordThen_eq_eq, ordThen_eq_eq,
    Nat.compare_eq_eq, Nat.compare_eq_eq, Nat.compare_eq_eq]

/- ## Claim C4 -/

/-- Claim C4, counterexample: the clause comparator is not a total order.
The chapter range `[1,1]` and the verse range `1:5` of the same book
compare `Equal` although they are different references (antisymmetry
fails), and `Equal` is not even transitive: `1:5 ≈ [1,1] ≈ 1:2` while
`1:5 > 1:2`. -/
theorem range_cmp_equal_on_distinct_refs :
    VerseRangeReference.cmp ⟨.startEndChapter 1 1, 8, .bookOfMormon⟩
      ⟨.startEndVerse 1 5 5, 8, .bookOfMormon⟩ = .eq ∧
    (⟨.startEndChapter 1 1, 8, .bookOfMormon⟩ : VerseRangeReference) ≠
      ⟨.startEndVerse 1 5 5, 8, .bookOfMormon⟩ ∧
    VerseRangeReference.cmp ⟨.startEndChapter 1 1, 8, .bookOfMormon⟩
      ⟨.startEndVerse 1 2 2, 8, .bookOfMormon⟩ = .eq ∧
    VerseRangeReference.cmp ⟨.startEndVerse 1 5 5, 8, .bookOfMormon⟩
      ⟨.startEndVerse 1 2 2, 8, .bookOfMormon⟩ = .gt := by
  refine ⟨rfl, by decide, rfl, rfl⟩

/-- Claim C4, amended: the comparator follows the described case table
(book index first; verse–verse lexicographic on chapter, start, end;
chapter–chapter lexicographic on start, end; a chapter range against a
verse range compares its endpoints to the verse range's chapter), it is
total in the sense that swapping the arguments swaps the result, and it is
antisymmetric — hence a total order — on clauses of the same kind within
one work; on mixed kinds (or across works, which it ignores) it is not
antisymmetric. -/
theorem range_cmp_case_table_and_samekind_order :
    (∀ a b : VerseRangeReference,
      VerseRangeReference.cmp b a = (VerseRangeReference.cmp a b).swap) ∧
    (∀ (bi : Nat) (w w' : Work) (s e c vs ve : Nat),
      VerseRangeReference.cmp ⟨.startEndChapter s e, bi, w⟩
        ⟨.startEndVerse c vs ve, bi, w'⟩ = (compare s c).then (compare e c)) ∧
    (∀ (bi bj : Nat) (w w' : Work) (c s e oc os oe : Nat),
      VerseRangeReference.cmp ⟨.startEndVerse c s e, bi, w⟩
        ⟨.startEndVerse oc os oe, bj, w'⟩ =
        (compare bi bj).then ((compare c oc).then ((compare s os).then
          (compare e oe)))) ∧
    (∀ (bi bj : Nat) (w w' : Work) (s e os oe : Nat),
      VerseRangeReference.cmp ⟨.startEndChapter s e, bi, w⟩
        ⟨.startEndChapter os oe, bj, w'⟩ =
        (compare bi bj).then ((compare s os).then (compare e oe))) ∧
    (∀ a b : VerseRangeReference, a.work = b.work →
      ((isVerseKind a ∧ isVerseKind b) ∨ (isChapterKind a ∧ isChapterKind b)) →
      (VerseRangeReference.cmp a b = .eq ↔ a = b)) ∧
    (∀ a b c : VerseRangeReference, isVerseKind a → isVerseKind b → isVerseKind c →
      VerseRangeReference.cmp a b ≠ .gt → VerseRangeReference.cmp b c ≠ .gt →
      VerseRangeReference.cmp a c ≠ .gt) ∧
    (∀ a b c : VerseRangeReference,
      isChapterKind a → isChapterKind b → isChapterKind c →
      VerseRangeReference.cmp a b ≠ .gt → VerseRangeReference.cmp b c ≠ .gt →
      VerseRangeReference.cmp a c ≠ .gt) := by
  refine ⟨?_, ?_, cmp_vv, cmp_cc, ?_, ?_, ?_⟩
  · rintro ⟨rta, bia, wa⟩ ⟨rtb, bib, wb⟩
    rcases rta with ⟨c, s, e⟩ | ⟨s, e⟩ <;> rcases rtb with ⟨oc, os, oe⟩ | ⟨os, oe⟩ <;>
      simp only [cmp_vv, cmp_cc, cmp_cv, cmp_vc, ordThen_swap, ← natCompare_swap]
  · intro bi w w' s e c vs ve
    rw [cmp_cv, Nat.compare_eq_eq.mpr rfl]
    rfl
  · rintro ⟨rta, bia, wa⟩ ⟨rtb, bib, wb⟩ hw hk
    simp only at hw
    subst hw
    rcases hk with ⟨⟨c, s, e, ha⟩, ⟨oc, os, oe, hb⟩⟩ | ⟨⟨s, e, ha⟩, ⟨os, oe, hb⟩⟩ <;>
      simp only at ha hb <;> subst ha <;> subst hb
    · rw [cmp_vv, chain4_eq]
      constructor
      · rintro ⟨h1, h2, h3, h4⟩
        subst h1; subst h2; subst h3; subst h4; rfl
      · intro h
        injection h with h1 h2 h3
        injection h1 with k1 k2 k3
        exact ⟨h2, k1, k2, k3⟩
    · rw [cmp_cc, chain3_eq]
      constructor
      · rintro ⟨h1, h2, h3⟩
        subst h1; subst h2; subst h3; rfl
      · intro h
        injection h with h1 h2 h3
        injection h1 with k1 k2
        exact ⟨h2, k1, k2⟩
  · rintro a b c ⟨ca, sa, ea, ha⟩ ⟨cb, sb, eb, hb⟩ ⟨cc, sc, ec, hc⟩ hab hbc
    rcases a with ⟨rta, bia, wa⟩; rcases b with ⟨rtb, bib, wb⟩
    rcases c with ⟨rtc, bic, wc⟩
    simp only at ha hb hc
    subst ha; subst hb; subst hc
    rw [cmp_vv, chain4_ne_gt] at hab hbc ⊢
    omega
  · rintro a b c ⟨sa, ea, ha⟩ ⟨sb, eb, hb⟩ ⟨sc, ec, hc⟩ hab hbc
    rcases a with ⟨rta, bia, wa⟩; rcases b with ⟨rtb, bib, wb⟩
    rcases c with ⟨rtc, bic, wc⟩
    simp only at ha hb hc
    subst ha; subst hb; subst hc
    rw [cmp_cc, chain3_ne_gt] at hab hbc ⊢
    omega

/-- Claim C4, witness: the amended theorem applied to concrete clauses. -/
theorem range_cmp_case_table_witness :
    VerseRangeReference.cmp ⟨.startEndVerse 1 1 1, 0, .bookOfMormon⟩
      ⟨.startEndVerse 1 1 1, 0, .bookOfMormon⟩ = .eq :=
  (range_cmp_case_table_and_samekind_order.2.2.2.2.1
    ⟨.startEndVerse 1 1 1, 0, .bookOfMormon⟩
    ⟨.startEndVerse 1 1 1, 0, .bookOfMormon⟩ rfl
    (Or.inl ⟨⟨1, 1, 1, rfl⟩, ⟨1, 1, 1, rfl⟩⟩)).mpr rfl

/- ## Claims C2, C3, C5, C6 -/

/-- Claim C2: the merge pass collapses two verse-range clauses that lie in
different (adjacent) chapters.  `Alma 5:1; Alma 6:2` parses to the verse
ranges `5:1` and `6:2` of the same book; both merge-pass conditions hold,
yet the chapters differ, and canonicalization replaces the two clauses by
the single verse range `5:1\u{2013}2` — the union is taken on the current
clause's chapter although the clauses do not share a chapter. -/
theorem canonicalize_merges_verse_ranges_across_chapters :
    from_str (str "Alma 5:1; Alma 6:2") =
      .ok [⟨.startEndVerse 5 1 1, 8, .bookOfMormon⟩,
           ⟨.startEndVerse 6 2 2, 8, .bookOfMormon⟩] ∧
    canonicalize [⟨.startEndVerse 5 1 1, 8, .bookOfMormon⟩,
                  ⟨.startEndVerse 6 2 2, 8, .bookOfMormon⟩] =
      [⟨.startEndVerse 5 1 2, 8, .bookOfMormon⟩] ∧
    (5 : Nat) ≠ 6 := by
  refine ⟨rfl, rfl, by decide⟩

/-- Claim C3: canonicalization is not idempotent on the string form.
`Alma 5:1; Alma 6:5; Alma 6-8` canonicalizes to the form rendered
`Alma 5:1, 6\u{2013}8`, but canonicalizing once more yields
`Alma 6\u{2013}8`. -/
theorem canonicalize_not_idempotent_on_string_form :
    from_str (str "Alma 5:1; Alma 6:5; Alma 6-8") =
      .ok [⟨.startEndVerse 5 1 1, 8, .bookOfMormon⟩,
           ⟨.startEndVerse 6 5 5, 8, .bookOfMormon⟩,
           ⟨.startEndChapter 6 8, 8, .bookOfMormon⟩] ∧
    display (canonicalize
      [⟨.startEndVerse 5 1 1, 8, .bookOfMormon⟩,
       ⟨.startEndVerse 6 5 5, 8, .bookOfMormon⟩,
       ⟨.startEndChapter 6 8, 8, .bookOfMormon⟩]) = some (str "Alma 5:1, 6–8") ∧
    display (canonicalize (canonicalize
      [⟨.startEndVerse 5 1 1, 8, .bookOfMormon⟩,
       ⟨.startEndVerse 6 5 5, 8, .bookOfMormon⟩,
       ⟨.startEndChapter 6 8, 8, .bookOfMormon⟩])) = some (str "Alma 6–8") ∧
    str "Alma 5:1, 6–8" ≠ str "Alma 6–8" := by
  refine ⟨rfl, rfl, rfl, by decide⟩

/-- Claim C5: expanding a valid chapter range emits one verse reference too
many per chapter.  In a corpus whose only chapter has two verses, the
chapter range `[1,1]` expands to verses 1, 2 and 3 — the last of which is
not a verse of the corpus. -/
theorem chapter_range_expansion_emits_extra_verse :
    ((twoVerseBOM.books.getD 0 ⟨[], none, none, []⟩).chapters.getD 0
      ⟨[]⟩).verses.length = 2 ∧
    verse_refs twoVerseBOM ⟨.startEndChapter 1 1, 0, .bookOfMormon⟩ 10 =
      [⟨.bookOfMormon, 0, 1, 1⟩, ⟨.bookOfMormon, 0, 1, 2⟩,
       ⟨.bookOfMormon, 0, 1, 3⟩] ∧
    VerseReference.is_valid ⟨.bookOfMormon, 0, 1, 3⟩ twoVerseBOM = false ∧
    verse_refs twoVerseBOM ⟨.startEndVerse 1 1 2, 0, .bookOfMormon⟩ 10 =
      [⟨.bookOfMormon, 0, 1, 1⟩, ⟨.bookOfMormon, 0, 1, 2⟩] := by
  refine ⟨rfl, rfl, rfl, rfl⟩

/-- Claim C6: a zero-colon clause without a recognized book name is a parse
error rather than inheriting the previous clause's book (`Alma 5; 6`
fails), while a one-colon clause does inherit (`Alma 5:1; 6:2`). -/
theorem zero_colon_clause_book_not_inherited :
    from_str (str "Alma 5; 6") =
      .error (.referenceError (str "Book name not found as expected in  6")) ∧
    from_str (str "Alma 5:1; 6:2") =
      .ok [⟨.startEndVerse 5 1 1, 8, .bookOfMormon⟩,
           ⟨.startEndVerse 6 2 2, 8, .bookOfMormon⟩] := by
  refine ⟨rfl, rfl⟩

/- ## Claims C9 and C10 -/
theorem listGetQIsSome {α : Type} (l : List α) (n : Nat) :
    (l.get? n).isSome = true ↔ n < l.length := by
  rw [Option.isSome_iff_exists]
  constructor
  · rintro ⟨a, ha⟩; exact (List.get?_eq_some.mp ha).1
  · intro h; exact ⟨l.get ⟨n, h⟩, List.get?_eq_some.mpr ⟨h, rfl⟩⟩

theorem chapter_range_valid_iff (bom : BOM) (bi : Nat) (w : Work) (s e : Nat) :
    VerseRangeReference.is_valid ⟨.startEndChapter s e, bi, w⟩ bom = true ↔
      (1 ≤ s ∧ 1 ≤ e ∧ ∃ b, bom.books.get? bi = some b ∧
        s ≤ b.chapters.length ∧ e ≤ b.chapters.length) := by
  simp only [VerseRangeReference.is_valid]
  rcases hb : bom.books.get? bi with _ | b
  · simp [hb]
  · simp only [hb, Option.some_bind, Option.some.injEq]
    split
    · rename_i hz
      simp only [Bool.or_eq_true, decide_eq_true_eq] at hz
      constructor
      · intro h; exact absurd h (by simp)
      · rintro ⟨h1, h2, -⟩; omega
    · rename_i hz
      simp only [Bool.or_eq_true, decide_eq_true_eq, not_or] at hz
      rw [Bool.and_eq_true, listGetQIsSome, listGetQIsSome]
      constructor
      · rintro ⟨h1, h2⟩
        exact ⟨by omega, by omega, b, rfl, by omega, by omega⟩
      · rintro ⟨h1, h2, b', hb', h3, h4⟩
        subst hb'
        exact ⟨by omega, by omega⟩

theorem verse_range_valid_iff (bom : BOM) (bi : Nat) (w : Work) (c s e : Nat) :
    VerseRangeReference.is_valid ⟨.startEndVerse c s e, bi, w⟩ bom = true ↔
      (1 ≤ c ∧ 1 ≤ s ∧ 1 ≤ e ∧ ∃ b ch, bom.books.get? bi = some b ∧
        b.chapters.get? (c - 1) = some ch ∧
        s ≤ ch.verses.length ∧ e ≤ ch.verses.length) := by
  simp only [VerseRangeReference.is_valid]
  rcases hb : bom.books.get? bi with _ | b
  · simp [hb]
  · simp only [hb, Option.some_bind]
    rcases hc : b.chapters.get? (c - 1) with _ | ch
    · simp only [hc, Option.none_bind, Option.isSome_none, Option.some.injEq]
      constructor
      · intro h
        split at h <;> simp at h
      · rintro ⟨-, -, -, b', ch', hb', hc', -, -⟩
        subst hb'
        rw [hc] at hc'
        exact Option.noConfusion hc'
    · simp only [hc, Option.some_bind, Option.some.injEq]
      split
      · rename_i hz
        simp only [Bool.or_eq_true, decide_eq_true_eq] at hz
        constructor
        · intro h; exact absurd h (by simp)
        · rintro ⟨h1, h2, h3, -⟩; omega
      · rename_i hz
        simp only [Bool.or_eq_true, decide_eq_true_eq, not_or] at hz
        rw [Bool.and_eq_true, listGetQIsSome, listGetQIsSome]
        constructor
        · rintro ⟨h1, h2⟩
          exact ⟨by omega, by omega, by omega, b, ch, rfl, hc, by omega, by omega⟩
        · rintro ⟨h1, h2, h3, b', ch', hb', hc', h4, h5⟩
          subst hb'
          rw [hc] at hc'
          injection hc' with hc'
          subst hc'
          exact ⟨by omega, by omega⟩

theorem iterNext_work (bom : BOM) (r : VerseRangeReference) (st : IterState)
    (v : VerseReference) (st' : IterState)
    (h : iterNext bom r st = some (v, st')) : v.work = .bookOfMormon := by
  unfold iterNext at h
  split at h
  · exact Option.noConfusion h
  · split at h
    · split at h
      · dsimp only at h
        split at h <;> (injection h with h'; injection h' with h1 h2; subst h1; rfl)
      · exact Option.noConfusion h
    · split at h
      · injection h with h'; injection h' with h1 h2; subst h1; rfl
      · exact Option.noConfusion h

theorem iterCollect_work (bom : BOM) (r : VerseRangeReference) :
    ∀ (fuel : Nat) (st : IterState) (v : VerseReference),
      v ∈ iterCollect bom r fuel st → v.work = .bookOfMormon := by
  intro fuel
  induction fuel with
  | zero => intro st v h; simp [iterCollect] at h
  | succ n ih =>
    intro st v h
    rw [iterCollect] at h
    rcases hn : iterNext bom r st with _ | ⟨v', st'⟩
    · rw [hn] at h; simp at h
    · rw [hn] at h
      simp only [List.mem_cons] at h
      rcases h with h | h
      · subst h; exact iterNext_work bom r st _ _ hn
      · exact ih st' v h

/-- Claim C9: a range collection is valid iff every clause is valid; a
chapter-range clause is valid iff both endpoints are at least 1 and index
real chapters of an existing book; a verse-range clause is valid iff its
chapter indexes a real chapter and both endpoints are at least 1 and index
real verses of it (so any 0 field is invalid); and `Alma 1000` parses but
is invalid against the corpus while `Alma 63:17` is valid. -/
theorem range_collection_validity_characterized :
    (∀ (refs : List VerseRangeReference) (bom : BOM),
      rangeCollectionIsValid refs bom = true ↔
        ∀ r ∈ refs, VerseRangeReference.is_valid r bom = true) ∧
    (∀ (bom : BOM) (bi : Nat) (w : Work) (s e : Nat),
      VerseRangeReference.is_valid ⟨.startEndChapter s e, bi, w⟩ bom = true ↔
        (1 ≤ s ∧ 1 ≤ e ∧ ∃ b, bom.books.get? bi = some b ∧
          s ≤ b.chapters.length ∧ e ≤ b.chapters.length)) ∧
    (∀ (bom : BOM) (bi : Nat) (w : Work) (c s e : Nat),
      VerseRangeReference.is_valid ⟨.startEndVerse c s e, bi, w⟩ bom = true ↔
        (1 ≤ c ∧ 1 ≤ s ∧ 1 ≤ e ∧ ∃ b ch, bom.books.get? bi = some b ∧
          b.chapters.get? (c - 1) = some ch ∧
          s ≤ ch.verses.length ∧ e ≤ ch.verses.length)) ∧
    from_str (str "Alma 1000") =
      .ok [⟨.startEndChapter 1000 1000, 8, .bookOfMormon⟩] ∧
    rangeCollectionIsValid [⟨.startEndChapter 1000 1000, 8, .bookOfMormon⟩]
      specGutenbergCorpus = false ∧
    from_str (str "Alma 63:17") =
      .ok [⟨.startEndVerse 63 17 17, 8, .bookOfMormon⟩] ∧
    rangeCollectionIsValid [⟨.startEndVerse 63 17 17, 8, .bookOfMormon⟩]
      specGutenbergCorpus = true := by
  exact ⟨fun refs bom => List.all_eq_true, chapter_range_valid_iff,
    verse_range_valid_iff, rfl, rfl, rfl, rfl⟩

/-- Claim C9, witness: the characterization applied to a concrete
collection against the modelled corpus. -/
theorem range_collection_validity_witness :
    rangeCollectionIsValid [⟨.startEndVerse 63 17 17, 8, .bookOfMormon⟩]
      specGutenbergCorpus = true :=
  (range_collection_validity_characterized.1
    [⟨.startEndVerse 63 17 17, 8, .bookOfMormon⟩] specGutenbergCorpus).mpr
    (by decide)

/-- Claim C10: every verse reference produced by expanding a range
collection carries `Work::BookOfMormon`, whatever the clause's own work
field says. -/
theorem expansion_always_book_of_mormon_work :
    ∀ (bom : BOM) (refs : List VerseRangeReference) (fuel : Nat)
      (v : VerseReference),
      v ∈ rangeCollectionVerseRefs bom refs fuel → v.work = .bookOfMormon := by
  intro bom refs fuel v h
  rw [rangeCollectionVerseRefs] at h
  rcases List.mem_flatMap.mp h with ⟨r, _, hm⟩
  exact iterCollect_work bom r fuel ⟨0, 0⟩ v hm

/-- Claim C10, witness: an Old Testament clause still expands to Book of
Mormon verse references. -/
theorem expansion_work_witness :
    (⟨.bookOfMormon, 0, 1, 1⟩ : VerseReference).work = .bookOfMormon :=
  expansion_always_book_of_mormon_work twoVerseBOM
    [⟨.startEndVerse 1 1 1, 0, .oldTestament⟩] 5 ⟨.bookOfMormon, 0, 1, 1⟩
    (by decide)

/- ## Claims C7 and C8 -/

theorem runChunks_append (l1 l2 : List Str) (prev : ChunkType) (bom : BOM) :
    runChunks prev bom (l1 ++ l2) =
      match runChunks prev bom l1 with
      | .error e => .error e
      | .ok (p, b) => runChunks p b l2 := by
  induction l1 generalizing prev bom with
  | nil => rfl
  | cons s rest ih =>
    simp only [List.cons_append, runChunks]
    rcases h : update_book_with_chunk s prev bom with e | ⟨c, bom'⟩
    · rfl
    · exact ih c bom'

theorem update_verse_mismatch (s : Str) (prev : ChunkType) (bom : BOM)
    (st vtxt : Str) (num : Nat) (b : Book) (ch : Chapter)
    (hc : chunkTypeNew s = .verse st vtxt num)
    (hp : prev = .bookTitle ∨ prev = .bookDescription ∨ prev = .chapterStart ∨
      ∃ a t n, prev = .verse a t n)
    (hb : (if prev = .bookTitle ∨ prev = .bookDescription
        then modifyLastBook bom
          (fun bk => { bk with chapters := bk.chapters ++ [⟨[]⟩] })
        else bom).books.getLast? = some b)
    (hch : b.chapters.getLast? = some ch)
    (hne : ch.verses.length + 1 ≠ num) :
    update_book_with_chunk s prev bom =
      .error (.corpusInvalid (verseMismatchMsg (ch.verses.length + 1) num s)) := by
  unfold update_book_with_chunk
  rw [hc]
  rcases hp with h | h | h | ⟨a, t, n, h⟩ <;> subst h <;>
    simp only [reduceCtorEq, or_self, or_false, or_true, if_true, if_false,
      reduceIte] at hb ⊢ <;>
    rw [hb] <;>
    dsimp only <;>
    rw [hch] <;>
    dsimp only <;>
    rw [if_pos hne]

theorem parse_error_propagates (text : Str) (pre : List Str) (s : Str)
    (post : List Str) (p : ChunkType) (b : BOM) (e : ParseError)
    (hsplit : chunksOf text = pre ++ s :: post)
    (hpre : runChunks initPrev initialBOM pre = .ok (p, b))
    (herr : update_book_with_chunk s p b = .error e) :
    gutenbergParse text = .error e := by
  unfold gutenbergParse
  rw [hsplit, runChunks_append, hpre]
  simp only [runChunks, herr]

theorem no_books_error (text : Str) (p : ChunkType) (bomF : BOM)
    (hrun : runChunks initPrev initialBOM (chunksOf text) = .ok (p, bomF))
    (hempty : bomF.books = []) :
    gutenbergParse text = .error (.corpusInvalid (str "No books found")) := by
  unfold gutenbergParse
  rw [hrun]
  simp [hempty]

/-- Claim C7: when a verse block's captured number is not the containing
chapter's verse count plus one, `update_book_with_chunk` fails with the
message naming the expected number, the captured number and the block text;
such an error aborts the whole corpus parse; and a chunk run that produces
no books makes the parse fail with "No books found". -/
theorem corpus_verse_mismatch_and_no_books_errors :
    (∀ (s : Str) (prev : ChunkType) (bom : BOM) (st vtxt : Str) (num : Nat)
      (b : Book) (ch : Chapter),
      chunkTypeNew s = .verse st vtxt num →
      (prev = .bookTitle ∨ prev = .bookDescription ∨ prev = .chapterStart ∨
        ∃ a t n, prev = .verse a t n) →
      (if prev = .bookTitle ∨ prev = .bookDescription
        then modifyLastBook bom
          (fun bk => { bk with chapters := bk.chapters ++ [⟨[]⟩] })
        else bom).books.getLast? = some b →
      b.chapters.getLast? = some ch →
      ch.verses.length + 1 ≠ num →
      update_book_with_chunk s prev bom =
        .error (.corpusInvalid (verseMismatchMsg (ch.verses.length + 1) num s))) ∧
    (∀ (text : Str) (pre : List Str) (s : Str) (post : List Str)
      (p : ChunkType) (b : BOM) (e : ParseError),
      chunksOf text = pre ++ s :: post →
      runChunks initPrev initialBOM pre = .ok (p, b) →
      update_book_with_chunk s p b = .error e →
      gutenbergParse text = .error e) ∧
    (∀ (text : Str) (p : ChunkType) (bomF : BOM),
      runChunks initPrev initialBOM (chunksOf text) = .ok (p, bomF) →
      bomF.books = [] →
      gutenbergParse text = .error (.corpusInvalid (str "No books found"))) :=
  ⟨update_verse_mismatch, parse_error_propagates, no_books_error⟩

/-- Claim C7, witness: a two-block corpus whose verse is numbered 2 instead
of 1 makes the whole parse fail with the mismatch message. -/
theorem corpus_verse_mismatch_witness :
    gutenbergParse
      (str "FIRST BOOK\n\n1 Nephi 1:2\n  2 And it came to pass that I did go forth") =
      .error (.corpusInvalid (verseMismatchMsg 1 2
        (str "1 Nephi 1:2\n  2 And it came to pass that I did go forth"))) :=
  corpus_verse_mismatch_and_no_books_errors.2.1 _
    [str "FIRST BOOK"]
    (str "1 Nephi 1:2\n  2 And it came to pass that I did go forth") []
    .bookTitle (pushBook initialBOM ⟨str "FIRST BOOK", none, none, []⟩) _
    rfl rfl
    (corpus_verse_mismatch_and_no_books_errors.1 _ .bookTitle _
      (str "1 Nephi") (str "And it came to pass that I did go forth") 2
      ⟨str "FIRST BOOK", none, none, [⟨[]⟩]⟩ ⟨[]⟩ rfl (Or.inl rfl) rfl rfl
      (by decide))

/-- Claim C8, counterexample: a source text whose very first block is a
Verse block parses successfully (the block is silently ignored because no
book exists yet), so the first block need not be a Book Title. -/
theorem corpus_first_block_verse_parses_ok :
    (chunksOf verseFirstText).head? =
      some (str "1 Nephi 1:1\n  1 And it came to pass that I did go forth") ∧
    chunkTypeNew (str "1 Nephi 1:1\n  1 And it came to pass that I did go forth") =
      .verse (str "1 Nephi") (str "And it came to pass that I did go forth") 1 ∧
    (gutenbergParse verseFirstText).isOk = true := ⟨rfl, rfl, rfl⟩

theorem update_title_wrong_place (s : Str) (prev : ChunkType) (bom : BOM)
    (hc : chunkTypeNew s = .bookTitle)
    (hp : ∀ a t n, prev ≠ .verse a t n) :
    update_book_with_chunk s prev bom =
      .error (.corpusInvalid (str "Book title in incorrect location: " ++ s)) := by
  unfold update_book_with_chunk
  rw [hc]
  cases prev with
  | verse a t n => exact absurd rfl (hp a t n)
  | bookTitle => rfl
  | bookDescription => rfl
  | chapterStart => rfl
  | unrecognized => rfl

theorem update_description_wrong_place (s : Str) (prev : ChunkType) (bom : BOM)
    (hc : chunkTypeNew s = .bookDescription)
    (hp : prev ≠ .bookTitle) :
    update_book_with_chunk s prev bom =
      .error (.corpusInvalid (str "Book description in incorrect location: " ++ s)) := by
  unfold update_book_with_chunk
  rw [hc]
  cases prev with
  | bookTitle => exact absurd rfl hp
  | verse a t n => rfl
  | bookDescription => rfl
  | chapterStart => rfl
  | unrecognized => rfl

theorem update_chapter_wrong_place (s : Str) (prev : ChunkType) (bom : BOM)
    (hc : chunkTypeNew s = .chapterStart)
    (hp1 : prev ≠ .bookTitle) (hp2 : prev ≠ .bookDescription)
    (hp3 : ∀ a t n, prev ≠ .verse a t n) :
    update_book_with_chunk s prev bom =
      .error (.corpusInvalid (str "Chapter start in incorrect location: " ++ s)) := by
  unfold update_book_with_chunk
  rw [hc]
  cases prev with
  | bookTitle => exact absurd rfl hp1
  | bookDescription => exact absurd rfl hp2
  | verse a t n => exact absurd rfl (hp3 a t n)
  | chapterStart => rfl
  | unrecognized => rfl

theorem update_verse_wrong_place (s : Str) (bom : BOM) (st vt : Str) (n : Nat)
    (hc : chunkTypeNew s = .verse st vt n) :
    update_book_with_chunk s .unrecognized bom =
      .error (.corpusInvalid (str "Verse in incorrect location: " ++ s)) := by
  unfold update_book_with_chunk
  rw [hc]

theorem update_unrecognized_always_fails (s : Str) (prev : ChunkType) (bom : BOM)
    (hc : chunkTypeNew s = .unrecognized) :
    update_book_with_chunk s prev bom =
      .error (.corpusInvalid (str "Unrecognized line: " ++ s)) := by
  unfold update_book_with_chunk
  rw [hc]

theorem update_first_verse_ignored (s : Str) (bom : BOM) (st vt : Str) (n : Nat)
    (hc : chunkTypeNew s = .verse st vt n) (hb : bom.books = []) :
    update_book_with_chunk s initPrev bom = .ok (.verse st vt n, bom) := by
  unfold update_book_with_chunk initPrev
  rw [hc]
  simp [hb]

theorem update_first_chapter_ignored (s : Str) (bom : BOM)
    (hc : chunkTypeNew s = .chapterStart) (hb : bom.books = []) :
    update_book_with_chunk s initPrev bom = .ok (.chapterStart, bom) := by
  unfold update_book_with_chunk initPrev
  rw [hc]
  simp [modifyLastBook, hb]

/-- Claim C8, amended: parsing starts with `previous = Verse`, so the first
block is expected but not required to be a Book Title — a first Verse or
ChapterStart block is accepted and has no effect while no book exists; the
transition table otherwise holds, every violation failing with the
descriptive error naming the offending block: BookTitle only after Verse,
BookDescription only after BookTitle, ChapterStart only after
BookTitle/BookDescription/Verse, Verse never after Unrecognized, and an
Unrecognized block always fails. -/
theorem corpus_transition_table_errors :
    (∀ (s : Str) (prev : ChunkType) (bom : BOM),
      chunkTypeNew s = .bookTitle → (∀ a t n, prev ≠ .verse a t n) →
      update_book_with_chunk s prev bom =
        .error (.corpusInvalid (str "Book title in incorrect location: " ++ s))) ∧
    (∀ (s : Str) (prev : ChunkType) (bom : BOM),
      chunkTypeNew s = .bookDescription → prev ≠ .bookTitle →
      update_book_with_chunk s prev bom =
        .error (.corpusInvalid (str "Book description in incorrect location: " ++ s))) ∧
    (∀ (s : Str) (prev : ChunkType) (bom : BOM),
      chunkTypeNew s = .chapterStart → prev ≠ .bookTitle →
      prev ≠ .bookDescription → (∀ a t n, prev ≠ .verse a t n) →
      update_book_with_chunk s prev bom =
        .error (.corpusInvalid (str "Chapter start in incorrect location: " ++ s))) ∧
    (∀ (s : Str) (bom : BOM) (st vt : Str) (n : Nat),
      chunkTypeNew s = .verse st vt n →
      update_book_with_chunk s .unrecognized bom =
        .error (.corpusInvalid (str "Verse in incorrect location: " ++ s))) ∧
    (∀ (s : Str) (prev : ChunkType) (bom : BOM),
      chunkTypeNew s = .unrecognized →
      update_book_with_chunk s prev bom =
        .error (.corpusInvalid (str "Unrecognized line: " ++ s))) ∧
    (∀ (s : Str) (bom : BOM) (st vt : Str) (n : Nat),
      chunkTypeNew s = .verse st vt n → bom.books = [] →
      update_book_with_chunk s initPrev bom = .ok (.verse st vt n, bom)) ∧
    (∀ (s : Str) (bom : BOM),
      chunkTypeNew s = .chapterStart → bom.books = [] →
      update_book_with_chunk s initPrev bom = .ok (.chapterStart, bom)) :=
  ⟨update_title_wrong_place, update_description_wrong_place,
    update_chapter_wrong_place, update_verse_wrong_place,
    update_unrecognized_always_fails, update_first_verse_ignored,
    update_first_chapter_ignored⟩

/-- Claim C8, witness: a book title arriving right after another book title
is rejected with the descriptive error. -/
theorem corpus_transition_table_witness :
    update_book_with_chunk (str "FIRST BOOK") .bookTitle initialBOM =
      .error (.corpusInvalid
        (str "Book title in incorrect location: " ++ str "FIRST BOOK")) :=
  corpus_transition_table_errors.1 (str "FIRST BOOK") .bookTitle initialBOM rfl
    (fun a t n h => ChunkType.noConfusion h)

/- ## C1 development: string lemmas -/

theorem splitOnP_ne_nil (p : Char → Bool) (s : Str) : splitOnP p s ≠ [] := by
  induction s with
  | nil => simp [splitOnP]
  | cons c rest ih =>
    rw [splitOnP]
    split
    · simp
    · rcases h : splitOnP p rest with _ | ⟨x, xs⟩
      · simp
      · simp

theorem splitOnP_no_sep (p : Char → Bool) (s : Str)
    (h : ∀ c ∈ s, p c = false) : splitOnP p s = [s] := by
  induction s with
  | nil => rfl
  | cons c rest ih =>
    rw [splitOnP]
    rw [if_neg (by simp [h c (by simp)])]
    rw [ih (fun x hx => h x (by simp [hx]))]

theorem splitOnP_append_sep (p : Char → Bool) (u : Str) (c : Char) (v : Str)
    (hu : ∀ x ∈ u, p x = false) (hc : p c = true) :
    splitOnP p (u ++ c :: v) = u :: splitOnP p v := by
  induction u with
  | nil => simp [splitOnP, hc]
  | cons a u' ih =>
    rw [List.cons_append, splitOnP]
    rw [if_neg (by simp [hu a (by simp)])]
    rw [ih (fun x hx => hu x (by simp [hx]))]

theorem countLeading_all_append (p : Char → Bool) (u v : Str)
    (hu : ∀ x ∈ u, p x = true) :
    countLeading p (u ++ v) = u.length + countLeading p v := by
  unfold countLeading
  rw [List.takeWhile_append_of_pos hu, List.length_append]

theorem countLeading_stop (p : Char → Bool) (c : Char) (v : Str)
    (hc : p c = false) : countLeading p (c :: v) = 0 := by
  unfold countLeading
  rw [List.takeWhile_cons_of_neg (by simp [hc])]
  rfl

theorem countLeading_nil (p : Char → Bool) : countLeading p [] = 0 := rfl

theorem trimLeft_ws_append (lead s : Str) (h : ∀ c ∈ lead, isWsChar c = true) :
    trimLeft (lead ++ s) = trimLeft s := by
  unfold trimLeft
  exact List.dropWhile_append_of_pos h

theorem trimLeft_head_not_ws (c : Char) (s : Str) (h : isWsChar c = false) :
    trimLeft (c :: s) = c :: s := by
  unfold trimLeft
  exact List.dropWhile_cons_of_neg (by simp [h])

theorem trimRight_last_not_ws (s : Str) (z : Char)
    (hz : s.getLast? = some z) (h : isWsChar z = false) : trimRight s = s := by
  unfold trimRight
  rcases hs : s.reverse with _ | ⟨a, rest⟩
  · simp at hs
    subst hs
    simp at hz
  · have ha : a = z := by
      have := List.head?_reverse s
      rw [hs] at this
      simp at this
      rw [hz] at this
      injection this
    subst ha
    rw [trimLeft_head_not_ws a rest h, ← hs, List.reverse_reverse]

/- ## C1 development: decimal notation lemmas -/

theorem digitChar_toNat (d : Nat) (h : d < 10) : (digitChar d).toNat = 48 + d := by
  interval_cases d <;> rfl

theorem digitChar_isDigit (d : Nat) (h : d < 10) : isDigitChar (digitChar d) = true := by
  interval_cases d <;> rfl

theorem digitChar_ne_plus (d : Nat) (h : d < 10) : digitChar d ≠ '+' := by
  interval_cases d <;> decide

theorem natDigitsRevAux_lt_ten (fuel n : Nat) :
    ∀ d ∈ natDigitsRevAux fuel n, d < 10 := by
  induction fuel generalizing n with
  | zero => intro d hd; simp [natDigitsRevAux] at hd
  | succ f ih =>
    intro d hd
    match n with
    | 0 => simp [natDigitsRevAux] at hd
    | m + 1 =>
      rw [natDigitsRevAux] at hd
      rcases List.mem_cons.mp hd with h | h
      · subst h; omega
      · exact ih _ d h

/-- Little-endian value of a digit list. -/
def valRev : List Nat → Nat
  | [] => 0
  | d :: ds => d + 10 * valRev ds

theorem natDigitsRevAux_val (fuel n : Nat) (h : n ≤ fuel) :
    valRev (natDigitsRevAux fuel n) = n := by
  induction fuel generalizing n with
  | zero =>
    have : n = 0 := by omega
    subst this
    rfl
  | succ f ih =>
    match n with
    | 0 => rfl
    | m + 1 =>
      rw [natDigitsRevAux, valRev, ih ((m + 1) / 10) (by omega)]
      omega

theorem digitsToNat_append_one (xs : Str) (c : Char) :
    digitsToNat (xs ++ [c]) = digitsToNat xs * 10 + (c.toNat - 48) := by
  unfold digitsToNat
  rw [List.foldl_append]
  rfl

theorem digitsToNat_rev_map (l : List Nat) (h : ∀ d ∈ l, d < 10) :
    digitsToNat (l.reverse.map digitChar) = valRev l := by
  induction l with
  | nil => rfl
  | cons d ds ih =>
    rw [List.reverse_cons, List.map_append, List.map_cons, List.map_nil,
      digitsToNat_append_one, ih (fun x hx => h x (by simp [hx])), valRev]
    rw [digitChar_toNat d (h d (by simp))]
    omega

theorem natToChars_all_digits (n : Nat) :
    ∀ c ∈ natToChars n, isDigitChar c = true := by
  unfold natToChars
  split
  · intro c hc; simp at hc; subst hc; rfl
  · intro c hc
    simp only [List.mem_map, List.mem_reverse] at hc
    rcases hc with ⟨d, hd, rfl⟩
    exact digitChar_isDigit d (natDigitsRevAux_lt_ten n n d hd)

theorem natToChars_ne_nil (n : Nat) : natToChars n ≠ [] := by
  unfold natToChars
  split
  · simp
  · rename_i h
    match m : n, h with
    | k + 1, _ =>
      rw [natDigitsRev, natDigitsRevAux]
      simp

theorem digitsToNat_natToChars (n : Nat) : digitsToNat (natToChars n) = n := by
  unfold natToChars
  split
  · rename_i h; subst h; rfl
  · rw [natDigitsRev]
    rw [digitsToNat_rev_map _ (natDigitsRevAux_lt_ten n n)]
    exact natDigitsRevAux_val n n (Nat.le_refl n)

theorem parseNatRust_digits (s : Str) (hne : s ≠ [])
    (hd : ∀ c ∈ s, isDigitChar c = true) :
    parseNatRust s = some (digitsToNat s) := by
  unfold parseNatRust
  split
  · exfalso
    rename_i r
    have hplus : isDigitChar '+' = true := hd '+' (by simp)
    exact absurd hplus (by decide)
  · rw [if_pos]
    simp only [Bool.and_eq_true, decide_eq_true_eq]
    exact ⟨hne, List.all_eq_true.mpr hd⟩

theorem parseNatRust_natToChars (n : Nat) :
    parseNatRust (natToChars n) = some n := by
  rw [parseNatRust_digits _ (natToChars_ne_nil n) (natToChars_all_digits n),
    digitsToNat_natToChars]

/- ## C1 development: number-extraction round trips -/

theorem exBind_ok {ε α β : Type} (a : α) (f : α → Except ε β) :
    (Except.ok a >>= f) = f a := rfl

theorem ne_of_digit_of_not_digit (c x : Char) (h : isDigitChar c = true)
    (hx : isDigitChar x = false) : c ≠ x := by
  intro he
  subst he
  rw [h] at hx
  exact Bool.noConfusion hx

theorem digit_not_ws (c : Char) (h : isDigitChar c = true) : isWsChar c = false := by
  cases hw : isWsChar c
  · rfl
  · exfalso
    unfold isWsChar at hw
    simp only [Bool.or_eq_true, decide_eq_true_eq] at hw
    rcases hw with ((((h1 | h1) | h1) | h1) | h1) | h1 <;> subst h1 <;>
      exact absurd h (by decide)

theorem isDashChar_ws (c : Char) (h : isWsChar c = true) :
    (c = RANGE_DELIM_CANONICAL || c = RANGE_DELIM_NON_CANONICAL1
      || c = RANGE_DELIM_NON_CANONICAL2) = false := by
  unfold isWsChar at h
  simp only [Bool.or_eq_true, decide_eq_true_eq] at h
  rcases h with ((((h1 | h1) | h1) | h1) | h1) | h1 <;> subst h1 <;> decide

theorem isDashChar_digit (c : Char) (h : isDigitChar c = true) :
    (c = RANGE_DELIM_CANONICAL || c = RANGE_DELIM_NON_CANONICAL1
      || c = RANGE_DELIM_NON_CANONICAL2) = false := by
  simp only [Bool.or_eq_true, decide_eq_true_eq, Bool.or_eq_false_iff,
    decide_eq_false_iff_not]
  refine ⟨⟨?_, ?_⟩, ?_⟩ <;> exact ne_of_digit_of_not_digit c _ h (by decide)

theorem trim_of_digits (s : Str) (hne : s ≠ [])
    (hd : ∀ c ∈ s, isDigitChar c = true) : trim s = s := by
  unfold trim
  rcases hh : s with _ | ⟨c, rest⟩
  · exact absurd hh hne
  · rw [← hh]
    have hhead : isWsChar c = false :=
      digit_not_ws c (hd c (by rw [hh]; simp))
    rw [hh, trimLeft_head_not_ws c rest hhead, ← hh]
    rcases hl : s.getLast? with _ | z
    · rw [hh] at hl; simp at hl
    · exact trimRight_last_not_ws s z hl
        (digit_not_ws z (hd z (List.mem_of_mem_getLast? hl)))

theorem extract_number_ws_digits (lead s : Str)
    (hlead : ∀ c ∈ lead, isWsChar c = true) (hne : s ≠ [])
    (hd : ∀ c ∈ s, isDigitChar c = true) :
    extract_number (lead ++ s) = .ok (digitsToNat s) := by
  have ht : trim (lead ++ s) = s := by
    unfold trim
    rw [trimLeft_ws_append lead s hlead]
    have := trim_of_digits s hne hd
    unfold trim at this
    exact this
  simp only [extract_number, ht, parseNatRust_digits s hne hd]

theorem extract_number_nat (lead : Str) (n : Nat)
    (hlead : ∀ c ∈ lead, isWsChar c = true) :
    extract_number (lead ++ natToChars n) = .ok n := by
  rw [extract_number_ws_digits lead _ hlead (natToChars_ne_nil n)
    (natToChars_all_digits n), digitsToNat_natToChars]

theorem extract_range_chunk (lead : Str) (a b : Nat)
    (hlead : ∀ c ∈ lead, isWsChar c = true) (hab : a ≤ b) :
    extract_range (lead ++ chunkStr (a, b)) = .ok (a, b) := by
  have hnb : extract_number (natToChars b) = .ok b := by
    have h := extract_number_nat [] b (by simp)
    rwa [List.nil_append] at h
  simp only [extract_range, chunkStr, fmtRangePair]
  by_cases he : a = b
  · subst he
    rw [if_pos rfl]
    rw [splitOnP_no_sep _ _ (by
      intro c hc
      rcases List.mem_append.mp hc with h | h
      · exact isDashChar_ws c (hlead c h)
      · exact isDashChar_digit c (natToChars_all_digits _ c h))]
    dsimp only
    rw [extract_number_nat lead a hlead, exBind_ok]
  · rw [if_neg he]
    rw [show lead ++ (natToChars a ++ [RANGE_DELIM_CANONICAL] ++ natToChars b)
        = (lead ++ natToChars a) ++ RANGE_DELIM_CANONICAL :: natToChars b by simp]
    rw [splitOnP_append_sep _ _ _ _ (by
        intro c hc
        rcases List.mem_append.mp hc with h | h
        · exact isDashChar_ws c (hlead c h)
        · exact isDashChar_digit c (natToChars_all_digits _ c h))
      (by decide)]
    rw [splitOnP_no_sep _ _
      (fun c h => isDashChar_digit c (natToChars_all_digits _ c h))]
    dsimp only
    rw [extract_number_nat lead a hlead, exBind_ok, hnb, exBind_ok]
    rw [if_neg (by omega)]

/- ## C1 development: book-name regex characterization -/

theorem alpha_not_digit (c : Char) (h : isAlphaChar c = true) :
    isDigitChar c = false := by
  unfold isAlphaChar at h
  unfold isDigitChar
  simp only [Char.isAlpha, Char.isUpper, Char.isLower, Char.isDigit,
    Bool.or_eq_true, Bool.and_eq_true, decide_eq_true_eq] at h
  have hv : (65 ≤ c.val.toNat ∧ c.val.toNat ≤ 90) ∨
      (97 ≤ c.val.toNat ∧ c.val.toNat ≤ 122) := by
    rcases h with ⟨h1, h2⟩ | ⟨h1, h2⟩
    · exact Or.inl ⟨h1, h2⟩
    · exact Or.inr ⟨h1, h2⟩
  cases hd : c.isDigit
  · rfl
  · exfalso
    simp only [Char.isDigit, Bool.and_eq_true, decide_eq_true_eq] at hd
    have hv2 : 48 ≤ c.val.toNat ∧ c.val.toNat ≤ 57 := ⟨hd.1, hd.2⟩
    omega

theorem alpha_not_ws (c : Char) (h : isAlphaChar c = true) : isWsChar c = false := by
  cases hw : isWsChar c
  · rfl
  · exfalso
    unfold isWsChar at hw
    simp only [Bool.or_eq_true, decide_eq_true_eq] at hw
    rcases hw with ((((h1 | h1) | h1) | h1) | h1) | h1 <;> subst h1 <;>
      exact absurd h (by decide)

theorem ne_of_alpha_of_not_alpha (c x : Char) (h : isAlphaChar c = true)
    (hx : isAlphaChar x = false) : c ≠ x := by
  intro he
  subst he
  rw [h] at hx
  exact Bool.noConfusion hx

theorem digit_not_namechar (c : Char) (h : isDigitChar c = true) :
    (isAlphaChar c || decide (c = ' ')) = false := by
  have h1 : isAlphaChar c = false := by
    cases ha : isAlphaChar c
    · rfl
    · exact absurd (alpha_not_digit c ha) (by rw [h]; exact Bool.noConfusion)
  rw [h1]
  simp only [Bool.false_or, decide_eq_false_iff_not]
  exact ne_of_digit_of_not_digit c ' ' h (by decide)

theorem lastSpaceBefore_hit (s : Str) (n : Nat) (hn : 1 ≤ n)
    (hc : s.getD (n - 1) ' ' = ' ') (hlen : n - 1 < s.length) :
    lastSpaceBefore s n = some (n - 1) := by
  unfold lastSpaceBefore
  match n, hn with
  | m + 1, _ =>
    rw [List.range_succ, List.filter_append]
    have hm : (m + 1) - 1 = m := rfl
    rw [hm] at hc hlen
    rw [show List.filter (fun k => decide (s.getD k ' ' = ' ' ∧ k < s.length)) [m]
        = [m] by
      simp only [List.filter_cons, List.filter_nil]
      rw [if_pos (by simp only [decide_eq_true_eq]; exact ⟨hc, hlen⟩)]]
    exact List.getLast?_concat _

theorem shapeA_parts (sn : Str) (h : shapeA sn = true) :
    sn ≠ [] ∧ (∀ c ∈ sn, (isAlphaChar c || decide (c = ' ')) = true) ∧
      (∃ c rest, sn = c :: rest ∧ isAlphaChar c = true) ∧
      (∃ z, sn.getLast? = some z ∧ isAlphaChar z = true) := by
  unfold shapeA headIsAlpha lastIsAlpha at h
  simp only [Bool.and_eq_true] at h
  obtain ⟨⟨hh, hall⟩, hl⟩ := h
  rcases hsn : sn with _ | ⟨c, rest⟩
  · rw [hsn] at hh; exact absurd hh (by simp)
  · rw [hsn] at hh hall hl
    refine ⟨by simp, ?_, ⟨c, rest, rfl, hh⟩, ?_⟩
    · intro x hx
      have := List.all_eq_true.mp hall x hx
      unfold isNameChar at this
      exact this
    · rcases hz : (c :: rest).getLast? with _ | z
      · simp at hz
      · rw [hz] at hl
        exact ⟨z, rfl, hl⟩

theorem getD_append_len (l1 l2 : Str) (d0 : Char) :
    (l1 ++ l2).getD l1.length d0 = l2.getD 0 d0 := by
  rw [List.getD_eq_get?, List.getD_eq_get?, List.get?_append_right (le_refl _)]
  simp

theorem regexCore_run (pre core : Str) (hne : core ≠ [])
    (hall : ∀ c ∈ core, isNameChar c = true) (d : Char) (hd : isDigitChar d = true)
    (tail : Str) :
    regexBookNameCore pre (core ++ ' ' :: d :: tail) = some (pre ++ core) := by
  have hclass : ∀ x ∈ core ++ [' '], (isAlphaChar x || decide (x = ' ')) = true := by
    intro x hx
    rcases List.mem_append.mp hx with h | h
    · have hc := hall x h
      unfold isNameChar at hc
      exact hc
    · simp only [List.mem_singleton] at h
      subst h
      simp
  have hcount : countLeading (fun c => isAlphaChar c || c = ' ')
      (core ++ ' ' :: d :: tail) = core.length + 1 := by
    rw [show core ++ ' ' :: d :: tail = (core ++ [' ']) ++ d :: tail by simp]
    rw [countLeading_all_append _ _ _ hclass,
        countLeading_stop _ _ _ (digit_not_namechar d hd)]
    simp
  have hdrop : (core ++ ' ' :: d :: tail).drop (core.length + 1) = d :: tail := by
    rw [show core ++ ' ' :: d :: tail = (core ++ [' ']) ++ d :: tail by simp]
    rw [show core.length + 1 = (core ++ [' ']).length by simp]
    exact List.drop_left _ _
  have htake : (core ++ ' ' :: d :: tail).take core.length = core :=
    List.take_left _ _
  have hspace : lastSpaceBefore (core ++ ' ' :: d :: tail) (core.length + 1)
      = some core.length := by
    have h1 := lastSpaceBefore_hit (core ++ ' ' :: d :: tail) (core.length + 1)
      (by omega) (by simpa using getD_append_len core (' ' :: d :: tail) ' ')
      (by simp)
    simpa using h1
  simp only [regexBookNameCore]
  rw [hcount, hdrop, if_neg (by omega : ¬ core.length + 1 = 0)]
  split
  · rename_i w l heq
    exfalso
    have hd' : d = '.' := (List.cons_eq_cons.mp heq).1
    rw [hd'] at hd
    exact absurd hd (by decide)
  · rename_i c0 tl hno heq
    have hc' : c0 = d := ((List.cons_eq_cons.mp heq).1).symm
    subst hc'
    rw [digit_not_ws c0 hd, if_neg (by simp : ¬ false = true), hspace]
    simp [htake]
  · rename_i heq
    exact absurd heq (by simp)

theorem regexCore_dot (pre core : Str) (hne : core ≠ [])
    (hall : ∀ c ∈ core, isNameChar c = true) (suffix : Str) :
    regexBookNameCore pre (core ++ '.' :: ' ' :: suffix)
      = some (pre ++ core ++ ['.']) := by
  have hclass : ∀ x ∈ core, (isAlphaChar x || decide (x = ' ')) = true := by
    intro x hx
    have hc := hall x hx
    unfold isNameChar at hc
    exact hc
  have hcount : countLeading (fun c => isAlphaChar c || c = ' ')
      (core ++ '.' :: ' ' :: suffix) = core.length := by
    rw [countLeading_all_append _ _ _ hclass,
        countLeading_stop _ _ _ (by decide)]
    rfl
  have hdrop : (core ++ '.' :: ' ' :: suffix).drop core.length
      = '.' :: ' ' :: suffix := List.drop_left _ _
  have htake : (core ++ '.' :: ' ' :: suffix).take core.length = core :=
    List.take_left _ _
  have hlen0 : ¬ core.length = 0 := by
    cases core
    · exact absurd rfl hne
    · simp
  simp only [regexBookNameCore]
  rw [hcount, hdrop, if_neg hlen0]
  split
  · rename_i w l heq
    obtain ⟨-, hw⟩ := List.cons_eq_cons.mp heq
    obtain ⟨hw', -⟩ := List.cons_eq_cons.mp hw
    subst hw'
    rw [if_pos (by decide : isWsChar ' ' = true), htake]
  · rename_i c0 tl hno heq
    exfalso
    obtain ⟨hc0, htl⟩ := List.cons_eq_cons.mp heq
    exact hno ' ' suffix hc0.symm htl.symm
  · rename_i heq
    exact absurd heq (by simp)

theorem shapeB_parts (sn : Str) (h : shapeB sn = true) :
    ∃ core, sn = core ++ ['.'] ∧ shapeA core = true := by
  unfold shapeB at h
  have hne : sn ≠ [] := by
    intro he
    subst he
    simp at h
  have hz := List.getLast?_eq_getLast sn hne
  rw [hz] at h
  split at h
  · rename_i hdot
    refine ⟨sn.dropLast, ?_, h⟩
    have hinj : sn.getLast hne = '.' := by
      have := Option.some.inj hdot
      exact this
    rw [← hinj]
    exact (List.dropLast_append_getLast hne).symm
  · rename_i hno
    exact absurd h (by simp)

theorem shapeA_namechars (sn : Str) (hA : shapeA sn = true) :
    ∀ c ∈ sn, isNameChar c = true := by
  obtain ⟨-, hall, -, -⟩ := shapeA_parts sn hA
  intro c hc
  have := hall c hc
  unfold isNameChar
  exact this

theorem regex_good_short (sn : Str) (hg : goodShort sn = true) (d : Char)
    (hd : isDigitChar d = true) (tail : Str) :
    regexPossibleBookName (sn ++ ' ' :: d :: tail) = some sn := by
  unfold goodShort at hg
  simp only [Bool.or_eq_true] at hg
  rcases hg with (hA | hB) | hC
  · obtain ⟨hne, -, ⟨c, rest0, hsn, hca⟩, -⟩ := shapeA_parts sn hA
    have hrun := regexCore_run [] sn hne (shapeA_namechars sn hA) d hd tail
    subst hsn
    rcases hX : rest0 ++ ' ' :: d :: tail with _ | ⟨b, t⟩
    · exact absurd hX (by simp)
    · show regexPossibleBookName ((c :: rest0) ++ ' ' :: d :: tail) = _
      rw [List.cons_append, hX]
      simp only [regexPossibleBookName]
      rw [alpha_not_digit c hca]
      rw [if_neg (by simp : ¬ (false && isWsChar b) = true)]
      rw [← hX, ← List.cons_append]
      simpa using hrun
  · obtain ⟨core, hsn, hA⟩ := shapeB_parts sn hB
    obtain ⟨hne, -, ⟨c, rest0, hcore, hca⟩, -⟩ := shapeA_parts core hA
    have hdot := regexCore_dot [] core hne (shapeA_namechars core hA) (d :: tail)
    subst hsn
    subst hcore
    rcases hX : rest0 ++ '.' :: ' ' :: d :: tail with _ | ⟨b, t⟩
    · exact absurd hX (by simp)
    · show regexPossibleBookName (((c :: rest0) ++ ['.']) ++ ' ' :: d :: tail) = _
      rw [show ((c :: rest0) ++ ['.']) ++ ' ' :: d :: tail
          = c :: (rest0 ++ '.' :: ' ' :: d :: tail) by simp]
      rw [hX]
      simp only [regexPossibleBookName]
      rw [alpha_not_digit c hca]
      rw [if_neg (by simp : ¬ (false && isWsChar b) = true)]
      rw [← hX]
      rw [show c :: (rest0 ++ '.' :: ' ' :: d :: tail)
          = (c :: rest0) ++ '.' :: ' ' :: d :: tail by simp]
      simpa using hdot
  · rcases sn with _ | ⟨d0, sn'⟩
    · exact absurd hC (by simp [shapeC])
    rcases sn' with _ | ⟨w, rest⟩
    · exact absurd hC (by simp [shapeC])
    unfold shapeC at hC
    simp only [Bool.and_eq_true, beq_iff_eq] at hC
    obtain ⟨⟨hd0, hw⟩, hB⟩ := hC
    subst hw
    obtain ⟨core, hrest, hA⟩ := shapeB_parts rest hB
    have hne : core ≠ [] := (shapeA_parts core hA).1
    have hdot := regexCore_dot [d0, ' '] core hne (shapeA_namechars core hA)
      (d :: tail)
    subst hrest
    show regexPossibleBookName (d0 :: ' ' :: ((core ++ ['.']) ++ ' ' :: d :: tail)) = _
    simp only [regexPossibleBookName]
    rw [hd0]
    rw [if_pos (by decide : (true && isWsChar ' ') = true)]
    rw [show (core ++ ['.']) ++ ' ' :: d :: tail
        = core ++ '.' :: ' ' :: d :: tail by simp]
    rw [hdot]
    simp

theorem goodShort_head_not_ws (sn : Str) (hg : goodShort sn = true) :
    ∃ h t, sn = h :: t ∧ isWsChar h = false := by
  unfold goodShort at hg
  simp only [Bool.or_eq_true] at hg
  rcases hg with (hA | hB) | hC
  · obtain ⟨-, -, ⟨c, rest, hsn, hca⟩, -⟩ := shapeA_parts sn hA
    exact ⟨c, rest, hsn, alpha_not_ws c hca⟩
  · obtain ⟨core, hsn, hA⟩ := shapeB_parts sn hB
    obtain ⟨-, -, ⟨c, rest, hcore, hca⟩, -⟩ := shapeA_parts core hA
    subst hsn
    subst hcore
    exact ⟨c, rest ++ ['.'], by simp, alpha_not_ws c hca⟩
  · rcases sn with _ | ⟨d0, sn'⟩
    · exact absurd hC (by simp [shapeC])
    rcases sn' with _ | ⟨w, rest⟩
    · exact absurd hC (by simp [shapeC])
    unfold shapeC at hC
    simp only [Bool.and_eq_true, beq_iff_eq] at hC
    exact ⟨d0, w :: rest, rfl, digit_not_ws d0 hC.1.1⟩

theorem goodShort_last_not_ws (sn : Str) (hg : goodShort sn = true) :
    ∃ z, sn.getLast? = some z ∧ isWsChar z = false := by
  unfold goodShort at hg
  simp only [Bool.or_eq_true] at hg
  rcases hg with (hA | hB) | hC
  · obtain ⟨-, -, -, z, hz, hza⟩ := shapeA_parts sn hA
    exact ⟨z, hz, alpha_not_ws z hza⟩
  · obtain ⟨core, hsn, -⟩ := shapeB_parts sn hB
    subst hsn
    exact ⟨'.', List.getLast?_concat _, by decide⟩
  · rcases sn with _ | ⟨d0, sn'⟩
    · exact absurd hC (by simp [shapeC])
    rcases sn' with _ | ⟨w, rest⟩
    · exact absurd hC (by simp [shapeC])
    unfold shapeC at hC
    simp only [Bool.and_eq_true, beq_iff_eq] at hC
    obtain ⟨core, hrest, -⟩ := shapeB_parts rest hC.2
    subst hrest
    refine ⟨'.', ?_, by decide⟩
    rw [show d0 :: w :: (core ++ ['.']) = (d0 :: w :: core) ++ ['.'] by simp]
    exact List.getLast?_concat _

theorem trim_goodShort (sn : Str) (hg : goodShort sn = true) : trim sn = sn := by
  obtain ⟨h, t, hsn, hh⟩ := goodShort_head_not_ws sn hg
  obtain ⟨z, hz, hzw⟩ := goodShort_last_not_ws sn hg
  unfold trim
  rw [hsn, trimLeft_head_not_ws h t hh, ← hsn, trimRight_last_not_ws sn z hz hzw]

theorem findSubstrIdx_ws_lead (lead : Str) (hl : ∀ c ∈ lead, isWsChar c = true)
    (h : Char) (t rest : Str) (hh : isWsChar h = false) :
    findSubstrIdx (lead ++ (h :: t) ++ rest) (h :: t) = some lead.length := by
  induction lead with
  | nil =>
    unfold findSubstrIdx
    rw [if_pos]
    · rfl
    · rw [List.nil_append]
      exact List.isPrefixOf_iff_prefix.mpr (List.prefix_append _ _)
  | cons c cs ih =>
    have hc : isWsChar c = true := hl c (by simp)
    have hne : (h == c) = false := by
      apply beq_eq_false_iff_ne.mpr
      intro he
      subst he
      rw [hh] at hc
      exact Bool.noConfusion hc
    unfold findSubstrIdx
    rw [if_neg]
    · show ((findSubstrIdx (cs ++ (h :: t) ++ rest) (h :: t)).map (· + 1))
        = some (c :: cs).length
      rw [ih (fun x hx => hl x (by simp [hx]))]
      simp
    · show ¬ (h :: t).isPrefixOf ((c :: cs) ++ (h :: t) ++ rest) = true
      simp only [List.cons_append, List.isPrefixOf, hne, Bool.false_and]
      exact Bool.noConfusion

theorem ebn_on_short (lead sn : Str) (hl : ∀ c ∈ lead, isWsChar c = true)
    (hg : goodShort sn = true) (d : Char) (hd : isDigitChar d = true)
    (tail : Str) (z : Char) (hz : (d :: tail).getLast? = some z)
    (hzw : isWsChar z = false) (bd : BookData)
    (hbd : book_data_from_candidate_title sn = some bd) :
    extract_book_name (lead ++ sn ++ ' ' :: d :: tail)
      = .ok (lead.length + sn.length, bd.book_index, bd.work) := by
  obtain ⟨h, t, hsn, hh⟩ := goodShort_head_not_ws sn hg
  have hlast : (sn ++ ' ' :: d :: tail).getLast? = some z := by
    rw [List.getLast?_append_cons, List.getLast?_cons_cons]
    exact hz
  have htrim : trim (lead ++ sn ++ ' ' :: d :: tail) = sn ++ ' ' :: d :: tail := by
    unfold trim
    rw [List.append_assoc, trimLeft_ws_append lead _ hl]
    rw [hsn, List.cons_append, trimLeft_head_not_ws h _ hh, ← List.cons_append, ← hsn]
    exact trimRight_last_not_ws _ z hlast hzw
  have hregex := regex_good_short sn hg d hd tail
  have hfind : findSubstrIdx (lead ++ sn ++ ' ' :: d :: tail) sn
      = some lead.length := by
    rw [hsn]
    exact findSubstrIdx_ws_lead lead hl h t (' ' :: d :: tail) hh
  simp only [extract_book_name, htrim, hregex, trim_goodShort sn hg, hbd, hfind]

/- ## C1 development: display factors through the clause decomposition -/

theorem chunksStr_append_one (l : List (Nat × Nat)) (p : Nat × Nat) (h : l ≠ []) :
    chunksStr (l ++ [p]) = chunksStr l ++ [VERSE_CHUNK_DELIM, ' '] ++ chunkStr p := by
  induction l with
  | nil => exact absurd rfl h
  | cons q l ih =>
    rcases l with _ | ⟨q2, rest⟩
    · rfl
    · show chunkStr q ++ [VERSE_CHUNK_DELIM, ' '] ++ chunksStr ((q2 :: rest) ++ [p]) = _
      rw [ih (by simp)]
      simp only [chunksStr, List.append_assoc]

theorem chunks_appendChunk (cl : Clause) (p : Nat × Nat) :
    (appendChunk cl p).body.chunks = cl.body.chunks ++ [p] := by
  rcases cl with ⟨nm, b, w, body⟩
  rcases body with l | ⟨c, l⟩ <;> rfl

theorem clauseStr_appendChunk (cl : Clause) (p : Nat × Nat)
    (h : cl.body.chunks ≠ []) :
    clauseStr (appendChunk cl p)
      = clauseStr cl ++ [VERSE_CHUNK_DELIM, ' '] ++ chunkStr p := by
  rcases cl with ⟨nm, b, w, body⟩
  rcases body with l | ⟨c, l⟩ <;>
    simp only [ClauseBody.chunks] at h <;>
    simp only [clauseStr, appendChunk, bodyStr, chunksStr_append_one l p h,
      List.append_assoc]

theorem clausesGo_ne_nil (refs : List VerseRangeReference) :
    ∀ (pb pc : Nat) (pw : Option Work) (cur : Clause) (cs : List Clause),
      clausesGo refs pb pc pw cur = some cs → cs ≠ [] := by
  induction refs with
  | nil =>
    intro pb pc pw cur cs h
    simp only [clausesGo] at h
    rw [← Option.some.inj h]
    simp
  | cons r rest ih =>
    intro pb pc pw cur cs h
    rcases r with ⟨rt, b, w⟩
    rcases rt with ⟨c, s, e⟩ | ⟨s, e⟩ <;>
      simp only [clausesGo] at h
    · split at h
      · exact ih _ _ _ _ _ h
      · split at h
        · split at h
          · exact absurd h (by simp)
          · rcases hmap : clausesGo rest b c (some w) _ with _ | cs'
            · rw [hmap] at h
              exact absurd h (by simp [Option.map])
            · rw [hmap] at h
              simp only [Option.map] at h
              rw [← Option.some.inj h]
              simp
        · rcases hmap : clausesGo rest pb c pw _ with _ | cs'
          · rw [hmap] at h
            exact absurd h (by simp [Option.map])
          · rw [hmap] at h
            simp only [Option.map] at h
            rw [← Option.some.inj h]
            simp
    · split at h
      · split at h
        · exact absurd h (by simp)
        · rcases hmap : clausesGo rest b pc (some w) _ with _ | cs'
          · rw [hmap] at h
            exact absurd h (by simp [Option.map])
          · rw [hmap] at h
            simp only [Option.map] at h
            rw [← Option.some.inj h]
            simp
      · exact ih _ _ _ _ _ h

theorem renderClauses_cons_ne (cl : Clause) (cs : List Clause) (h : cs ≠ []) :
    renderClauses (cl :: cs)
      = clauseStr cl ++ [CITATION_DELIM, ' '] ++ renderClauses cs := by
  rcases cs with _ | ⟨cl2, rest⟩
  · exact absurd rfl h
  · rfl

/- ## C1 development: displayGo / clausesGo correspondence -/

theorem displayGo_clauses (refs : List VerseRangeReference) :
    ∀ (i pb pc : Nat) (pw : Option Work) (A : Str) (cur : Clause),
      i ≠ 0 → cur.body.chunks ≠ [] →
      displayGo refs i pb pc pw (A ++ clauseStr cur)
        = (clausesGo refs pb pc pw cur).map (fun cs => A ++ renderClauses cs) := by
  induction refs with
  | nil =>
    intro i pb pc pw A cur hi hne
    simp only [displayGo, clausesGo, Option.map]
    rfl
  | cons r rest ih =>
    intro i pb pc pw A cur hi hne
    rcases r with ⟨rt, b, w⟩
    rcases rt with ⟨c, s, e⟩ | ⟨s, e⟩ <;>
      simp only [displayGo, clausesGo] <;>
      cases hnbt : (pb != b || (pw.isNone || pw != some w))
    · -- verse range, continuing book
      simp only [Bool.not_false, Bool.true_and, if_neg (by simp : ¬ false = true)]
      cases hc : (c == pc)
      · -- different chapter: a new unnamed clause
        simp only [if_neg (by simp : ¬ false = true),
          if_pos (by simpa using hi : (i != 0) = true)]
        rcases hcg : clausesGo rest pb c pw ⟨none, b, w, .verses c [(s, e)]⟩ with _ | cs
        · have key := ih (i + 1) pb c pw (A ++ clauseStr cur ++ [CITATION_DELIM, ' '])
            ⟨none, b, w, .verses c [(s, e)]⟩ (by omega) (by simp [ClauseBody.chunks])
          rw [hcg] at key
          simp only [Option.map] at key ⊢
          simp only [clauseStr, bodyStr, chunksStr, chunkStr, CITATION_DELIM,
            CHAPTER_VERSE_DELIM, List.append_assoc, List.cons_append,
            List.nil_append] at key ⊢
          exact key
        · have key := ih (i + 1) pb c pw (A ++ clauseStr cur ++ [CITATION_DELIM, ' '])
            ⟨none, b, w, .verses c [(s, e)]⟩ (by omega) (by simp [ClauseBody.chunks])
          rw [hcg] at key
          simp only [Option.map] at key ⊢
          rw [renderClauses_cons_ne cur cs (clausesGo_ne_nil rest _ _ _ _ _ hcg)]
          simp only [clauseStr, bodyStr, chunksStr, chunkStr, CITATION_DELIM,
            CHAPTER_VERSE_DELIM, List.append_assoc, List.cons_append,
            List.nil_append] at key ⊢
          exact key
      · -- same chapter: append a verse chunk
        rw [if_pos (rfl : true = true)]
        have key := ih (i + 1) pb pc pw A (appendChunk cur (s, e)) (by omega)
          (by rw [chunks_appendChunk]; simp)
        rw [clauseStr_appendChunk cur (s, e) hne] at key
        simp only [VERSE_CHUNK_DELIM, List.append_assoc, List.cons_append,
          List.nil_append] at key ⊢
        exact key
    · -- verse range, new book title
      simp only [Bool.not_true, Bool.false_and, if_neg (by simp : ¬ false = true),
        if_pos (rfl : true = true), if_pos (trivial : True), if_pos hi]
      rcases hbd : bookDataFor w b with _ | bd
      · rfl
      · have key := ih (i + 1) b c (some w)
            (A ++ clauseStr cur ++ [CITATION_DELIM, ' '])
            ⟨some bd.short_name, b, w, .verses c [(s, e)]⟩ (by omega)
            (by simp [ClauseBody.chunks])
        simp only [Option.map] at key ⊢
        simp only [clauseStr, bodyStr, chunksStr, chunkStr, CITATION_DELIM,
          CHAPTER_VERSE_DELIM, List.append_assoc, List.cons_append,
          List.nil_append] at key ⊢
        rcases hcg : clausesGo rest b c (some w)
            ⟨some bd.short_name, b, w, .verses c [(s, e)]⟩ with _ | cs
        · rw [hcg] at key
          exact key
        · rw [hcg] at key
          rw [key]
          have hnil := clausesGo_ne_nil rest _ _ _ _ _ hcg
          simp only [renderClauses_cons_ne cur cs hnil, clauseStr, bodyStr,
            chunksStr, chunkStr, CITATION_DELIM, CHAPTER_VERSE_DELIM,
            List.append_assoc, List.cons_append, List.nil_append]
    · -- chapter range, continuing book
      simp only [Bool.not_false, if_neg (by simp : ¬ false = true),
        if_pos (rfl : true = true)]
      have key := ih (i + 1) pb pc pw A (appendChunk cur (s, e)) (by omega)
        (by rw [chunks_appendChunk]; simp)
      rw [clauseStr_appendChunk cur (s, e) hne] at key
      simp only [VERSE_CHUNK_DELIM, List.append_assoc, List.cons_append,
        List.nil_append] at key ⊢
      exact key
    · -- chapter range, new book title
      simp only [Bool.not_true, if_neg (by simp : ¬ false = true),
        if_pos (rfl : true = true), if_pos (trivial : True), if_pos hi]
      rcases hbd : bookDataFor w b with _ | bd
      · rfl
      · have key := ih (i + 1) b pc (some w)
            (A ++ clauseStr cur ++ [CITATION_DELIM, ' '])
            ⟨some bd.short_name, b, w, .chapters [(s, e)]⟩ (by omega)
            (by simp [ClauseBody.chunks])
        simp only [Option.map] at key ⊢
        simp only [clauseStr, bodyStr, chunksStr, chunkStr, CITATION_DELIM,
          List.append_assoc, List.cons_append, List.nil_append] at key ⊢
        rcases hcg : clausesGo rest b pc (some w)
            ⟨some bd.short_name, b, w, .chapters [(s, e)]⟩ with _ | cs
        · rw [hcg] at key
          exact key
        · rw [hcg] at key
          rw [key]
          have hnil := clausesGo_ne_nil rest _ _ _ _ _ hcg
          simp only [renderClauses_cons_ne cur cs hnil, clauseStr, bodyStr,
            chunksStr, chunkStr, CITATION_DELIM,
            List.append_assoc, List.cons_append, List.nil_append]

theorem display_clauses (refs : List VerseRangeReference) :
    display refs = (clausesOf refs).map renderClauses := by
  rcases refs with _ | ⟨r, rest⟩
  · rfl
  · rcases r with ⟨rt, b, w⟩
    rcases rt with ⟨c, s, e⟩ | ⟨s, e⟩ <;>
      simp only [display, displayGo, clausesOf, List.isEmpty_cons,
        Option.isNone_none, Bool.true_or, Bool.or_true, Bool.not_true,
        Bool.false_and, if_neg (by simp : ¬ false = true),
        if_pos (rfl : true = true), if_pos (trivial : True),
        if_neg (by simp : ¬ (0 : Nat) ≠ 0)] <;>
      rcases hbd : bookDataFor w b with _ | bd
    · rfl
    · have key := displayGo_clauses rest 1 b c (some w) []
        ⟨some bd.short_name, b, w, .verses c [(s, e)]⟩ (by omega)
        (by simp [ClauseBody.chunks])
      simp only [Option.map] at key ⊢
      simp only [clauseStr, bodyStr, chunksStr, chunkStr, CITATION_DELIM,
        CHAPTER_VERSE_DELIM, List.append_assoc, List.cons_append,
        List.nil_append] at key ⊢
      exact key
    · rfl
    · have key := displayGo_clauses rest 1 b 1000 (some w) []
        ⟨some bd.short_name, b, w, .chapters [(s, e)]⟩ (by omega)
        (by simp [ClauseBody.chunks])
      simp only [Option.map] at key ⊢
      simp only [clauseStr, bodyStr, chunksStr, chunkStr, CITATION_DELIM,
        List.append_assoc, List.cons_append, List.nil_append] at key ⊢
      exact key

/- ## C1 development: step lemmas for the clause machine -/

theorem clausesGo_cons_chapter_new (rest' : List VerseRangeReference)
    (pb pc : Nat) (pw : Option Work) (cur : Clause) (b : Nat) (w : Work)
    (s e : Nat) (bd : BookData)
    (hNBT : (pb != b || (pw.isNone || pw != some w)) = true)
    (hbd : bookDataFor w b = some bd) :
    clausesGo (⟨.startEndChapter s e, b, w⟩ :: rest') pb pc pw cur
      = Option.map (cur :: ·)
          (clausesGo rest' b pc (some w) ⟨some bd.short_name, b, w, .chapters [(s, e)]⟩) := by
  simp only [clausesGo]
  rw [hNBT, if_pos (rfl : true = true), hbd]

theorem clausesGo_cons_chapter_cont (rest' : List VerseRangeReference)
    (pb pc : Nat) (pw : Option Work) (cur : Clause) (b : Nat) (w : Work)
    (s e : Nat)
    (hNBT : (pb != b || (pw.isNone || pw != some w)) = false) :
    clausesGo (⟨.startEndChapter s e, b, w⟩ :: rest') pb pc pw cur
      = clausesGo rest' pb pc pw (appendChunk cur (s, e)) := by
  simp only [clausesGo]
  rw [hNBT, if_neg (by simp : ¬ false = true)]

theorem clausesGo_cons_verse_new (rest' : List VerseRangeReference)
    (pb pc : Nat) (pw : Option Work) (cur : Clause) (b : Nat) (w : Work)
    (c s e : Nat) (bd : BookData)
    (hNBT : (pb != b || (pw.isNone || pw != some w)) = true)
    (hbd : bookDataFor w b = some bd) :
    clausesGo (⟨.startEndVerse c s e, b, w⟩ :: rest') pb pc pw cur
      = Option.map (cur :: ·)
          (clausesGo rest' b c (some w) ⟨some bd.short_name, b, w, .verses c [(s, e)]⟩) := by
  simp only [clausesGo]
  rw [hNBT]
  simp only [Bool.not_true, Bool.false_and, if_neg (by simp : ¬ false = true),
    if_pos (rfl : true = true), if_pos (trivial : True)]
  rw [hbd]

theorem clausesGo_cons_verse_unnamed (rest' : List VerseRangeReference)
    (pb pc : Nat) (pw : Option Work) (cur : Clause) (b : Nat) (w : Work)
    (c s e : Nat)
    (hNBT : (pb != b || (pw.isNone || pw != some w)) = false)
    (hcp : (c == pc) = false) :
    clausesGo (⟨.startEndVerse c s e, b, w⟩ :: rest') pb pc pw cur
      = Option.map (cur :: ·)
          (clausesGo rest' pb c pw ⟨none, b, w, .verses c [(s, e)]⟩) := by
  simp only [clausesGo]
  rw [hNBT, hcp]
  simp only [Bool.not_false, Bool.true_and, if_neg (by simp : ¬ false = true),
    if_pos (trivial : True)]

theorem clausesGo_cons_verse_cont (rest' : List VerseRangeReference)
    (pb pc : Nat) (pw : Option Work) (cur : Clause) (b : Nat) (w : Work)
    (c s e : Nat)
    (hNBT : (pb != b || (pw.isNone || pw != some w)) = false)
    (hcp : (c == pc) = true) :
    clausesGo (⟨.startEndVerse c s e, b, w⟩ :: rest') pb pc pw cur
      = clausesGo rest' pb pc pw (appendChunk cur (s, e)) := by
  simp only [clausesGo]
  rw [hNBT, hcp]
  simp only [Bool.not_false, Bool.true_and, if_pos (rfl : true = true),
    if_pos (trivial : True)]

/- ## C1 development: well-formed clause lists regenerate themselves -/

theorem appendChunks_chapters (nm : Option Str) (B : Nat) (W : Work)
    (l : List (Nat × Nat)) :
    ∀ l0, appendChunks ⟨nm, B, W, .chapters l0⟩ l = ⟨nm, B, W, .chapters (l0 ++ l)⟩ := by
  induction l with
  | nil => intro l0; simp [appendChunks]
  | cons p l ih =>
    intro l0
    show appendChunks ⟨nm, B, W, .chapters (l0 ++ [p])⟩ l = _
    rw [ih]
    simp

theorem appendChunks_verses (nm : Option Str) (B : Nat) (W : Work) (c0 : Nat)
    (l : List (Nat × Nat)) :
    ∀ l0, appendChunks ⟨nm, B, W, .verses c0 l0⟩ l = ⟨nm, B, W, .verses c0 (l0 ++ l)⟩ := by
  induction l with
  | nil => intro l0; simp [appendChunks]
  | cons p l ih =>
    intro l0
    show appendChunks ⟨nm, B, W, .verses c0 (l0 ++ [p])⟩ l = _
    rw [ih]
    simp

theorem nbt_self_false (B : Nat) (W : Work) (pw : Option Work) (hpw : pw = some W) :
    (B != B || (pw.isNone || pw != some W)) = false := by
  subst hpw
  simp

theorem chapters_append_go (l : List (Nat × Nat)) :
    ∀ (rest2 : List VerseRangeReference) (pc : Nat) (cur : Clause) (B : Nat) (W : Work),
    clausesGo ((l.map (fun p => ⟨.startEndChapter p.1 p.2, B, W⟩)) ++ rest2)
        B pc (some W) cur
      = clausesGo rest2 B pc (some W) (appendChunks cur l) := by
  induction l with
  | nil => intro rest2 pc cur B W; rfl
  | cons p l ih =>
    intro rest2 pc cur B W
    rcases p with ⟨a, b⟩
    rw [List.map_cons, List.cons_append]
    rw [clausesGo_cons_chapter_cont _ _ _ _ _ _ _ _ _ (nbt_self_false B W _ rfl)]
    exact ih rest2 pc (appendChunk cur (a, b)) B W

theorem verses_append_go (l : List (Nat × Nat)) (c : Nat) :
    ∀ (rest2 : List VerseRangeReference) (cur : Clause) (B : Nat) (W : Work),
    clausesGo ((l.map (fun p => ⟨.startEndVerse c p.1 p.2, B, W⟩)) ++ rest2)
        B c (some W) cur
      = clausesGo rest2 B c (some W) (appendChunks cur l) := by
  induction l with
  | nil => intro rest2 cur B W; rfl
  | cons p l ih =>
    intro rest2 cur B W
    rcases p with ⟨a, b⟩
    rw [List.map_cons, List.cons_append]
    rw [clausesGo_cons_verse_cont _ _ _ _ _ _ _ _ _ _ (nbt_self_false B W _ rfl)
      (by simp)]
    exact ih rest2 (appendChunk cur (a, b)) B W

theorem nbt_of_ne (B b : Nat) (W w : Work) (hBW : b ≠ B ∨ w ≠ W) :
    (B != b || ((some W).isNone || some W != some w)) = true := by
  rcases hBW with h | h
  · simp only [Bool.or_eq_true, bne_iff_ne]
    exact Or.inl (fun he => h he.symm)
  · simp only [Bool.or_eq_true, bne_iff_ne]
    exact Or.inr (Or.inr (fun he => h (Option.some.inj he).symm))

theorem regen_go (cs : List Clause) :
    ∀ (pc : Nat) (cur : Clause), WFafter pc cur.book cur.work cs →
    clausesGo (refsOfClauses cs) cur.book pc (some cur.work) cur = some (cur :: cs) := by
  induction cs with
  | nil => intro pc cur _; rfl
  | cons cl rest ih =>
    intro pc cur h
    obtain ⟨hne, hname, hrest⟩ := h
    rcases cl with ⟨nm, B', W', body⟩
    rcases body with l | ⟨c', l⟩
    · -- chapters body: necessarily named
      rcases nm with _ | nm'
      · obtain ⟨-, -, c', l', heq, -⟩ := hname
        exact absurd heq (by simp)
      obtain ⟨⟨bd, hbd, hnm⟩, hBW⟩ := hname
      rcases l with _ | ⟨p, l2⟩
      · exact absurd rfl hne
      rcases p with ⟨a, b⟩
      rw [show refsOfClauses (⟨some nm', B', W', .chapters ((a, b) :: l2)⟩ :: rest)
          = (⟨.startEndChapter a b, B', W'⟩ : VerseRangeReference) ::
            ((l2.map (fun p => ⟨.startEndChapter p.1 p.2, B', W'⟩)) ++ refsOfClauses rest)
        from by simp [refsOfClauses, refsOfBody]]
      rw [clausesGo_cons_chapter_new _ _ _ _ _ _ _ _ _ bd (nbt_of_ne _ _ _ _ hBW) hbd]
      rw [chapters_append_go l2 (refsOfClauses rest) pc _ B' W']
      rw [appendChunks_chapters]
      have hcl : (⟨some bd.short_name, B', W', .chapters ([(a, b)] ++ l2)⟩ : Clause)
          = ⟨some nm', B', W', .chapters ((a, b) :: l2)⟩ := by
        rw [hnm]
        simp
      rw [hcl]
      have hrest' : WFafter pc B' W' rest := by
        simpa [pcNext] using hrest
      have hih : clausesGo (refsOfClauses rest) B' pc (some W')
          ⟨some nm', B', W', .chapters ((a, b) :: l2)⟩
            = some (⟨some nm', B', W', .chapters ((a, b) :: l2)⟩ :: rest) :=
        ih pc ⟨some nm', B', W', .chapters ((a, b) :: l2)⟩ hrest'
      rw [hih]
      rfl
    · -- verses body
      rcases l with _ | ⟨p, l2⟩
      · exact absurd rfl hne
      rcases p with ⟨a, b⟩
      rcases nm with _ | nm'
      · -- unnamed clause: same book and work, fresh chapter
        obtain ⟨hB, hW, c2, l2x, heq, hcp⟩ := hname
        have hc2 : c2 = c' := by
          simp only [ClauseBody.verses.injEq] at heq
          exact heq.1.symm
        have hcp' : c' ≠ pc := hc2 ▸ hcp
        have hB2 : B' = cur.book := hB
        have hW2 : W' = cur.work := hW
        rw [show refsOfClauses (⟨none, B', W', .verses c' ((a, b) :: l2)⟩ :: rest)
            = (⟨.startEndVerse c' a b, B', W'⟩ : VerseRangeReference) ::
              ((l2.map (fun p => ⟨.startEndVerse c' p.1 p.2, B', W'⟩)) ++ refsOfClauses rest)
          from by simp [refsOfClauses, refsOfBody]]
        rw [clausesGo_cons_verse_unnamed _ _ _ _ _ _ _ _ _ _
          (by rw [← hB2, ← hW2]; exact nbt_self_false B' W' _ rfl)
          (beq_eq_false_iff_ne.mpr hcp')]
        rw [← hB2, ← hW2]
        rw [verses_append_go l2 c' (refsOfClauses rest) _ B' W']
        rw [appendChunks_verses]
        have hcl : (⟨none, B', W', .verses c' ([(a, b)] ++ l2)⟩ : Clause)
            = ⟨none, B', W', .verses c' ((a, b) :: l2)⟩ := by simp
        rw [hcl]
        have hrest' : WFafter c' B' W' rest := by
          simpa [pcNext] using hrest
        have hih : clausesGo (refsOfClauses rest) B' c' (some W')
            ⟨none, B', W', .verses c' ((a, b) :: l2)⟩
              = some (⟨none, B', W', .verses c' ((a, b) :: l2)⟩ :: rest) :=
          ih c' ⟨none, B', W', .verses c' ((a, b) :: l2)⟩ hrest'
        rw [hih]
        rfl
      · -- named verse clause
        obtain ⟨⟨bd, hbd, hnm⟩, hBW⟩ := hname
        rw [show refsOfClauses (⟨some nm', B', W', .verses c' ((a, b) :: l2)⟩ :: rest)
            = (⟨.startEndVerse c' a b, B', W'⟩ : VerseRangeReference) ::
              ((l2.map (fun p => ⟨.startEndVerse c' p.1 p.2, B', W'⟩)) ++ refsOfClauses rest)
          from by simp [refsOfClauses, refsOfBody]]
        rw [clausesGo_cons_verse_new _ _ _ _ _ _ _ _ _ _ bd
          (nbt_of_ne _ _ _ _ hBW) hbd]
        rw [verses_append_go l2 c' (refsOfClauses rest) _ B' W']
        rw [appendChunks_verses]
        have hcl : (⟨some bd.short_name, B', W', .verses c' ([(a, b)] ++ l2)⟩ : Clause)
            = ⟨some nm', B', W', .verses c' ((a, b) :: l2)⟩ := by
          rw [hnm]
          simp
        rw [hcl]
        have hrest' : WFafter c' B' W' rest := by
          simpa [pcNext] using hrest
        have hih : clausesGo (refsOfClauses rest) B' c' (some W')
            ⟨some nm', B', W', .verses c' ((a, b) :: l2)⟩
              = some (⟨some nm', B', W', .verses c' ((a, b) :: l2)⟩ :: rest) :=
          ih c' ⟨some nm', B', W', .verses c' ((a, b) :: l2)⟩ hrest'
        rw [hih]
        rfl

theorem clausesOf_cons_chapter (rest' : List VerseRangeReference)
    (b : Nat) (w : Work) (s e : Nat) (bd : BookData)
    (hbd : bookDataFor w b = some bd) :
    clausesOf (⟨.startEndChapter s e, b, w⟩ :: rest')
      = clausesGo rest' b 1000 (some w) ⟨some bd.short_name, b, w, .chapters [(s, e)]⟩ := by
  simp only [clausesOf]
  rw [hbd]

theorem clausesOf_cons_verse (rest' : List VerseRangeReference)
    (b : Nat) (w : Work) (c s e : Nat) (bd : BookData)
    (hbd : bookDataFor w b = some bd) :
    clausesOf (⟨.startEndVerse c s e, b, w⟩ :: rest')
      = clausesGo rest' b c (some w) ⟨some bd.short_name, b, w, .verses c [(s, e)]⟩ := by
  simp only [clausesOf]
  rw [hbd]

theorem regen (cs : List Clause) (h : WFclauses cs) :
    clausesOf (refsOfClauses cs) = some cs := by
  rcases cs with _ | ⟨cl, rest⟩
  · rfl
  · obtain ⟨hne, ⟨bd, hbd, hnm⟩, hwf⟩ := h
    rcases cl with ⟨nm, B', W', body⟩
    rcases body with l | ⟨c', l⟩ <;>
      rcases l with _ | ⟨p, l2⟩
    · exact absurd rfl hne
    · rcases p with ⟨a, b⟩
      rw [show refsOfClauses (⟨nm, B', W', .chapters ((a, b) :: l2)⟩ :: rest)
          = (⟨.startEndChapter a b, B', W'⟩ : VerseRangeReference) ::
            ((l2.map (fun p => ⟨.startEndChapter p.1 p.2, B', W'⟩)) ++ refsOfClauses rest)
        from by simp [refsOfClauses, refsOfBody]]
      rw [clausesOf_cons_chapter _ _ _ _ _ bd hbd]
      rw [chapters_append_go l2 (refsOfClauses rest) 1000 _ B' W']
      rw [appendChunks_chapters]
      have hcl : (⟨some bd.short_name, B', W', .chapters ([(a, b)] ++ l2)⟩ : Clause)
          = ⟨nm, B', W', .chapters ((a, b) :: l2)⟩ := by
        rw [show nm = some bd.short_name from hnm]
        simp
      rw [hcl]
      have hrest' : WFafter 1000 B' W' rest := by
        simpa [pcNext] using hwf
      exact regen_go rest 1000 ⟨nm, B', W', .chapters ((a, b) :: l2)⟩ hrest'
    · exact absurd rfl hne
    · rcases p with ⟨a, b⟩
      rw [show refsOfClauses (⟨nm, B', W', .verses c' ((a, b) :: l2)⟩ :: rest)
          = (⟨.startEndVerse c' a b, B', W'⟩ : VerseRangeReference) ::
            ((l2.map (fun p => ⟨.startEndVerse c' p.1 p.2, B', W'⟩)) ++ refsOfClauses rest)
        from by simp [refsOfClauses, refsOfBody]]
      rw [clausesOf_cons_verse _ _ _ _ _ _ bd hbd]
      rw [verses_append_go l2 c' (refsOfClauses rest) _ B' W']
      rw [appendChunks_verses]
      have hcl : (⟨some bd.short_name, B', W', .verses c' ([(a, b)] ++ l2)⟩ : Clause)
          = ⟨nm, B', W', .verses c' ((a, b) :: l2)⟩ := by
        rw [show nm = some bd.short_name from hnm]
        simp
      rw [hcl]
      have hrest' : WFafter c' B' W' rest := by
        simpa [pcNext] using hwf
      exact regen_go rest c' ⟨nm, B', W', .verses c' ((a, b) :: l2)⟩ hrest'

/- ## C1 development: the clause machine generates well-formed clause lists -/

theorem clausesGo_cons_chapter_new_none (rest' : List VerseRangeReference)
    (pb pc : Nat) (pw : Option Work) (cur : Clause) (b : Nat) (w : Work)
    (s e : Nat)
    (hNBT : (pb != b || (pw.isNone || pw != some w)) = true)
    (hbd : bookDataFor w b = none) :
    clausesGo (⟨.startEndChapter s e, b, w⟩ :: rest') pb pc pw cur = none := by
  simp only [clausesGo]
  rw [hNBT, if_pos (rfl : true = true), hbd]

theorem clausesGo_cons_verse_new_none (rest' : List VerseRangeReference)
    (pb pc : Nat) (pw : Option Work) (cur : Clause) (b : Nat) (w : Work)
    (c s e : Nat)
    (hNBT : (pb != b || (pw.isNone || pw != some w)) = true)
    (hbd : bookDataFor w b = none) :
    clausesGo (⟨.startEndVerse c s e, b, w⟩ :: rest') pb pc pw cur = none := by
  simp only [clausesGo]
  rw [hNBT]
  simp only [Bool.not_true, Bool.false_and, if_neg (by simp : ¬ false = true),
    if_pos (rfl : true = true), if_pos (trivial : True)]
  rw [hbd]

theorem bodyShell_chunks (b : ClauseBody) : bodyShell b b.chunks = b := by
  rcases b with l | ⟨c, l⟩ <;> rfl

theorem bodyShell_appendChunk (cur : Clause) (p : Nat × Nat)
    (l1 : List (Nat × Nat)) :
    bodyShell (appendChunk cur p).body l1 = bodyShell cur.body l1 := by
  rcases cur with ⟨nm, B, W, body⟩
  rcases body with l | ⟨c, l⟩ <;> rfl

theorem pcNext_of_hpc (pc : Nat) (cur : Clause)
    (hpc : ∀ c0 l0, cur.body = .verses c0 l0 → pc = c0) :
    pcNext pc cur = pc := by
  rcases hb : cur.body with l | ⟨c, l⟩
  · simp [pcNext, hb]
  · simp [pcNext, hb]
    exact (hpc c l hb).symm

theorem appendChunk_verses_inv (cur : Clause) (p : Nat × Nat) (c0 : Nat)
    (l0 : List (Nat × Nat)) (h : (appendChunk cur p).body = .verses c0 l0) :
    ∃ l2, cur.body = .verses c0 l2 := by
  rcases cur with ⟨nm, B, W, body⟩
  rcases body with l | ⟨c, l⟩
  · exact absurd h (by simp [appendChunk])
  · refine ⟨l, ?_⟩
    simp only [appendChunk, ClauseBody.verses.injEq] at h
    simp [h.1]

theorem nbt_false_eq (B b : Nat) (W w : Work)
    (h : (B != b || ((some W).isNone || some W != some w)) = false) :
    B = b ∧ W = w := by
  simp only [Bool.or_eq_false_iff, bne_eq_false_iff_eq, Option.isNone_some] at h
  exact ⟨h.1, Option.some.inj h.2.2⟩

theorem nbt_true_ne (B b : Nat) (W w : Work)
    (h : (B != b || ((some W).isNone || some W != some w)) = true) :
    b ≠ B ∨ w ≠ W := by
  simp only [Bool.or_eq_true, bne_iff_ne, Option.isNone_some] at h
  rcases h with h | h | h
  · exact Or.inl (fun he => h he.symm)
  · exact absurd h (by simp)
  · exact Or.inr (fun he => h (by rw [he]))

theorem gen_wf (refs : List VerseRangeReference) :
    ∀ (pc : Nat) (cur : Clause) (cs : List Clause),
      clausesGo refs cur.book pc (some cur.work) cur = some cs →
      cur.body.chunks ≠ [] →
      (∀ c0 l0, cur.body = .verses c0 l0 → pc = c0) →
      ∃ curC tail, cs = curC :: tail ∧ curC.name = cur.name ∧
        curC.book = cur.book ∧ curC.work = cur.work ∧
        curC.body.chunks ≠ [] ∧
        (∃ l1, curC.body = bodyShell cur.body l1) ∧
        WFafter (pcNext pc curC) curC.book curC.work tail := by
  induction refs with
  | nil =>
    intro pc cur cs h hne hpc
    have hcs : cs = [cur] := (Option.some.inj h).symm
    subst hcs
    exact ⟨cur, [], rfl, rfl, rfl, rfl, hne, ⟨cur.body.chunks,
      (bodyShell_chunks cur.body).symm⟩, trivial⟩
  | cons r rest ih =>
    intro pc cur cs h hne hpc
    rcases r with ⟨rt, b, w⟩
    rcases rt with ⟨c, s, e⟩ | ⟨s, e⟩
    · -- verse reference
      cases hnbt : (cur.book != b || ((some cur.work).isNone || some cur.work != some w))
      · cases hcp : (c == pc)
        · -- unnamed new clause
          rw [clausesGo_cons_verse_unnamed _ _ _ _ _ _ _ _ _ _ hnbt hcp] at h
          rcases hcg : clausesGo rest cur.book c (some cur.work)
              ⟨none, b, w, .verses c [(s, e)]⟩ with _ | cs2
          · rw [hcg] at h
            exact absurd h (by simp [Option.map])
          · rw [hcg] at h
            simp only [Option.map] at h
            have hcs : cs = cur :: cs2 := (Option.some.inj h).symm
            subst hcs
            obtain ⟨hB, hW⟩ := nbt_false_eq _ _ _ _ hnbt
            rw [hB, hW] at hcg
            have h2 : clausesGo rest
                (⟨none, b, w, .verses c [(s, e)]⟩ : Clause).book c
                (some (⟨none, b, w, .verses c [(s, e)]⟩ : Clause).work)
                ⟨none, b, w, .verses c [(s, e)]⟩ = some cs2 := hcg
            obtain ⟨curC', tail', hcs2, hn', hb', hw', hchunks', ⟨l1, hshell'⟩, hwf'⟩ :=
              ih c ⟨none, b, w, .verses c [(s, e)]⟩ cs2 h2 (by simp [ClauseBody.chunks])
                (by intro c0 l0 hh; simp only [ClauseBody.verses.injEq] at hh
                    exact hh.1)
            subst hcs2
            refine ⟨cur, curC' :: tail', rfl, rfl, rfl, rfl, hne,
              ⟨cur.body.chunks, (bodyShell_chunks cur.body).symm⟩, ?_⟩
            have hbody' : curC'.body = .verses c l1 := hshell'
            refine ⟨hchunks', ?_, ?_⟩
            · rw [show curC'.name = (none : Option Str) from hn']
              refine ⟨?_, ?_, c, l1, hbody', ?_⟩
              · rw [show curC'.book = b from hb', ← hB]
              · rw [show curC'.work = w from hw', ← hW]
              · rw [pcNext_of_hpc pc cur hpc]
                exact fun he => (by simpa [he] using hcp : False)
            · rw [pcNext_of_hpc pc cur hpc]
              have hpn : ∀ x, pcNext x curC' = c := by
                intro x
                simp [pcNext, hbody']
              rw [hpn]
              rw [show curC'.book = b from hb', show curC'.work = w from hw']
              have := hwf'
              rw [hpn, show curC'.book = b from hb',
                show curC'.work = w from hw'] at this
              exact this
        · -- continuing verse chunk
          rw [clausesGo_cons_verse_cont _ _ _ _ _ _ _ _ _ _ hnbt hcp] at h
          have h2 : clausesGo rest (appendChunk cur (s, e)).book pc
              (some (appendChunk cur (s, e)).work) (appendChunk cur (s, e))
                = some cs := h
          obtain ⟨curC, tail, hcs, hn, hb', hw', hchunks, ⟨l1, hshell⟩, hwf⟩ :=
            ih pc (appendChunk cur (s, e)) cs h2
              (by rw [chunks_appendChunk]; simp)
              (by intro c0 l0 hh
                  obtain ⟨l2, hl2⟩ := appendChunk_verses_inv cur (s, e) c0 l0 hh
                  exact hpc c0 l2 hl2)
          refine ⟨curC, tail, hcs, ?_, ?_, ?_, hchunks, ?_, hwf⟩
          · exact hn
          · exact hb'
          · exact hw'
          · exact ⟨l1, by rw [hshell, bodyShell_appendChunk]⟩
      · -- new named clause from a verse reference
        rcases hbd : bookDataFor w b with _ | bd
        · rw [clausesGo_cons_verse_new_none _ _ _ _ _ _ _ _ _ _ hnbt hbd] at h
          exact absurd h (by simp)
        · rw [clausesGo_cons_verse_new _ _ _ _ _ _ _ _ _ _ bd hnbt hbd] at h
          rcases hcg : clausesGo rest b c (some w)
              ⟨some bd.short_name, b, w, .verses c [(s, e)]⟩ with _ | cs2
          · rw [hcg] at h
            exact absurd h (by simp [Option.map])
          · rw [hcg] at h
            simp only [Option.map] at h
            have hcs : cs = cur :: cs2 := (Option.some.inj h).symm
            subst hcs
            obtain ⟨curC', tail', hcs2, hn', hb', hw', hchunks', ⟨l1, hshell'⟩, hwf'⟩ :=
              ih c ⟨some bd.short_name, b, w, .verses c [(s, e)]⟩ cs2 hcg
                (by simp [ClauseBody.chunks])
                (by intro c0 l0 hh; simp only [ClauseBody.verses.injEq] at hh
                    exact hh.1)
            subst hcs2
            refine ⟨cur, curC' :: tail', rfl, rfl, rfl, rfl, hne,
              ⟨cur.body.chunks, (bodyShell_chunks cur.body).symm⟩, ?_⟩
            have hbody' : curC'.body = .verses c l1 := hshell'
            refine ⟨hchunks', ?_, ?_⟩
            · rw [show curC'.name = some bd.short_name from hn']
              refine ⟨⟨bd, ?_, rfl⟩, ?_⟩
              · rw [show curC'.book = b from hb', show curC'.work = w from hw']
                exact hbd
              · rw [show curC'.book = b from hb', show curC'.work = w from hw']
                exact nbt_true_ne _ _ _ _ hnbt
            · have hpn : ∀ x, pcNext x curC' = c := by
                intro x
                simp [pcNext, hbody']
              rw [hpn]
              have := hwf'
              rw [hpn] at this
              exact this
    · -- chapter reference
      cases hnbt : (cur.book != b || ((some cur.work).isNone || some cur.work != some w))
      · -- continuing chapter chunk
        rw [clausesGo_cons_chapter_cont _ _ _ _ _ _ _ _ _ hnbt] at h
        have h2 : clausesGo rest (appendChunk cur (s, e)).book pc
            (some (appendChunk cur (s, e)).work) (appendChunk cur (s, e))
              = some cs := h
        obtain ⟨curC, tail, hcs, hn, hb', hw', hchunks, ⟨l1, hshell⟩, hwf⟩ :=
          ih pc (appendChunk cur (s, e)) cs h2
            (by rw [chunks_appendChunk]; simp)
            (by intro c0 l0 hh
                obtain ⟨l2, hl2⟩ := appendChunk_verses_inv cur (s, e) c0 l0 hh
                exact hpc c0 l2 hl2)
        refine ⟨curC, tail, hcs, hn, hb', hw', hchunks, ?_, hwf⟩
        exact ⟨l1, by rw [hshell, bodyShell_appendChunk]⟩
      · -- new named clause from a chapter reference
        rcases hbd : bookDataFor w b with _ | bd
        · rw [clausesGo_cons_chapter_new_none _ _ _ _ _ _ _ _ _ hnbt hbd] at h
          exact absurd h (by simp)
        · rw [clausesGo_cons_chapter_new _ _ _ _ _ _ _ _ _ bd hnbt hbd] at h
          rcases hcg : clausesGo rest b pc (some w)
              ⟨some bd.short_name, b, w, .chapters [(s, e)]⟩ with _ | cs2
          · rw [hcg] at h
            exact absurd h (by simp [Option.map])
          · rw [hcg] at h
            simp only [Option.map] at h
            have hcs : cs = cur :: cs2 := (Option.some.inj h).symm
            subst hcs
            obtain ⟨curC', tail', hcs2, hn', hb', hw', hchunks', ⟨l1, hshell'⟩, hwf'⟩ :=
              ih pc ⟨some bd.short_name, b, w, .chapters [(s, e)]⟩ cs2 hcg
                (by simp [ClauseBody.chunks])
                (by intro c0 l0 hh; exact absurd hh (by simp))
            subst hcs2
            refine ⟨cur, curC' :: tail', rfl, rfl, rfl, rfl, hne,
              ⟨cur.body.chunks, (bodyShell_chunks cur.body).symm⟩, ?_⟩
            have hbody' : curC'.body = .chapters l1 := hshell'
            refine ⟨hchunks', ?_, ?_⟩
            · rw [show curC'.name = some bd.short_name from hn']
              refine ⟨⟨bd, ?_, rfl⟩, ?_⟩
              · rw [show curC'.book = b from hb', show curC'.work = w from hw']
                exact hbd
              · rw [show curC'.book = b from hb', show curC'.work = w from hw']
                exact nbt_true_ne _ _ _ _ hnbt
            · have hpn : ∀ x, pcNext x curC' = x := by
                intro x
                simp [pcNext, hbody']
              rw [hpn, pcNext_of_hpc pc cur hpc]
              have := hwf'
              rw [hpn] at this
              exact this

/- ## C1 development: top-level clause decomposition facts -/

theorem clausesOf_cons_none (rest' : List VerseRangeReference) (rt : RangeType)
    (b : Nat) (w : Work) (hbd : bookDataFor w b = none) :
    clausesOf (⟨rt, b, w⟩ :: rest') = none := by
  simp only [clausesOf]
  rw [hbd]

theorem clausesOf_wf (refs : List VerseRangeReference) (cs : List Clause)
    (h : clausesOf refs = some cs) : WFclauses cs := by
  rcases refs with _ | ⟨r, rest⟩
  · have hcs : cs = [] := by
      simp only [clausesOf] at h
      exact (Option.some.inj h).symm
    subst hcs
    trivial
  · rcases r with ⟨rt, b, w⟩
    rcases hbd : bookDataFor w b with _ | bd
    · rw [clausesOf_cons_none rest rt b w hbd] at h
      exact absurd h (by simp)
    rcases rt with ⟨c, s, e⟩ | ⟨s, e⟩
    · rw [clausesOf_cons_verse _ _ _ _ _ _ bd hbd] at h
      have h2 : clausesGo rest
          (⟨some bd.short_name, b, w, .verses c [(s, e)]⟩ : Clause).book c
          (some (⟨some bd.short_name, b, w, .verses c [(s, e)]⟩ : Clause).work)
          ⟨some bd.short_name, b, w, .verses c [(s, e)]⟩ = some cs := h
      obtain ⟨curC, tail, hcs, hn, hb', hw', hchunks, ⟨l1, hshell⟩, hwf⟩ :=
        gen_wf rest c ⟨some bd.short_name, b, w, .verses c [(s, e)]⟩ cs h2
          (by simp [ClauseBody.chunks])
          (by intro c0 l0 hh; simp only [ClauseBody.verses.injEq] at hh
              exact hh.1)
      subst hcs
      have hbody : curC.body = .verses c l1 := hshell
      have hpn : ∀ x, pcNext x curC = c := by
        intro x
        simp [pcNext, hbody]
      refine ⟨hchunks, ⟨bd, ?_, hn⟩, ?_⟩
      · rw [show curC.book = b from hb', show curC.work = w from hw']
        exact hbd
      · rw [hpn]
        have := hwf
        rw [hpn] at this
        exact this
    · rw [clausesOf_cons_chapter _ _ _ _ _ bd hbd] at h
      have h2 : clausesGo rest
          (⟨some bd.short_name, b, w, .chapters [(s, e)]⟩ : Clause).book 1000
          (some (⟨some bd.short_name, b, w, .chapters [(s, e)]⟩ : Clause).work)
          ⟨some bd.short_name, b, w, .chapters [(s, e)]⟩ = some cs := h
      obtain ⟨curC, tail, hcs, hn, hb', hw', hchunks, ⟨l1, hshell⟩, hwf⟩ :=
        gen_wf rest 1000 ⟨some bd.short_name, b, w, .chapters [(s, e)]⟩ cs h2
          (by simp [ClauseBody.chunks])
          (by intro c0 l0 hh; exact absurd hh (by simp))
      subst hcs
      refine ⟨hchunks, ⟨bd, ?_, hn⟩, hwf⟩
      rw [show curC.book = b from hb', show curC.work = w from hw']
      exact hbd

theorem clausesGo_total (refs : List VerseRangeReference) :
    ∀ (pb pc : Nat) (pw : Option Work) (cur : Clause),
      (∀ r ∈ refs, (bookDataFor r.work r.book_index).isSome) →
      ∃ cs, clausesGo refs pb pc pw cur = some cs := by
  induction refs with
  | nil => intro pb pc pw cur _; exact ⟨[cur], rfl⟩
  | cons r rest ih =>
    intro pb pc pw cur h
    rcases r with ⟨rt, b, w⟩
    have hbds : (bookDataFor w b).isSome := by
      simpa using h _ (List.mem_cons_self _ _)
    rcases hbd : bookDataFor w b with _ | bd
    · rw [hbd] at hbds
      exact absurd hbds (by simp)
    have hrest : ∀ r ∈ rest, (bookDataFor r.work r.book_index).isSome :=
      fun r hr => h r (List.mem_cons_of_mem _ hr)
    rcases rt with ⟨c, s, e⟩ | ⟨s, e⟩
    · cases hnbt : (pb != b || (pw.isNone || pw != some w))
      · cases hcp : (c == pc)
        · rw [clausesGo_cons_verse_unnamed _ _ _ _ _ _ _ _ _ _ hnbt hcp]
          obtain ⟨cs2, hcs2⟩ := ih pb c pw ⟨none, b, w, .verses c [(s, e)]⟩ hrest
          exact ⟨cur :: cs2, by rw [hcs2]; rfl⟩
        · rw [clausesGo_cons_verse_cont _ _ _ _ _ _ _ _ _ _ hnbt hcp]
          exact ih pb pc pw (appendChunk cur (s, e)) hrest
      · rw [clausesGo_cons_verse_new _ _ _ _ _ _ _ _ _ _ bd hnbt hbd]
        obtain ⟨cs2, hcs2⟩ :=
          ih b c (some w) ⟨some bd.short_name, b, w, .verses c [(s, e)]⟩ hrest
        exact ⟨cur :: cs2, by rw [hcs2]; rfl⟩
    · cases hnbt : (pb != b || (pw.isNone || pw != some w))
      · rw [clausesGo_cons_chapter_cont _ _ _ _ _ _ _ _ _ hnbt]
        exact ih pb pc pw (appendChunk cur (s, e)) hrest
      · rw [clausesGo_cons_chapter_new _ _ _ _ _ _ _ _ _ bd hnbt hbd]
        obtain ⟨cs2, hcs2⟩ :=
          ih b pc (some w) ⟨some bd.short_name, b, w, .chapters [(s, e)]⟩ hrest
        exact ⟨cur :: cs2, by rw [hcs2]; rfl⟩

theorem clausesOf_total (refs : List VerseRangeReference)
    (h : ∀ r ∈ refs, (bookDataFor r.work r.book_index).isSome) :
    ∃ cs, clausesOf refs = some cs := by
  rcases refs with _ | ⟨r, rest⟩
  · exact ⟨[], rfl⟩
  · rcases r with ⟨rt, b, w⟩
    have hbds : (bookDataFor w b).isSome := by
      simpa using h _ (List.mem_cons_self _ _)
    rcases hbd : bookDataFor w b with _ | bd
    · rw [hbd] at hbds
      exact absurd hbds (by simp)
    have hrest : ∀ r ∈ rest, (bookDataFor r.work r.book_index).isSome :=
      fun r hr => h r (List.mem_cons_of_mem _ hr)
    rcases rt with ⟨c, s, e⟩ | ⟨s, e⟩
    · rw [clausesOf_cons_verse _ _ _ _ _ _ bd hbd]
      exact clausesGo_total rest b c (some w) _ hrest
    · rw [clausesOf_cons_chapter _ _ _ _ _ bd hbd]
      exact clausesGo_total rest b 1000 (some w) _ hrest

/- ## C1 development: character classes of rendered clause strings -/

theorem goodShort_chars (nm : Str) (hg : goodShort nm = true) :
    ∀ ch ∈ nm, (isAlphaChar ch || isDigitChar ch
      || decide (ch = ' ') || decide (ch = '.')) = true := by
  unfold goodShort at hg
  simp only [Bool.or_eq_true] at hg
  rcases hg with (hA | hB) | hC
  · intro ch hch
    have h := (shapeA_parts nm hA).2.1 ch hch
    simp only [Bool.or_eq_true] at h ⊢
    rcases h with h | h
    · exact Or.inl (Or.inl (Or.inl h))
    · exact Or.inl (Or.inr h)
  · obtain ⟨core, hnm, hA⟩ := shapeB_parts nm hB
    subst hnm
    intro ch hch
    rcases List.mem_append.mp hch with h | h
    · have h2 := (shapeA_parts core hA).2.1 ch h
      simp only [Bool.or_eq_true] at h2 ⊢
      rcases h2 with h2 | h2
      · exact Or.inl (Or.inl (Or.inl h2))
      · exact Or.inl (Or.inr h2)
    · simp only [List.mem_singleton] at h
      subst h
      simp
  · rcases nm with _ | ⟨d0, nm'⟩
    · exact absurd hC (by simp [shapeC])
    rcases nm' with _ | ⟨w, rest⟩
    · exact absurd hC (by simp [shapeC])
    unfold shapeC at hC
    simp only [Bool.and_eq_true, beq_iff_eq] at hC
    obtain ⟨⟨hd0, hw⟩, hB⟩ := hC
    subst hw
    intro ch hch
    rcases List.mem_cons.mp hch with heq | hch2
    · subst heq
      simp [hd0]
    rcases List.mem_cons.mp hch2 with heq | hch
    · subst heq
      simp
    obtain ⟨core, hrest, hA⟩ := shapeB_parts rest hB
    subst hrest
    rcases List.mem_append.mp hch with h | h
    · have h2 := (shapeA_parts core hA).2.1 ch h
      simp only [Bool.or_eq_true] at h2 ⊢
      rcases h2 with h2 | h2
      · exact Or.inl (Or.inl (Or.inl h2))
      · exact Or.inl (Or.inr h2)
    · simp only [List.mem_singleton] at h
      subst h
      simp

theorem goodChar_ne (ch : Char)
    (h : (isAlphaChar ch || isDigitChar ch
      || decide (ch = ' ') || decide (ch = '.')) = true)
    (x : Char) (hx1 : isAlphaChar x = false) (hx2 : isDigitChar x = false)
    (hx3 : x ≠ ' ') (hx4 : x ≠ '.') : ch ≠ x := by
  intro he
  subst he
  simp only [Bool.or_eq_true, decide_eq_true_eq] at h
  rcases h with ((h | h) | h) | h
  · rw [hx1] at h
    exact Bool.noConfusion h
  · rw [hx2] at h
    exact Bool.noConfusion h
  · exact hx3 h
  · exact hx4 h

theorem ws_ne (c x : Char) (h : isWsChar c = true) (hx : isWsChar x = false) :
    c ≠ x := by
  intro he
  subst he
  rw [h] at hx
  exact Bool.noConfusion hx

theorem chunkStr_chars (a b : Nat) :
    ∀ ch ∈ chunkStr (a, b), (isDigitChar ch || decide (ch = '–')) = true := by
  unfold chunkStr fmtRangePair
  intro ch hch
  simp only at hch
  split at hch
  · simp [natToChars_all_digits _ ch hch]
  · rcases List.mem_append.mp hch with h | h
    · rcases List.mem_append.mp h with h2 | h2
      · simp [natToChars_all_digits _ ch h2]
      · simp only [List.mem_singleton] at h2
        subst h2
        simp [RANGE_DELIM_CANONICAL]
    · simp [natToChars_all_digits _ ch h]

theorem chunkChar_ne (ch : Char)
    (h : (isDigitChar ch || decide (ch = '–')) = true)
    (x : Char) (hx2 : isDigitChar x = false) (hx5 : x ≠ '–') : ch ≠ x := by
  intro he
  subst he
  simp only [Bool.or_eq_true, decide_eq_true_eq] at h
  rcases h with h | h
  · rw [hx2] at h
    exact Bool.noConfusion h
  · exact hx5 h

theorem chunksStr_chars (l : List (Nat × Nat)) :
    ∀ ch ∈ chunksStr l, (isDigitChar ch || decide (ch = '–')
      || decide (ch = ',') || decide (ch = ' ')) = true := by
  induction l with
  | nil => intro ch hch; exact absurd hch (by simp [chunksStr])
  | cons p l ih =>
    rcases l with _ | ⟨q, l2⟩
    · intro ch hch
      rcases p with ⟨a, b⟩
      have := chunkStr_chars a b ch hch
      simp only [Bool.or_eq_true] at this ⊢
      exact Or.inl (Or.inl this)
    · intro ch hch
      rcases p with ⟨a, b⟩
      rcases List.mem_append.mp hch with h | h
      · rcases List.mem_append.mp h with h2 | h2
        · have := chunkStr_chars a b ch h2
          simp only [Bool.or_eq_true] at this ⊢
          exact Or.inl (Or.inl this)
        · rcases List.mem_cons.mp h2 with heq | h3
          · subst heq
            simp [VERSE_CHUNK_DELIM]
          simp only [List.mem_singleton] at h3
          subst h3
          simp
      · exact ih ch h

theorem chunksChar_ne (ch : Char)
    (h : (isDigitChar ch || decide (ch = '–')
      || decide (ch = ',') || decide (ch = ' ')) = true)
    (x : Char) (hx2 : isDigitChar x = false) (hx5 : x ≠ '–') (hx6 : x ≠ ',')
    (hx7 : x ≠ ' ') : ch ≠ x := by
  intro he
  subst he
  simp only [Bool.or_eq_true, decide_eq_true_eq] at h
  rcases h with ((h | h) | h) | h
  · rw [hx2] at h
    exact Bool.noConfusion h
  · exact hx5 h
  · exact hx6 h
  · exact hx7 h

theorem natToChars_head (n : Nat) :
    ∃ d tail, natToChars n = d :: tail ∧ isDigitChar d = true := by
  rcases h : natToChars n with _ | ⟨d, t⟩
  · exact absurd h (natToChars_ne_nil n)
  · refine ⟨d, t, rfl, ?_⟩
    exact natToChars_all_digits n d (by rw [h]; simp)

theorem natToChars_last (n : Nat) :
    ∃ z, (natToChars n).getLast? = some z ∧ isDigitChar z = true := by
  obtain ⟨d, t, h, -⟩ := natToChars_head n
  have hne : natToChars n ≠ [] := natToChars_ne_nil n
  refine ⟨(natToChars n).getLast hne, List.getLast?_eq_getLast _ hne, ?_⟩
  exact natToChars_all_digits n _ (List.mem_of_getLast?_eq_some
    (List.getLast?_eq_getLast _ hne))

theorem chunkStr_shape (a b : Nat) :
    ∃ d tail, chunkStr (a, b) = d :: tail ∧ isDigitChar d = true := by
  unfold chunkStr fmtRangePair
  simp only
  split
  · exact natToChars_head a
  · obtain ⟨d, t, h, hd⟩ := natToChars_head a
    exact ⟨d, t ++ [RANGE_DELIM_CANONICAL] ++ natToChars b, by rw [h]; simp, hd⟩

theorem chunkStr_last (a b : Nat) :
    ∃ z, (chunkStr (a, b)).getLast? = some z ∧ isDigitChar z = true := by
  unfold chunkStr fmtRangePair
  simp only
  split
  · exact natToChars_last a
  · obtain ⟨z, hz, hzd⟩ := natToChars_last b
    refine ⟨z, ?_, hzd⟩
    rw [List.getLast?_append_of_ne_nil _ (natToChars_ne_nil b)]
    exact hz

/- ## C1 development: splitting rendered bodies and parsing chunk loops -/

theorem chunkStr_no_comma (p : Nat × Nat) :
    ∀ ch ∈ chunkStr p, decide (ch = VERSE_CHUNK_DELIM) = false := by
  rcases p with ⟨a, b⟩
  intro ch hch
  exact decide_eq_false (chunkChar_ne ch (chunkStr_chars a b ch hch)
    VERSE_CHUNK_DELIM (by decide) (by decide))

theorem chunksStr_no_colon (l : List (Nat × Nat)) :
    ∀ ch ∈ chunksStr l, decide (ch = CHAPTER_VERSE_DELIM) = false := by
  intro ch hch
  exact decide_eq_false (chunksChar_ne ch (chunksStr_chars l ch hch)
    CHAPTER_VERSE_DELIM (by decide) (by decide) (by decide) (by decide))

theorem chunksStr_no_semi (l : List (Nat × Nat)) :
    ∀ ch ∈ chunksStr l, decide (ch = CITATION_DELIM) = false := by
  intro ch hch
  exact decide_eq_false (chunksChar_ne ch (chunksStr_chars l ch hch)
    CITATION_DELIM (by decide) (by decide) (by decide) (by decide))

theorem split_chunksStr (l : List (Nat × Nat)) :
    ∀ (p : Nat × Nat) (pre : Str),
      (∀ ch ∈ pre, decide (ch = VERSE_CHUNK_DELIM) = false) →
      splitOnChar VERSE_CHUNK_DELIM (pre ++ chunksStr (p :: l))
        = (pre ++ chunkStr p) :: l.map (fun q => ' ' :: chunkStr q) := by
  induction l with
  | nil =>
    intro p pre hpre
    unfold splitOnChar
    rw [show chunksStr [p] = chunkStr p from rfl]
    rw [splitOnP_no_sep _ _ (by
      intro c hc
      rcases List.mem_append.mp hc with h | h
      · exact hpre c h
      · exact chunkStr_no_comma p c h)]
    simp
  | cons q l2 ih =>
    intro p pre hpre
    unfold splitOnChar
    rw [show pre ++ chunksStr (p :: q :: l2)
        = (pre ++ chunkStr p) ++ VERSE_CHUNK_DELIM :: (' ' :: chunksStr (q :: l2))
      from by simp [chunksStr, List.append_assoc]]
    rw [splitOnP_append_sep _ _ _ _ (by
      intro c hc
      rcases List.mem_append.mp hc with h | h
      · exact hpre c h
      · exact chunkStr_no_comma p c h) (by simp)]
    have hih := ih q [' '] (by intro c hc; simp only [List.mem_singleton] at hc
                               subst hc; decide)
    unfold splitOnChar at hih
    rw [show (' ' :: chunksStr (q :: l2)) = [' '] ++ chunksStr (q :: l2) from rfl,
      hih]
    simp

theorem parseChapterChunks_chunks (B : Nat) (W : Work)
    (chunks : List (Nat × Nat)) :
    ∀ (acc : List VerseRangeReference) (strs : List Str),
      List.Forall₂ (fun s p => ∃ lead, (∀ c ∈ lead, isWsChar c = true)
        ∧ s = lead ++ chunkStr p) strs chunks →
      (∀ p ∈ chunks, p.1 ≤ p.2) →
      parseChapterChunks B W acc strs
        = .ok (acc ++ chunks.map (fun p =>
            (⟨.startEndChapter p.1 p.2, B, W⟩ : VerseRangeReference))) := by
  induction chunks with
  | nil =>
    intro acc strs hF _
    cases hF
    simp [parseChapterChunks]
  | cons p chunks' ih =>
    intro acc strs hF hle
    cases hF with
    | cons hsp htail =>
      rename_i s strs'
      obtain ⟨lead, hl, hs⟩ := hsp
      subst hs
      rcases p with ⟨a, b⟩
      simp only [parseChapterChunks]
      rw [extract_range_chunk lead a b hl (hle (a, b) (by simp))]
      rw [exBind_ok]
      show parseChapterChunks B W
        (acc ++ [(⟨.startEndChapter a b, B, W⟩ : VerseRangeReference)]) strs' = _
      rw [ih (acc ++ [(⟨.startEndChapter a b, B, W⟩ : VerseRangeReference)]) strs' htail
        (fun q hq => hle q (List.mem_cons_of_mem _ hq))]
      simp [List.append_assoc]

theorem parseVerseChunks_chunks (B : Nat) (W : Work) (c : Nat)
    (chunks : List (Nat × Nat)) :
    ∀ (acc : List VerseRangeReference) (strs : List Str),
      List.Forall₂ (fun s p => ∃ lead, (∀ ch ∈ lead, isWsChar ch = true)
        ∧ s = lead ++ chunkStr p) strs chunks →
      (∀ p ∈ chunks, p.1 ≤ p.2) →
      parseVerseChunks B W c acc strs
        = .ok (acc ++ chunks.map (fun p =>
            (⟨.startEndVerse c p.1 p.2, B, W⟩ : VerseRangeReference))) := by
  induction chunks with
  | nil =>
    intro acc strs hF _
    cases hF
    simp [parseVerseChunks]
  | cons p chunks' ih =>
    intro acc strs hF hle
    cases hF with
    | cons hsp htail =>
      rename_i s strs'
      obtain ⟨lead, hl, hs⟩ := hsp
      subst hs
      rcases p with ⟨a, b⟩
      simp only [parseVerseChunks]
      rw [extract_range_chunk lead a b hl (hle (a, b) (by simp))]
      rw [exBind_ok]
      show parseVerseChunks B W c
        (acc ++ [(⟨.startEndVerse c a b, B, W⟩ : VerseRangeReference)]) strs' = _
      rw [ih (acc ++ [(⟨.startEndVerse c a b, B, W⟩ : VerseRangeReference)]) strs' htail
        (fun q hq => hle q (List.mem_cons_of_mem _ hq))]
      simp [List.append_assoc]

theorem forall2_chunk_strs (l : List (Nat × Nat)) :
    List.Forall₂ (fun s p => ∃ lead, (∀ ch ∈ lead, isWsChar ch = true)
      ∧ s = lead ++ chunkStr p) (l.map (fun q => ' ' :: chunkStr q)) l := by
  induction l with
  | nil => exact List.Forall₂.nil
  | cons q l ih =>
    refine List.Forall₂.cons ⟨[' '], ?_, rfl⟩ ih
    intro ch hch
    simp only [List.mem_singleton] at hch
    subst hch
    decide

/- ## C1 development: book-name extraction on digit strings and table facts -/

theorem regexCore_digits (pre : Str) (d : Char) (t : Str)
    (hd : isDigitChar d = true) :
    regexBookNameCore pre (d :: t) = none := by
  simp only [regexBookNameCore]
  rw [countLeading_stop _ _ _ (digit_not_namechar d hd)]
  rw [if_pos rfl]

theorem regex_digits_none (d : Char) (t : Str) (hd : isDigitChar d = true)
    (ht : ∀ ch ∈ t, isDigitChar ch = true) :
    regexPossibleBookName (d :: t) = none := by
  rcases t with _ | ⟨d2, t2⟩
  · show regexBookNameCore [] [d] = none
    exact regexCore_digits [] d [] hd
  · simp only [regexPossibleBookName]
    rw [digit_not_ws d2 (ht d2 (by simp))]
    rw [if_neg (by simp : ¬ (isDigitChar d && false) = true)]
    exact regexCore_digits [] d (d2 :: t2) hd

theorem trim_ws_digits (lead : Str) (hl : ∀ c ∈ lead, isWsChar c = true)
    (n : Nat) : trim (lead ++ natToChars n) = natToChars n := by
  obtain ⟨d, t, hnat, hd⟩ := natToChars_head n
  obtain ⟨z, hz, hzd⟩ := natToChars_last n
  unfold trim
  rw [trimLeft_ws_append lead _ hl]
  rw [hnat, trimLeft_head_not_ws d t (digit_not_ws d hd), ← hnat]
  exact trimRight_last_not_ws _ z hz (digit_not_ws z hzd)

theorem ebn_digits (lead : Str) (hl : ∀ c ∈ lead, isWsChar c = true) (n : Nat) :
    extract_book_name (lead ++ natToChars n)
      = .error (.referenceError (str "Book name not found as expected in "
          ++ (lead ++ natToChars n))) := by
  obtain ⟨d, t, hnat, hd⟩ := natToChars_head n
  have hreg : regexPossibleBookName (natToChars n) = none := by
    rw [hnat]
    exact regex_digits_none d t hd
      (fun ch hch => natToChars_all_digits n ch (by rw [hnat]; simp [hch]))
  simp only [extract_book_name, trim_ws_digits lead hl n, hreg]

theorem table_fact : BOOK_DATA.all (fun bd =>
    goodShort bd.short_name &&
    (match book_data_from_candidate_title bd.short_name with
     | some bd2 => bd2.book_index == bd.book_index && bd2.work == bd.work
     | none => false)) = true := by decide

theorem bookDataFor_props (w : Work) (b : Nat) (bd : BookData)
    (h : bookDataFor w b = some bd) :
    bd.work = w ∧ bd.book_index = b ∧ bd ∈ BOOK_DATA := by
  unfold bookDataFor at h
  have hp := List.find?_some h
  have hm := List.mem_of_find?_eq_some h
  simp only [Bool.and_eq_true, beq_iff_eq] at hp
  exact ⟨hp.1, hp.2, hm⟩

theorem short_name_lookup (bd : BookData) (hm : bd ∈ BOOK_DATA) :
    goodShort bd.short_name = true ∧
    ∃ bd2, book_data_from_candidate_title bd.short_name = some bd2 ∧
      bd2.book_index = bd.book_index ∧ bd2.work = bd.work := by
  have hall := List.all_eq_true.mp table_fact bd hm
  simp only [Bool.and_eq_true] at hall
  refine ⟨hall.1, ?_⟩
  rcases hbt : book_data_from_candidate_title bd.short_name with _ | bd2
  · rw [hbt] at hall
    exact absurd hall.2 (by simp)
  · rw [hbt] at hall
    simp only [Bool.and_eq_true, beq_iff_eq] at hall
    exact ⟨bd2, rfl, hall.2.1, hall.2.2⟩

theorem candidate_mem (nm : Str) (bd2 : BookData)
    (h : book_data_from_candidate_title nm = some bd2) : bd2 ∈ BOOK_DATA :=
  List.mem_of_find?_eq_some h

theorem bookDataFor_isSome_of_mem (bd2 : BookData) (hm : bd2 ∈ BOOK_DATA) :
    (bookDataFor bd2.work bd2.book_index).isSome := by
  unfold bookDataFor
  rw [List.find?_isSome]
  exact ⟨bd2, hm, by simp⟩

/- ## C1 development: processing one rendered clause -/

theorem no_colon_name_part (lead nm : Str) (hl : ∀ c ∈ lead, isWsChar c = true)
    (hg : goodShort nm = true) :
    ∀ ch ∈ lead ++ nm ++ [' '], decide (ch = CHAPTER_VERSE_DELIM) = false := by
  intro ch hch
  rcases List.mem_append.mp hch with h | h
  · rcases List.mem_append.mp h with h2 | h2
    · exact decide_eq_false (ws_ne ch CHAPTER_VERSE_DELIM (hl ch h2) (by decide))
    · exact decide_eq_false (goodChar_ne ch (goodShort_chars nm hg ch h2)
        CHAPTER_VERSE_DELIM (by decide) (by decide) (by decide) (by decide))
  · simp only [List.mem_singleton] at h
    subst h
    decide

theorem no_comma_name_part (lead nm : Str) (hl : ∀ c ∈ lead, isWsChar c = true)
    (hg : goodShort nm = true) :
    ∀ ch ∈ lead ++ nm ++ [' '], decide (ch = VERSE_CHUNK_DELIM) = false := by
  intro ch hch
  rcases List.mem_append.mp hch with h | h
  · rcases List.mem_append.mp h with h2 | h2
    · exact decide_eq_false (ws_ne ch VERSE_CHUNK_DELIM (hl ch h2) (by decide))
    · exact decide_eq_false (goodChar_ne ch (goodShort_chars nm hg ch h2)
        VERSE_CHUNK_DELIM (by decide) (by decide) (by decide) (by decide))
  · simp only [List.mem_singleton] at h
    subst h
    decide

theorem processCitation_chapters (acc : List VerseRangeReference) (lead nm : Str)
    (hl : ∀ c ∈ lead, isWsChar c = true) (hg : goodShort nm = true)
    (bd2 : BookData) (hbt : book_data_from_candidate_title nm = some bd2)
    (p : Nat × Nat) (l : List (Nat × Nat))
    (hle : ∀ q ∈ p :: l, q.1 ≤ q.2) :
    processCitation acc (lead ++ nm ++ ' ' :: chunksStr (p :: l))
      = .ok (acc ++ (p :: l).map (fun q =>
          (⟨.startEndChapter q.1 q.2, bd2.book_index, bd2.work⟩
            : VerseRangeReference))) := by
  have hsplit1 : splitOnChar CHAPTER_VERSE_DELIM
      (lead ++ nm ++ ' ' :: chunksStr (p :: l))
        = [lead ++ nm ++ ' ' :: chunksStr (p :: l)] := by
    unfold splitOnChar
    apply splitOnP_no_sep
    intro c hc
    rcases List.mem_append.mp hc with h | h
    · rcases List.mem_append.mp h with h2 | h2
      · exact decide_eq_false (ws_ne c CHAPTER_VERSE_DELIM (hl c h2) (by decide))
      · exact decide_eq_false (goodChar_ne c (goodShort_chars nm hg c h2)
          CHAPTER_VERSE_DELIM (by decide) (by decide) (by decide) (by decide))
    rcases List.mem_cons.mp h with heq | h3
    · subst heq
      decide
    · exact chunksStr_no_colon _ c h3
  have hsplit2 : splitOnChar VERSE_CHUNK_DELIM
      (lead ++ nm ++ ' ' :: chunksStr (p :: l))
        = (lead ++ nm ++ ' ' :: chunkStr p)
            :: l.map (fun q => ' ' :: chunkStr q) := by
    have h0 := split_chunksStr l p (lead ++ nm ++ [' '])
      (no_comma_name_part lead nm hl hg)
    rw [show (lead ++ nm ++ [' ']) ++ chunksStr (p :: l)
        = lead ++ nm ++ ' ' :: chunksStr (p :: l) from by simp] at h0
    rw [show (lead ++ nm ++ [' ']) ++ chunkStr p
        = lead ++ nm ++ ' ' :: chunkStr p from by simp] at h0
    exact h0
  obtain ⟨d, tl, hshape, hd⟩ := chunkStr_shape p.1 p.2
  obtain ⟨z, hz, hzd⟩ := chunkStr_last p.1 p.2
  have hshape' : chunkStr p = d :: tl := by
    rcases p with ⟨a, b⟩
    exact hshape
  have hebn : extract_book_name (lead ++ nm ++ ' ' :: chunkStr p)
      = .ok (lead.length + nm.length, bd2.book_index, bd2.work) := by
    rw [hshape']
    refine ebn_on_short lead nm hl hg d hd tl z ?_ (digit_not_ws z hzd) bd2 hbt
    rw [← hshape']
    rcases p with ⟨a, b⟩
    exact hz
  have hdrop : (lead ++ nm ++ ' ' :: chunkStr p).drop (lead.length + nm.length)
      = ' ' :: chunkStr p := by
    rw [show lead.length + nm.length = (lead ++ nm).length
        from (List.length_append _ _).symm]
    exact List.drop_left _ _
  have hloop : parseChapterChunks bd2.book_index bd2.work acc
      ((' ' :: chunkStr p) :: l.map (fun q => ' ' :: chunkStr q))
        = .ok (acc ++ (p :: l).map (fun q =>
            (⟨.startEndChapter q.1 q.2, bd2.book_index, bd2.work⟩
              : VerseRangeReference))) := by
    have h1 := parseChapterChunks_chunks bd2.book_index bd2.work (p :: l) acc
      ((p :: l).map (fun q => ' ' :: chunkStr q)) (forall2_chunk_strs (p :: l)) hle
    rw [List.map_cons] at h1
    exact h1
  simp only [processCitation, hsplit1, hsplit2, List.headD, hebn, hdrop,
    List.tail_cons, hloop]

theorem processCitation_verses_named (acc : List VerseRangeReference)
    (lead nm : Str) (hl : ∀ c ∈ lead, isWsChar c = true)
    (hg : goodShort nm = true) (bd2 : BookData)
    (hbt : book_data_from_candidate_title nm = some bd2)
    (c : Nat) (p : Nat × Nat) (l : List (Nat × Nat))
    (hle : ∀ q ∈ p :: l, q.1 ≤ q.2) :
    processCitation acc ((lead ++ nm ++ ' ' :: natToChars c)
        ++ CHAPTER_VERSE_DELIM :: chunksStr (p :: l))
      = .ok (acc ++ (p :: l).map (fun q =>
          (⟨.startEndVerse c q.1 q.2, bd2.book_index, bd2.work⟩
            : VerseRangeReference))) := by
  have hsplit1 : splitOnChar CHAPTER_VERSE_DELIM
      ((lead ++ nm ++ ' ' :: natToChars c)
        ++ CHAPTER_VERSE_DELIM :: chunksStr (p :: l))
      = [lead ++ nm ++ ' ' :: natToChars c, chunksStr (p :: l)] := by
    unfold splitOnChar
    rw [splitOnP_append_sep _ _ _ _ ?_ (by simp)]
    · rw [splitOnP_no_sep _ _ (chunksStr_no_colon (p :: l))]
    · intro ch hch
      rcases List.mem_append.mp hch with h | h
      · rcases List.mem_append.mp h with h2 | h2
        · exact decide_eq_false (ws_ne ch CHAPTER_VERSE_DELIM (hl ch h2) (by decide))
        · exact decide_eq_false (goodChar_ne ch (goodShort_chars nm hg ch h2)
            CHAPTER_VERSE_DELIM (by decide) (by decide) (by decide) (by decide))
      rcases List.mem_cons.mp h with heq | h3
      · subst heq
        decide
      · exact decide_eq_false (ne_of_digit_of_not_digit ch CHAPTER_VERSE_DELIM
          (natToChars_all_digits c ch h3) (by decide))
  obtain ⟨d, tl, hnat, hd⟩ := natToChars_head c
  obtain ⟨z, hz, hzd⟩ := natToChars_last c
  have hebn : extract_book_name (lead ++ nm ++ ' ' :: natToChars c)
      = .ok (lead.length + nm.length, bd2.book_index, bd2.work) := by
    rw [hnat]
    refine ebn_on_short lead nm hl hg d hd tl z ?_ (digit_not_ws z hzd) bd2 hbt
    rw [← hnat]
    exact hz
  have hdrop : (lead ++ nm ++ ' ' :: natToChars c).drop (lead.length + nm.length)
      = ' ' :: natToChars c := by
    rw [show lead.length + nm.length = (lead ++ nm).length
        from (List.length_append _ _).symm]
    exact List.drop_left _ _
  have hnum : extract_number (' ' :: natToChars c) = .ok c := by
    have h0 := extract_number_nat [' '] c (by
      intro x hx
      simp only [List.mem_singleton] at hx
      subst hx
      decide)
    simpa using h0
  have hsplit3 : splitOnChar VERSE_CHUNK_DELIM (chunksStr (p :: l))
      = chunkStr p :: l.map (fun q => ' ' :: chunkStr q) := by
    have h0 := split_chunksStr l p [] (by simp)
    simpa using h0
  have hloop : parseVerseChunks bd2.book_index bd2.work c acc
      (chunkStr p :: l.map (fun q => ' ' :: chunkStr q))
        = .ok (acc ++ (p :: l).map (fun q =>
            (⟨.startEndVerse c q.1 q.2, bd2.book_index, bd2.work⟩
              : VerseRangeReference))) := by
    have h1 := parseVerseChunks_chunks bd2.book_index bd2.work c (p :: l) acc
      (chunkStr p :: l.map (fun q => ' ' :: chunkStr q))
      (List.Forall₂.cons ⟨[], by simp, rfl⟩ (forall2_chunk_strs l)) hle
    exact h1
  simp only [processCitation, hsplit1, hebn, exBind_ok, hdrop, hnum,
    hsplit3, hloop]

theorem processCitation_verses_unnamed (acc : List VerseRangeReference)
    (lead : Str) (hl : ∀ c ∈ lead, isWsChar c = true)
    (z : VerseRangeReference) (hzl : acc.getLast? = some z)
    (c : Nat) (p : Nat × Nat) (l : List (Nat × Nat))
    (hle : ∀ q ∈ p :: l, q.1 ≤ q.2) :
    processCitation acc ((lead ++ natToChars c)
        ++ CHAPTER_VERSE_DELIM :: chunksStr (p :: l))
      = .ok (acc ++ (p :: l).map (fun q =>
          (⟨.startEndVerse c q.1 q.2, z.book_index, z.work⟩
            : VerseRangeReference))) := by
  have hsplit1 : splitOnChar CHAPTER_VERSE_DELIM
      ((lead ++ natToChars c) ++ CHAPTER_VERSE_DELIM :: chunksStr (p :: l))
      = [lead ++ natToChars c, chunksStr (p :: l)] := by
    unfold splitOnChar
    rw [splitOnP_append_sep _ _ _ _ ?_ (by simp)]
    · rw [splitOnP_no_sep _ _ (chunksStr_no_colon (p :: l))]
    · intro ch hch
      rcases List.mem_append.mp hch with h | h
      · exact decide_eq_false (ws_ne ch CHAPTER_VERSE_DELIM (hl ch h) (by decide))
      · exact decide_eq_false (ne_of_digit_of_not_digit ch CHAPTER_VERSE_DELIM
          (natToChars_all_digits c ch h) (by decide))
  have hebn := ebn_digits lead hl c
  have hnum : extract_number ((lead ++ natToChars c).drop 0) = .ok c := by
    rw [List.drop_zero]
    exact extract_number_nat lead c hl
  have hsplit3 : splitOnChar VERSE_CHUNK_DELIM (chunksStr (p :: l))
      = chunkStr p :: l.map (fun q => ' ' :: chunkStr q) := by
    have h0 := split_chunksStr l p [] (by simp)
    simpa using h0
  have hloop : parseVerseChunks z.book_index z.work c acc
      (chunkStr p :: l.map (fun q => ' ' :: chunkStr q))
        = .ok (acc ++ (p :: l).map (fun q =>
            (⟨.startEndVerse c q.1 q.2, z.book_index, z.work⟩
              : VerseRangeReference))) :=
    parseVerseChunks_chunks z.book_index z.work c (p :: l) acc
      (chunkStr p :: l.map (fun q => ' ' :: chunkStr q))
      (List.Forall₂.cons ⟨[], by simp, rfl⟩ (forall2_chunk_strs l)) hle
  simp only [processCitation, hsplit1, hebn, hzl, exBind_ok, hnum,
    hsplit3, hloop]

/- ## C1 development: parsing a full rendered clause list -/

theorem process_clause (acc : List VerseRangeReference) (lead : Str)
    (hl : ∀ c ∈ lead, isWsChar c = true) (cl : Clause)
    (hne : cl.body.chunks ≠ [])
    (hle : ∀ q ∈ cl.body.chunks, q.1 ≤ q.2)
    (hok : match cl.name with
      | some nm => ∃ bd, bookDataFor cl.work cl.book = some bd ∧ nm = bd.short_name
      | none => (∃ c' l', cl.body = .verses c' l') ∧
          ∃ z, acc.getLast? = some z ∧ z.book_index = cl.book ∧ z.work = cl.work) :
    processCitation acc (lead ++ clauseStr cl)
      = .ok (acc ++ refsOfBody cl.book cl.work cl.body) := by
  rcases cl with ⟨nm, B, W, body⟩
  rcases body with l | ⟨c, l⟩ <;> rcases l with _ | ⟨p, l2⟩
  · exact absurd rfl hne
  · -- chapters body: name must be present
    rcases nm with _ | nm'
    · obtain ⟨⟨c', l', heq⟩, -⟩ := hok
      exact absurd heq (by simp)
    obtain ⟨bd, hbd, hnm⟩ := hok
    obtain ⟨hbw, hbb, hbm⟩ := bookDataFor_props W B bd hbd
    obtain ⟨hgs, bd2, hbt, hb2b, hb2w⟩ := short_name_lookup bd hbm
    have hg : goodShort nm' = true := by
      rw [show nm' = bd.short_name from hnm]
      exact hgs
    have hbt' : book_data_from_candidate_title nm' = some bd2 := by
      rw [show nm' = bd.short_name from hnm]
      exact hbt
    have hmain := processCitation_chapters acc lead nm' hl hg bd2 hbt' p l2
      (fun q hq => hle q hq)
    rw [show lead ++ clauseStr ⟨some nm', B, W, .chapters (p :: l2)⟩
        = lead ++ nm' ++ ' ' :: chunksStr (p :: l2) from by
      simp [clauseStr, bodyStr]]
    rw [hmain]
    rw [show bd2.book_index = B from by rw [hb2b, hbb]]
    rw [show bd2.work = W from by rw [hb2w, hbw]]
    rfl
  · exact absurd rfl hne
  · -- verses body
    rcases nm with _ | nm'
    · obtain ⟨-, z, hzl, hzb, hzw⟩ := hok
      have hmain := processCitation_verses_unnamed acc lead hl z hzl c p l2
        (fun q hq => hle q hq)
      rw [show lead ++ clauseStr ⟨none, B, W, .verses c (p :: l2)⟩
          = (lead ++ natToChars c) ++ CHAPTER_VERSE_DELIM :: chunksStr (p :: l2)
        from by simp [clauseStr, bodyStr]]
      rw [hmain]
      rw [show z.book_index = B from hzb, show z.work = W from hzw]
      rfl
    · obtain ⟨bd, hbd, hnm⟩ := hok
      obtain ⟨hbw, hbb, hbm⟩ := bookDataFor_props W B bd hbd
      obtain ⟨hgs, bd2, hbt, hb2b, hb2w⟩ := short_name_lookup bd hbm
      have hg : goodShort nm' = true := by
        rw [show nm' = bd.short_name from hnm]
        exact hgs
      have hbt' : book_data_from_candidate_title nm' = some bd2 := by
        rw [show nm' = bd.short_name from hnm]
        exact hbt
      have hmain := processCitation_verses_named acc lead nm' hl hg bd2 hbt' c p l2
        (fun q hq => hle q hq)
      rw [show lead ++ clauseStr ⟨some nm', B, W, .verses c (p :: l2)⟩
          = (lead ++ nm' ++ ' ' :: natToChars c)
              ++ CHAPTER_VERSE_DELIM :: chunksStr (p :: l2)
        from by simp [clauseStr, bodyStr]]
      rw [hmain]
      rw [show bd2.book_index = B from by rw [hb2b, hbb]]
      rw [show bd2.work = W from by rw [hb2w, hbw]]
      rfl

theorem refsOfBody_ne_nil (B : Nat) (W : Work) (body : ClauseBody)
    (hne : body.chunks ≠ []) : refsOfBody B W body ≠ [] := by
  rcases body with l | ⟨c, l⟩ <;> simp only [refsOfBody] <;>
    simpa [ClauseBody.chunks] using hne

theorem refsOfBody_last (B : Nat) (W : Work) (body : ClauseBody)
    (hne : body.chunks ≠ []) :
    ∃ z, (refsOfBody B W body).getLast? = some z
      ∧ z.book_index = B ∧ z.work = W := by
  have hn := refsOfBody_ne_nil B W body hne
  rcases hz : (refsOfBody B W body).getLast? with _ | z
  · rw [List.getLast?_eq_getLast _ hn] at hz
    exact absurd hz (by simp)
  · refine ⟨z, rfl, ?_⟩
    have hm := List.mem_of_getLast?_eq_some hz
    rcases body with l | ⟨c, l⟩ <;> simp only [refsOfBody] at hm <;>
      obtain ⟨q, -, hq⟩ := List.mem_map.mp hm <;>
      rw [← hq] <;> exact ⟨rfl, rfl⟩

theorem process_clauses (rest : List Clause) :
    ∀ (acc : List VerseRangeReference) (B : Nat) (W : Work) (pc : Nat),
      WFafter pc B W rest →
      (∀ cl ∈ rest, ∀ q ∈ cl.body.chunks, q.1 ≤ q.2) →
      (∃ z, acc.getLast? = some z ∧ z.book_index = B ∧ z.work = W) →
      processCitations acc (rest.map (fun cl => ' ' :: clauseStr cl))
        = .ok (acc ++ refsOfClauses rest) := by
  induction rest with
  | nil =>
    intro acc B W pc _ _ _
    simp [processCitations, refsOfClauses]
  | cons cl rest' ih =>
    intro acc B W pc hwf hle hlast
    obtain ⟨hne, hname, hwfrest⟩ := hwf
    simp only [List.map_cons, processCitations]
    have hstep : processCitation acc ([' '] ++ clauseStr cl)
        = .ok (acc ++ refsOfBody cl.book cl.work cl.body) := by
      apply process_clause acc [' ']
        (by intro x hx; simp only [List.mem_singleton] at hx; subst hx; decide)
        cl hne (hle cl (by simp))
      rcases hn : cl.name with _ | nm'
      · rcases cl with ⟨nm, B', W', body⟩
        obtain ⟨hB, hW, c', l', heq, -⟩ := by
          rw [hn] at hname
          exact hname
        obtain ⟨z, hzl, hzb, hzw⟩ := hlast
        exact ⟨⟨c', l', heq⟩, z, hzl, by rw [hzb]; exact hB.symm,
          by rw [hzw]; exact hW.symm⟩
      · rw [hn] at hname
        exact hname.1
    rw [show (' ' :: clauseStr cl) = [' '] ++ clauseStr cl from rfl, hstep,
      exBind_ok]
    have hlast' : ∃ z, (acc ++ refsOfBody cl.book cl.work cl.body).getLast?
        = some z ∧ z.book_index = cl.book ∧ z.work = cl.work := by
      obtain ⟨z, hz, hzb, hzw⟩ := refsOfBody_last cl.book cl.work cl.body hne
      refine ⟨z, ?_, hzb, hzw⟩
      rw [List.getLast?_append_of_ne_nil _ (refsOfBody_ne_nil _ _ _ hne)]
      exact hz
    rw [ih (acc ++ refsOfBody cl.book cl.work cl.body) cl.book cl.work
      (pcNext pc cl) hwfrest (fun cl2 h2 => hle cl2 (List.mem_cons_of_mem _ h2))
      hlast']
    simp [refsOfClauses, List.append_assoc]

theorem clauseStr_no_semi (cl : Clause)
    (hok : cl.name = none ∨ ∃ nm, cl.name = some nm ∧ goodShort nm = true) :
    ∀ ch ∈ clauseStr cl, decide (ch = CITATION_DELIM) = false := by
  rcases cl with ⟨nm, B, W, body⟩
  intro ch hch
  simp only [clauseStr] at hch
  rcases List.mem_append.mp hch with h | h
  · rcases nm with _ | nm'
    · exact absurd h (by simp)
    · rcases hok with h0 | ⟨nm2, hnm2, hg2⟩
      · exact absurd h0 (by simp)
      have hg : goodShort nm' = true := by
        have : nm' = nm2 := by
          have h9 := hnm2
          simp only [Option.some.injEq] at h9
          exact h9
        rw [this]
        exact hg2
      rcases List.mem_append.mp h with h2 | h2
      · exact decide_eq_false (goodChar_ne ch (goodShort_chars nm' hg ch h2)
          CITATION_DELIM (by decide) (by decide) (by decide) (by decide))
      · simp only [List.mem_singleton] at h2
        subst h2
        decide
  · rcases body with l | ⟨c, l⟩
    · exact chunksStr_no_semi l ch h
    · simp only [bodyStr] at h
      rcases List.mem_append.mp h with h2 | h2
      · rcases List.mem_append.mp h2 with h3 | h3
        · exact decide_eq_false (ne_of_digit_of_not_digit ch CITATION_DELIM
            (natToChars_all_digits c ch h3) (by decide))
        · simp only [List.mem_singleton] at h3
          subst h3
          decide
      · exact chunksStr_no_semi l ch h2

theorem splitOnP_cons_not (p : Char → Bool) (c : Char) (s : Str)
    (hc : p c = false) (x : Str) (xs : List Str)
    (hs : splitOnP p s = x :: xs) :
    splitOnP p (c :: s) = (c :: x) :: xs := by
  rw [splitOnP, if_neg (by simp [hc]), hs]

theorem split_render (cs : List Clause) :
    ∀ (cl : Clause),
      (∀ cl' ∈ cl :: cs, ∀ ch ∈ clauseStr cl',
        decide (ch = CITATION_DELIM) = false) →
      splitOnChar CITATION_DELIM (renderClauses (cl :: cs))
        = clauseStr cl :: cs.map (fun cl2 => ' ' :: clauseStr cl2) := by
  induction cs with
  | nil =>
    intro cl h
    unfold splitOnChar
    rw [show renderClauses [cl] = clauseStr cl from rfl,
      splitOnP_no_sep _ _ (h cl (by simp))]
    rfl
  | cons cl2 cs' ih =>
    intro cl h
    unfold splitOnChar
    rw [renderClauses_cons_ne cl (cl2 :: cs') (by simp)]
    rw [show clauseStr cl ++ [CITATION_DELIM, ' '] ++ renderClauses (cl2 :: cs')
        = clauseStr cl ++ CITATION_DELIM :: (' ' :: renderClauses (cl2 :: cs'))
      from by simp]
    rw [splitOnP_append_sep _ _ _ _ (h cl (by simp)) (by simp)]
    have hih := ih cl2 (fun cl' h' ch hch => h cl' (by
      rcases List.mem_cons.mp h' with heq | h2
      · subst heq
        exact List.mem_cons_of_mem _ (List.mem_cons_self _ _)
      · exact List.mem_cons_of_mem _ (List.mem_cons_of_mem _ h2)) ch hch)
    unfold splitOnChar at hih
    rw [splitOnP_cons_not _ ' ' _ (by decide) _ _ hih]
    rfl

theorem wfafter_names (cs : List Clause) :
    ∀ (pc B : Nat) (W : Work), WFafter pc B W cs → ∀ cl ∈ cs,
      cl.name = none ∨ ∃ nm, cl.name = some nm ∧ goodShort nm = true := by
  induction cs with
  | nil => intro pc B W _ cl hcl; exact absurd hcl (by simp)
  | cons cl2 cs' ih =>
    intro pc B W hwf cl hcl
    obtain ⟨-, hname, hrest⟩ := hwf
    rcases List.mem_cons.mp hcl with heq | hmem
    · subst heq
      rcases hn : cl.name with _ | nm'
      · exact Or.inl rfl
      · rw [hn] at hname
        obtain ⟨⟨bd', hbd', hnm'⟩, -⟩ := hname
        obtain ⟨-, -, hbm'⟩ := bookDataFor_props _ _ bd' hbd'
        refine Or.inr ⟨nm', rfl, ?_⟩
        rw [hnm']
        exact (short_name_lookup bd' hbm').1
    · exact ih _ _ _ hrest cl hmem

theorem parse_render (cl0 : Clause) (cs : List Clause)
    (hWF : WFclauses (cl0 :: cs))
    (hle : ∀ cl ∈ cl0 :: cs, ∀ q ∈ cl.body.chunks, q.1 ≤ q.2) :
    from_str (renderClauses (cl0 :: cs)) = .ok (refsOfClauses (cl0 :: cs)) := by
  obtain ⟨hne, ⟨bd, hbd, hnm⟩, hwf⟩ := hWF
  have hallsemi : ∀ cl' ∈ cl0 :: cs, ∀ ch ∈ clauseStr cl',
      decide (ch = CITATION_DELIM) = false := by
    intro cl' hcl'
    apply clauseStr_no_semi
    rcases List.mem_cons.mp hcl' with heq | hmem
    · subst heq
      obtain ⟨-, -, hbm⟩ := bookDataFor_props _ _ bd hbd
      refine Or.inr ⟨bd.short_name, hnm, (short_name_lookup bd hbm).1⟩
    · exact wfafter_names cs _ _ _ hwf cl' hmem
  have hsplit := split_render cs cl0 hallsemi
  have hstep0 : processCitation [] (clauseStr cl0)
      = .ok (refsOfBody cl0.book cl0.work cl0.body) := by
    have h0 := process_clause [] [] (by simp) cl0 hne (hle cl0 (by simp)) ?_
    · simpa using h0
    · rw [hnm]
      exact ⟨bd, hbd, rfl⟩
  have hlast' : ∃ z, (refsOfBody cl0.book cl0.work cl0.body).getLast?
      = some z ∧ z.book_index = cl0.book ∧ z.work = cl0.work :=
    refsOfBody_last cl0.book cl0.work cl0.body hne
  have hproc := process_clauses cs (refsOfBody cl0.book cl0.work cl0.body)
    cl0.book cl0.work (pcNext 1000 cl0) hwf
    (fun cl2 h2 => hle cl2 (List.mem_cons_of_mem _ h2)) hlast'
  have hner : ((refsOfBody cl0.book cl0.work cl0.body
      ++ refsOfClauses cs).isEmpty) = false := by
    rcases hrb : refsOfBody cl0.book cl0.work cl0.body with _ | ⟨r, rs⟩
    · exact absurd hrb (refsOfBody_ne_nil _ _ _ hne)
    · rfl
  simp only [refsOfClauses] at hner
  simp only [from_str, hsplit, processCitations, hstep0, exBind_ok, hproc,
    List.nil_append, refsOfClauses, List.flatMap_cons, hner,
    if_neg (by simp : ¬ false = true)]

/- ## C1 development: references produced by the parser are well-formed -/

theorem exBind_err (e : BOMError) (f : α → Except BOMError β) :
    ((Except.error e : Except BOMError α) >>= f) = .error e := rfl

theorem extract_range_le (s : Str) (a b : Nat)
    (h : extract_range s = .ok (a, b)) : a ≤ b := by
  simp only [extract_range] at h
  split at h
  · rcases hn : extract_number _ with e | n <;> rw [hn] at h
    · rw [exBind_err] at h
      exact absurd h (by simp)
    · rw [exBind_ok] at h
      simp only [Except.ok.injEq, Prod.mk.injEq] at h
      rw [← h.1, ← h.2]
  · rename_i x1 x2 heq2
    rcases hn1 : extract_number x1 with e | n1 <;> rw [hn1] at h
    · rw [exBind_err] at h
      exact absurd h (by simp)
    rw [exBind_ok] at h
    rcases hn2 : extract_number x2 with e | n2 <;> rw [hn2] at h
    · rw [exBind_err] at h
      exact absurd h (by simp)
    rw [exBind_ok] at h
    split at h
    · exact absurd h (by simp)
    · rename_i hge
      simp only [Except.ok.injEq, Prod.mk.injEq] at h
      rw [← h.1, ← h.2]
      omega
  · exact absurd h (by simp)

theorem ebn_ok_book (s : Str) (i b : Nat) (w : Work)
    (h : extract_book_name s = .ok (i, b, w)) :
    (bookDataFor w b).isSome = true := by
  simp only [extract_book_name] at h
  split at h
  case _ cap heq1 =>
    split at h
    case _ bd heq2 =>
      split at h
      case _ idx heq3 =>
        simp only [Except.ok.injEq, Prod.mk.injEq] at h
        obtain ⟨-, hb, hw⟩ := h
        have hm := candidate_mem _ bd heq2
        have hs := bookDataFor_isSome_of_mem bd hm
        rw [← hb, ← hw]
        exact hs
      case _ => exact absurd h (by simp)
    case _ => exact absurd h (by simp)
  case _ => exact absurd h (by simp)

theorem parseChapterChunks_props (strs : List Str) (B : Nat) (W : Work)
    (hbw : (bookDataFor W B).isSome = true) :
    ∀ (acc out : List VerseRangeReference),
      parseChapterChunks B W acc strs = .ok out →
      (∀ r ∈ acc, refOK r) → ∀ r ∈ out, refOK r := by
  induction strs with
  | nil =>
    intro acc out h hacc
    simp only [parseChapterChunks] at h
    simp only [Except.ok.injEq] at h
    rw [← h]
    exact hacc
  | cons s rest ih =>
    intro acc out h hacc
    simp only [parseChapterChunks] at h
    rcases hr : extract_range s with e | ⟨a, b⟩ <;> rw [hr] at h
    · rw [exBind_err] at h
      exact absurd h (by simp)
    · rw [exBind_ok] at h
      refine ih _ out h ?_
      intro r hrm
      rcases List.mem_append.mp hrm with hm | hm
      · exact hacc r hm
      · simp only [List.mem_singleton] at hm
        subst hm
        exact ⟨hbw, extract_range_le s a b hr⟩

theorem parseVerseChunks_props (strs : List Str) (B : Nat) (W : Work) (c : Nat)
    (hbw : (bookDataFor W B).isSome = true) :
    ∀ (acc out : List VerseRangeReference),
      parseVerseChunks B W c acc strs = .ok out →
      (∀ r ∈ acc, refOK r) → ∀ r ∈ out, refOK r := by
  induction strs with
  | nil =>
    intro acc out h hacc
    simp only [parseVerseChunks] at h
    simp only [Except.ok.injEq] at h
    rw [← h]
    exact hacc
  | cons s rest ih =>
    intro acc out h hacc
    simp only [parseVerseChunks] at h
    rcases hr : extract_range s with e | ⟨a, b⟩ <;> rw [hr] at h
    · rw [exBind_err] at h
      exact absurd h (by simp)
    · rw [exBind_ok] at h
      refine ih _ out h ?_
      intro r hrm
      rcases List.mem_append.mp hrm with hm | hm
      · exact hacc r hm
      · simp only [List.mem_singleton] at hm
        subst hm
        exact ⟨hbw, extract_range_le s a b hr⟩

theorem processCitation_props (acc : List VerseRangeReference) (cit : Str)
    (out : List VerseRangeReference) (h : processCitation acc cit = .ok out)
    (hacc : ∀ r ∈ acc, refOK r) : ∀ r ∈ out, refOK r := by
  simp only [processCitation] at h
  split at h
  · -- zero-colon branch
    split at h
    case _ e heq => exact absurd h (by simp)
    case _ i b w heq =>
      exact parseChapterChunks_props _ b w (ebn_ok_book _ i b w heq) acc out h hacc
  · -- one-colon branch
    split at h
    case _ v heq =>
      rcases v with ⟨i, b, w⟩
      rw [exBind_ok] at h
      rcases hnum : extract_number _ with e2 | ch <;> rw [hnum] at h
      · rw [exBind_err] at h
        exact absurd h (by simp)
      · rw [exBind_ok] at h
        exact parseVerseChunks_props _ b w ch (ebn_ok_book _ i b w heq)
          acc out h hacc
    case _ e heq =>
      split at h
      case _ prev hlast =>
        rw [exBind_ok] at h
        rcases hnum : extract_number _ with e2 | ch <;> rw [hnum] at h
        · rw [exBind_err] at h
          exact absurd h (by simp)
        · rw [exBind_ok] at h
          have hprev := hacc prev (List.mem_of_getLast?_eq_some hlast)
          exact parseVerseChunks_props _ prev.book_index prev.work ch
            hprev.1 acc out h hacc
      case _ hlast =>
        rw [exBind_err] at h
        exact absurd h (by simp)
  · exact absurd h (by simp)

theorem processCitations_props (cits : List Str) :
    ∀ (acc out : List VerseRangeReference),
      processCitations acc cits = .ok out →
      (∀ r ∈ acc, refOK r) → ∀ r ∈ out, refOK r := by
  induction cits with
  | nil =>
    intro acc out h hacc
    simp only [processCitations, Except.ok.injEq] at h
    rw [← h]
    exact hacc
  | cons cit rest ih =>
    intro acc out h hacc
    simp only [processCitations] at h
    rcases hpc : processCitation acc cit with e | refs' <;> rw [hpc] at h
    · rw [exBind_err] at h
      exact absurd h (by simp)
    · rw [exBind_ok] at h
      exact ih refs' out h (processCitation_props acc cit refs' hpc hacc)

theorem from_str_props (s : Str) (R : List VerseRangeReference)
    (h : from_str s = .ok R) : ∀ r ∈ R, refOK r := by
  simp only [from_str] at h
  rcases hpc : processCitations [] (splitOnChar CITATION_DELIM s) with e | refs
    <;> rw [hpc] at h
  · rw [exBind_err] at h
    exact absurd h (by simp)
  · rw [exBind_ok] at h
    split at h
    · exact absurd h (by simp)
    · simp only [Except.ok.injEq] at h
      rw [← h]
      exact processCitations_props _ [] refs hpc (by simp)

theorem from_str_ne_nil (s : Str) (R : List VerseRangeReference)
    (h : from_str s = .ok R) : R ≠ [] := by
  simp only [from_str] at h
  rcases hpc : processCitations [] (splitOnChar CITATION_DELIM s) with e | refs
    <;> rw [hpc] at h
  · rw [exBind_err] at h
    exact absurd h (by simp)
  · rw [exBind_ok] at h
    split at h
    · exact absurd h (by simp)
    · rename_i hemp
      simp only [Except.ok.injEq] at h
      rw [← h]
      intro hnil
      subst hnil
      exact hemp rfl

/- ## C1 development: chunk ordering and the round-trip theorem -/

theorem clausesGo_chunksLE (refs : List VerseRangeReference) :
    ∀ (pb pc : Nat) (pw : Option Work) (cur : Clause) (cs : List Clause),
      clausesGo refs pb pc pw cur = some cs →
      (∀ r ∈ refs, (refPair r).1 ≤ (refPair r).2) →
      (∀ q ∈ cur.body.chunks, q.1 ≤ q.2) →
      ∀ cl ∈ cs, ∀ q ∈ cl.body.chunks, q.1 ≤ q.2 := by
  induction refs with
  | nil =>
    intro pb pc pw cur cs h _ hcur cl hcl
    simp only [clausesGo, Option.some.injEq] at h
    rw [← h] at hcl
    simp only [List.mem_singleton] at hcl
    subst hcl
    exact hcur
  | cons r rest ih =>
    intro pb pc pw cur cs h href hcur
    rcases r with ⟨rt, b, w⟩
    have hr0 := href _ (List.mem_cons_self _ _)
    have hrest : ∀ r ∈ rest, (refPair r).1 ≤ (refPair r).2 :=
      fun r hr => href r (List.mem_cons_of_mem _ hr)
    rcases rt with ⟨c, s, e⟩ | ⟨s, e⟩
    · have hse : s ≤ e := hr0
      cases hnbt : (pb != b || (pw.isNone || pw != some w))
      · cases hcp : (c == pc)
        · rw [clausesGo_cons_verse_unnamed _ _ _ _ _ _ _ _ _ _ hnbt hcp] at h
          rcases hcg : clausesGo rest pb c pw
              ⟨none, b, w, .verses c [(s, e)]⟩ with _ | cs2 <;> rw [hcg] at h
          · exact absurd h (by simp [Option.map])
          · simp only [Option.map, Option.some.injEq] at h
            rw [← h]
            intro cl hcl
            rcases List.mem_cons.mp hcl with heq | hm
            · subst heq
              exact hcur
            · exact ih pb c pw _ cs2 hcg hrest
                (by intro q hq
                    simp only [ClauseBody.chunks, List.mem_singleton] at hq
                    subst hq
                    exact hse) cl hm
        · rw [clausesGo_cons_verse_cont _ _ _ _ _ _ _ _ _ _ hnbt hcp] at h
          exact ih pb pc pw _ cs h hrest
            (by rw [chunks_appendChunk]
                intro q hq
                rcases List.mem_append.mp hq with hm | hm
                · exact hcur q hm
                · simp only [List.mem_singleton] at hm
                  subst hm
                  exact hse)
      · rcases hbd : bookDataFor w b with _ | bd
        · rw [clausesGo_cons_verse_new_none _ _ _ _ _ _ _ _ _ _ hnbt hbd] at h
          exact absurd h (by simp)
        · rw [clausesGo_cons_verse_new _ _ _ _ _ _ _ _ _ _ bd hnbt hbd] at h
          rcases hcg : clausesGo rest b c (some w)
              ⟨some bd.short_name, b, w, .verses c [(s, e)]⟩ with _ | cs2
            <;> rw [hcg] at h
          · exact absurd h (by simp [Option.map])
          · simp only [Option.map, Option.some.injEq] at h
            rw [← h]
            intro cl hcl
            rcases List.mem_cons.mp hcl with heq | hm
            · subst heq
              exact hcur
            · exact ih b c (some w) _ cs2 hcg hrest
                (by intro q hq
                    simp only [ClauseBody.chunks, List.mem_singleton] at hq
                    subst hq
                    exact hse) cl hm
    · have hse : s ≤ e := hr0
      cases hnbt : (pb != b || (pw.isNone || pw != some w))
      · rw [clausesGo_cons_chapter_cont _ _ _ _ _ _ _ _ _ hnbt] at h
        exact ih pb pc pw _ cs h hrest
          (by rw [chunks_appendChunk]
              intro q hq
              rcases List.mem_append.mp hq with hm | hm
              · exact hcur q hm
              · simp only [List.mem_singleton] at hm
                subst hm
                exact hse)
      · rcases hbd : bookDataFor w b with _ | bd
        · rw [clausesGo_cons_chapter_new_none _ _ _ _ _ _ _ _ _ hnbt hbd] at h
          exact absurd h (by simp)
        · rw [clausesGo_cons_chapter_new _ _ _ _ _ _ _ _ _ bd hnbt hbd] at h
          rcases hcg : clausesGo rest b pc (some w)
              ⟨some bd.short_name, b, w, .chapters [(s, e)]⟩ with _ | cs2
            <;> rw [hcg] at h
          · exact absurd h (by simp [Option.map])
          · simp only [Option.map, Option.some.injEq] at h
            rw [← h]
            intro cl hcl
            rcases List.mem_cons.mp hcl with heq | hm
            · subst heq
              exact hcur
            · exact ih b pc (some w) _ cs2 hcg hrest
                (by intro q hq
                    simp only [ClauseBody.chunks, List.mem_singleton] at hq
                    subst hq
                    exact hse) cl hm

theorem clausesOf_chunksLE (refs : List VerseRangeReference) (cs : List Clause)
    (h : clausesOf refs = some cs)
    (href : ∀ r ∈ refs, (refPair r).1 ≤ (refPair r).2) :
    ∀ cl ∈ cs, ∀ q ∈ cl.body.chunks, q.1 ≤ q.2 := by
  rcases refs with _ | ⟨r, rest⟩
  · simp only [clausesOf, Option.some.injEq] at h
    rw [← h]
    intro cl hcl
    exact absurd hcl (by simp)
  · rcases r with ⟨rt, b, w⟩
    have hr0 := href _ (List.mem_cons_self _ _)
    have hrest : ∀ r2 ∈ rest, (refPair r2).1 ≤ (refPair r2).2 :=
      fun r2 hr2 => href r2 (List.mem_cons_of_mem _ hr2)
    rcases hbd : bookDataFor w b with _ | bd
    · rw [clausesOf_cons_none rest rt b w hbd] at h
      exact absurd h (by simp)
    rcases rt with ⟨c, s, e⟩ | ⟨s, e⟩
    · rw [clausesOf_cons_verse _ _ _ _ _ _ bd hbd] at h
      exact clausesGo_chunksLE rest b c (some w) _ cs h hrest
        (by intro q hq
            simp only [ClauseBody.chunks, List.mem_singleton] at hq
            subst hq
            exact hr0)
    · rw [clausesOf_cons_chapter _ _ _ _ _ bd hbd] at h
      exact clausesGo_chunksLE rest b 1000 (some w) _ cs h hrest
        (by intro q hq
            simp only [ClauseBody.chunks, List.mem_singleton] at hq
            subst hq
            exact hr0)

theorem clausesOf_cons_ne_nil (r : VerseRangeReference)
    (rest : List VerseRangeReference) (cs : List Clause)
    (h : clausesOf (r :: rest) = some cs) : cs ≠ [] := by
  rcases r with ⟨rt, b, w⟩
  rcases hbd : bookDataFor w b with _ | bd
  · rw [clausesOf_cons_none rest rt b w hbd] at h
    exact absurd h (by simp)
  rcases rt with ⟨c, s, e⟩ | ⟨s, e⟩
  · rw [clausesOf_cons_verse _ _ _ _ _ _ bd hbd] at h
    exact clausesGo_ne_nil rest _ _ _ _ _ h
  · rw [clausesOf_cons_chapter _ _ _ _ _ bd hbd] at h
    exact clausesGo_ne_nil rest _ _ _ _ _ h

/-- C1: for every citation string accepted by the citation parser, formatting
is a fixed point after one pass: the parsed reference list displays
successfully, the displayed canonical string parses again, and displaying the
re-parsed references reproduces the same string
(`format(parse(format(parse(s)))) = format(parse(s))`). -/
theorem citation_format_fixed_point (s : Str) (R : List VerseRangeReference)
    (h : from_str s = .ok R) :
    ∃ t R', display R = some t ∧ from_str t = .ok R' ∧ display R' = some t := by
  have hprops := from_str_props s R h
  have hsome : ∀ r ∈ R, (bookDataFor r.work r.book_index).isSome :=
    fun r hr => (hprops r hr).1
  obtain ⟨cs, hcs⟩ := clausesOf_total R hsome
  rcases hR : R with _ | ⟨r0, R2⟩
  · exact absurd rfl (by rw [hR] at h; exact from_str_ne_nil s [] h)
  rw [hR] at hcs
  have hcsne : cs ≠ [] := clausesOf_cons_ne_nil r0 R2 cs hcs
  rcases hcs2 : cs with _ | ⟨cl0, cs'⟩
  · exact absurd hcs2 hcsne
  rw [hcs2] at hcs
  have hWF := clausesOf_wf (r0 :: R2) (cl0 :: cs') hcs
  have hle : ∀ cl ∈ cl0 :: cs', ∀ q ∈ cl.body.chunks, q.1 ≤ q.2 :=
    clausesOf_chunksLE (r0 :: R2) (cl0 :: cs') hcs
      (fun r hr => (hprops r (by rw [hR]; exact hr)).2)
  have hdisp : display (r0 :: R2) = some (renderClauses (cl0 :: cs')) := by
    rw [display_clauses, hcs]
    rfl
  have hparse := parse_render cl0 cs' hWF hle
  refine ⟨renderClauses (cl0 :: cs'), refsOfClauses (cl0 :: cs'), hdisp, hparse, ?_⟩
  rw [display_clauses, regen (cl0 :: cs') hWF]
  rfl

theorem citation_format_fixed_point_witness :
    from_str (str "Alma 3:16-17")
      = .ok [⟨.startEndVerse 3 16 17, 8, .bookOfMormon⟩] ∧
    ∃ t R', display [⟨.startEndVerse 3 16 17, 8, .bookOfMormon⟩] = some t ∧
      from_str t = .ok R' ∧ display R' = some t :=
  ⟨rfl, citation_format_fixed_point (str "Alma 3:16-17")
    [⟨.startEndVerse 3 16 17, 8, .bookOfMormon⟩] rfl⟩

end RsBom
